import Mathlib

/-!
Verification development for the ircodecs integer-compression library.

Each Python module of the library is embedded shallowly: pure functions become
Lean functions on `Nat` / `Int` lists, Python exceptions become `Option`
(`none` models a raised exception), and in-place mutation of an argument list
is modelled by returning the post-call state of that list alongside the
result.  Machine integers are modelled as unbounded naturals with the masks
(`&&& 0xFF`, `&&& 0xFFFFFFFF`, ...) written exactly where the source applies
them.
-/

/-! ## bitbytearray/bitbyteutils.py -/

/-- to_bytes(size, number): big-endian byte sequence of length `size`
(`[(number >> (i << 3)) & 255 for i in reversed(range(0, size))]`). -/
def bitbyteutils.to_bytes (size : Nat) (number : Nat) : List Nat :=
  ((List.range size).reverse).map (fun i => (number >>> (i <<< 3)) &&& 255)

/-- to_byte(number) = to_bytes(1, number). -/
def bitbyteutils.to_byte (number : Nat) : List Nat :=
  bitbyteutils.to_bytes 1 number

/-- to_left(byte, places) = (byte << places) & 0xFF. -/
def bitbyteutils.to_left (byte : Nat) (places : Nat) : Nat :=
  (byte <<< places) &&& 0xFF

/-- to_right(byte, places) = (byte >> places) & 0xFF. -/
def bitbyteutils.to_right (byte : Nat) (places : Nat) : Nat :=
  (byte >>> places) &&& 0xFF

/-- validate_padding, translated verbatim: the guard is
`if padding >= 0 or padding < 8: return` and the exception is raised only
when the guard fails.  `some ()` models a normal return, `none` models the
raised exception. -/
def bitbyteutils.validate_padding (padding : Int) : Option Unit :=
  if padding ≥ 0 ∨ padding < 8 then some () else none

/-! ## gapsencoder.py

`encode` reads its argument, `decode` executes `gaps.pop(0)` on its argument.
Both are modelled in state-passing style: the second component of the result
is the caller's list as left behind by the call.  An `IndexError`
(`numbers[0]` or `pop(0)` on an empty list) is modelled as `none`. -/

/-- The gap loop: `for i in range(1, len(numbers)): gaps.append(numbers[i] - numbers[i-1])`. -/
def gapsencoder.gapsAux : Int → List Int → List Int
  | _, [] => []
  | prev, x :: xs => (x - prev) :: gapsencoder.gapsAux x xs

/-- gapsencoder.encode in state-passing style: the returned pair is
(result list, argument list after the call). -/
def gapsencoder.encode (numbers : List Int) : Option (List Int × List Int) :=
  match numbers with
  | [] => none
  | n0 :: rest => some (n0 :: gapsencoder.gapsAux n0 rest, n0 :: rest)

/-- The prefix-sum loop: `for gap in gaps: numbers.append(gap + numbers[-1])`. -/
def gapsencoder.sumsAux : Int → List Int → List Int
  | _, [] => []
  | acc, g :: gs => (acc + g) :: gapsencoder.sumsAux (acc + g) gs

/-- gapsencoder.decode in state-passing style: `numbers = [gaps.pop(0)]`
mutates the argument, so the second component of the result (the argument
after the call) is the tail of the input. -/
def gapsencoder.decode (gaps : List Int) : Option (List Int × List Int) :=
  match gaps with
  | [] => none
  | g0 :: rest => some (g0 :: gapsencoder.sumsAux g0 rest, rest)

/-- Spec-side definition (from the claim's words): the correct prefix-sum
reconstruction of a gap list, element i being the sum of the first i+1 gaps. -/
def prefix_sums (g : List Int) : List Int :=
  (List.range g.length).map (fun i => (g.take (i + 1)).sum)

/-! ## vbencoder.py -/

/-- The digit loop of vbencoder.encode: most-significant-first base-128
digits of `number` (termination: `number >> 7` shrinks). -/
def vbencoder.vbAux (number : Nat) : List Nat :=
  if h : number < 128 then [number &&& 127]
  else
    have : number >>> 7 < number := by
      rw [Nat.shiftRight_eq_div_pow]
      exact Nat.div_lt_self (by omega) (by norm_num)
    vbencoder.vbAux (number >>> 7) ++ [number &&& 127]
termination_by number

/-- `encoded[-1] += 128`: add the terminator bit to the last byte. -/
def vbencoder.addTerminator : List Nat → List Nat
  | [] => []
  | [x] => [x + 128]
  | x :: xs => x :: vbencoder.addTerminator xs

/-- vbencoder.encode: base-128 digits, high bit set on the final byte. -/
def vbencoder.encode (number : Nat) : List Nat :=
  vbencoder.addTerminator (vbencoder.vbAux number)

/-- The scan loop of vbencoder.decode_number, starting at byte `i` with
accumulator `acc`; falls off the end with `(0, offset)` when no byte with the
high bit set remains. -/
def vbencoder.decodeNumberAux (encoded : List Nat) (offset : Nat) (acc : Nat)
    (i : Nat) : Nat × Nat :=
  if h : i < encoded.length then
    let byte := encoded.get ⟨i, h⟩
    let acc' := (acc <<< 7) + byte
    if byte > 127 then (acc' - 128, (i + 1) * 8)
    else vbencoder.decodeNumberAux encoded offset acc' (i + 1)
  else (0, offset)
termination_by encoded.length - i

/-- vbencoder.decode_number(encoded, offset): decode one number starting at
byte `offset >> 3`; returns (number, new bit offset). -/
def vbencoder.decode_number (encoded : List Nat) (offset : Nat) : Nat × Nat :=
  vbencoder.decodeNumberAux encoded offset 0 (offset >>> 3)

/-- The stream loop of vbencoder.decode. -/
def vbencoder.decodeAux : List Nat → Nat → List Nat
  | [], _ => []
  | byte :: rest, acc =>
    let acc' := (acc <<< 7) + byte
    if byte > 127 then (acc' - 128) :: vbencoder.decodeAux rest 0
    else vbencoder.decodeAux rest acc'

/-- vbencoder.decode: decode the whole byte stream. -/
def vbencoder.decode (encoded : List Nat) : List Nat :=
  vbencoder.decodeAux encoded 0

/-! ## unaryencoder.py -/

/-- unaryencoder.encode(number, optimize) → some (bytes, padding); `none`
models the exception raised when encoding 0 in optimized mode.  The dead
`if padding == 8` branch of the source is preserved. -/
def unaryencoder.encode (number : Nat) (optimize : Bool) : Option (List Nat × Nat) :=
  let bytes_required := (number + 1 + 7) / 8
  let padding0 := 8 - number % 8 - 1
  let padding := if padding0 = 8 then 0 else padding0
  let encoded := List.replicate bytes_required 255
  let encoded := encoded.set (bytes_required - 1) ((255 <<< (padding + 1)) &&& 0xFF)
  if optimize then
    if number = 0 then none
    else
      let encoded := if padding = 7 then encoded.dropLast else encoded
      let last := encoded.getD (encoded.length - 1) 0
      let encoded := encoded.set (encoded.length - 1) ((last <<< 1) &&& 0xFF)
      let padding := if padding < 7 then padding + 1 else 0
      some (encoded, padding)
  else some (encoded, padding)

/-! ## Claim theorems (first group) -/

/-- C7 (code evaluation): `validate_padding` never raises — the guard
`padding >= 0 or padding < 8` is a tautology, so the function returns
normally on every integer, including 8 and -1, contradicting its own
docstring and the spec'd `InvalidPadding` behaviour. -/
theorem C7_validate_padding_never_raises :
    bitbyteutils.validate_padding 8 = some () ∧
    bitbyteutils.validate_padding (-1) = some () ∧
    ∀ p : Int, bitbyteutils.validate_padding p = some () := by
  have hall : ∀ p : Int, bitbyteutils.validate_padding p = some () := by
    intro p
    unfold bitbyteutils.validate_padding
    have h : p ≥ 0 ∨ p < 8 := by omega
    rw [if_pos h]
  exact ⟨hall 8, hall (-1), hall⟩

theorem gapsencoder.sumsAux_eq (l : List Int) :
    ∀ a : Int, a :: gapsencoder.sumsAux a l
      = (List.range (l.length + 1)).map (fun i => a + (l.take i).sum) := by
  induction l with
  | nil => intro a; simp [gapsencoder.sumsAux]
  | cons g gs ih =>
    intro a
    simp only [gapsencoder.sumsAux, List.length_cons]
    rw [List.range_succ_eq_map, List.map_cons, List.map_map, ih (a + g)]
    refine List.cons_eq_cons.mpr ⟨by simp, ?_⟩
    congr 1
    funext i
    simp [add_assoc]

/-- C10: gapsencoder.decode mutates its argument — after the call the
caller's list has lost its first element (the implementation pops it) — yet
the returned list is the correct prefix-sum reconstruction; gapsencoder.encode
leaves its argument unchanged. -/
theorem C10_gaps_decode_pops_argument (g : List Int) (hg : g ≠ []) :
    (∃ r, gapsencoder.decode g = some (r, g.tail) ∧ r = prefix_sums g) ∧
    (∃ e, gapsencoder.encode g = some (e, g)) := by
  match g, hg with
  | g0 :: rest, _ =>
    refine ⟨⟨g0 :: gapsencoder.sumsAux g0 rest, rfl, ?_⟩,
            ⟨g0 :: gapsencoder.gapsAux g0 rest, rfl⟩⟩
    rw [gapsencoder.sumsAux_eq]
    unfold prefix_sums
    rfl

/-- Witness for C10 at the concrete input [7, 3]. -/
theorem C10_gaps_decode_pops_argument_witness :
    (∃ r, gapsencoder.decode [(7 : Int), 3] = some (r, [3]) ∧
      r = prefix_sums [7, 3]) ∧
    (∃ e, gapsencoder.encode [(7 : Int), 3] = some (e, [7, 3])) := by
  have h := C10_gaps_decode_pops_argument [7, 3] (by simp)
  simpa using h

theorem vbencoder.decodeNumberAux_all_small (encoded : List Nat) (offset : Nat) :
    ∀ fuel i acc, encoded.length - i ≤ fuel →
      (∀ j, i ≤ j → j < encoded.length → encoded.getD j 0 ≤ 127) →
      vbencoder.decodeNumberAux encoded offset acc i = (0, offset) := by
  intro fuel
  induction fuel with
  | zero =>
    intro i acc hle _
    have h : ¬ i < encoded.length := by omega
    unfold vbencoder.decodeNumberAux
    simp [h]
  | succ f ih =>
    intro i acc hle hsmall
    unfold vbencoder.decodeNumberAux
    by_cases h : i < encoded.length
    · simp only [h, dif_pos]
      have hb : encoded.get ⟨i, h⟩ ≤ 127 := by
        have h1 := hsmall i le_rfl h
        simpa [List.getD_eq_getElem?_getD, List.getElem?_eq_getElem h,
          List.get_eq_getElem] using h1
      have hnb : ¬ encoded.get ⟨i, h⟩ > 127 := by omega
      simp only [hnb, if_false]
      exact ih (i + 1) _ (by omega) (fun j hj hjl => hsmall j (by omega) hjl)
    · simp [h]

/-- C8: vbencoder.decode_number on a buffer with no terminator byte at or
after `offset / 8` silently returns the default pair (0, offset) instead of
raising a buffer-underrun or format error. -/
theorem C8_vb_decode_number_default_zero (encoded : List Nat) (offset : Nat)
    (hsmall : ∀ j, offset / 8 ≤ j → j < encoded.length → encoded.getD j 0 ≤ 127) :
    vbencoder.decode_number encoded offset = (0, offset) := by
  unfold vbencoder.decode_number
  exact vbencoder.decodeNumberAux_all_small encoded offset (encoded.length - offset >>> 3)
    (offset >>> 3) 0 le_rfl
    (fun j hj hjl => hsmall j (by simpa [Nat.shiftRight_eq_div_pow] using hj) hjl)

/-- Witness for C8: the buffer [200, 5] read from bit offset 8 — every byte
from index 1 on lacks the high bit — yields (0, 8). -/
theorem C8_vb_decode_number_default_zero_witness :
    vbencoder.decode_number [200, 5] 8 = (0, 8) := by
  apply C8_vb_decode_number_default_zero
  intro j hj hjl
  have hj1 : j = 1 := by simp at hjl; omega
  subst hj1
  decide

theorem unaryencoder.encode_false_spec (n : Nat) :
    ∃ e p, unaryencoder.encode n false = some (e, p) ∧
      8 * e.length = (n + 1) + p := by
  have h8 : ¬ (8 - n % 8 - 1 = 8) := by omega
  simp only [unaryencoder.encode, h8, if_false, ite_false, Bool.false_eq_true]
  refine ⟨_, _, rfl, ?_⟩
  simp only [List.length_set, List.length_replicate]
  omega

theorem unaryencoder.encode_true_spec (n : Nat) (hn : 0 < n) :
    ∃ e p, unaryencoder.encode n true = some (e, p) ∧
      8 * e.length = n + p := by
  have hn0 : ¬ (n = 0) := by omega
  have h8 : ¬ (8 - n % 8 - 1 = 8) := by omega
  simp only [unaryencoder.encode, h8, if_false, ite_false, ite_true, hn0,
    Bool.true_eq_false]
  by_cases hp7 : 8 - n % 8 - 1 = 7
  · simp only [hp7, if_true, ite_true, if_false, ite_false, Nat.lt_irrefl]
    refine ⟨_, _, rfl, ?_⟩
    simp only [List.length_set, List.length_dropLast, List.length_replicate]
    omega
  · have hlt : 8 - n % 8 - 1 < 7 := by omega
    simp only [hp7, if_false, ite_false, hlt, if_true, ite_true]
    refine ⟨_, _, rfl, ?_⟩
    simp only [List.length_set, List.length_replicate]
    omega

/-- C6: the unoptimized unary encoding of n uses exactly n+1 bits
(8·len − padding = n+1, stated addition-side as 8·len = (n+1)+padding), and
for n > 0 the optimized encoding uses exactly n bits. -/
theorem C6_unary_size_law (n : Nat) :
    (∃ e p, unaryencoder.encode n false = some (e, p) ∧
      8 * e.length = (n + 1) + p) ∧
    (0 < n → ∃ e p, unaryencoder.encode n true = some (e, p) ∧
      8 * e.length = n + p) :=
  ⟨unaryencoder.encode_false_spec n, fun hn => unaryencoder.encode_true_spec n hn⟩

/-- Witness for C6 at n = 3 (the optimized branch has the hypothesis 0 < n). -/
theorem C6_unary_size_law_witness :
    0 < 3 ∧ (∃ e p, unaryencoder.encode 3 true = some (e, p) ∧
      8 * e.length = 3 + p) :=
  ⟨by decide, (C6_unary_size_law 3).2 (by decide)⟩

/-! ## eliasfanoencoder.py: delta-since-min preprocessing -/

/-- eliasfanoencoder.__delta_encode_since_min, translated verbatim over
integers (the arithmetic `min(encoded[0]-1, num1-1)` can produce negative
values when the input is not strictly increasing, so the model uses `Int`).
`none` models the IndexError that `numbers[0]` / `encoded[0]` raises on
lists shorter than the callers guarantee. -/
def eliasfanoencoder.delta_encode_since_min (numbers : List Int) :
    Option (List Int) :=
  match numbers with
  | [] => none
  | num1 :: rest =>
    let encoded := rest.map (fun x => x - num1)
    if num1 = 0 then some (0 :: numbers)
    else
      match encoded with
      | [] => none
      | e0 :: _ =>
        let fano_1st_number := min (e0 - 1) (num1 - 1)
        let vb_number := num1 - fano_1st_number
        some (vb_number :: fano_1st_number :: encoded)

/-- eliasfanoencoder.__delta_decode_since_min: add `encoded[0]+encoded[1]` to
every element from index 2 on, and return that sum as the first element. -/
def eliasfanoencoder.delta_decode_since_min (encoded : List Int) :
    Option (List Int) :=
  match encoded with
  | e0 :: e1 :: rest => some ((e0 + e1) :: rest.map (fun x => (e0 + e1) + x))
  | _ => none

/-- C3 counterexample: on the sorted input [2, 5, 9] (lead = 2 > 0) the code
produces the stream [1, 1, 3, 7] — the first tail delta d(1) = 3 is retained
right after fano_first — not the claimed [1, 1, 7] in which d(1) is replaced. -/
theorem C3_counterexample :
    eliasfanoencoder.delta_encode_since_min [2, 5, 9] = some [1, 1, 3, 7] ∧
    eliasfanoencoder.delta_encode_since_min [2, 5, 9] ≠ some [1, 1, 7] := by
  constructor <;> decide

/-- C3 (amended): for a sorted list of length ≥ 2 with head s0, the
preprocessed stream is [vb_number, fano_first] followed by ALL the tail
deltas d(1), d(2), ... (fano_first is inserted, d(1) is not dropped); when
the head is 0 the stream is 0 followed by the input unchanged. -/
theorem C3_delta_encode_stream (s0 s1 : Int) (rest : List Int)
    (hs : (s0 :: s1 :: rest).Sorted (· ≤ ·)) :
    eliasfanoencoder.delta_encode_since_min (s0 :: s1 :: rest)
      = some (if s0 = 0 then 0 :: s0 :: s1 :: rest
          else (s0 - min (s1 - s0 - 1) (s0 - 1)) :: min (s1 - s0 - 1) (s0 - 1)
            :: (s1 - s0) :: rest.map (fun x => x - s0)) := by
  by_cases h0 : s0 = 0 <;>
    simp [eliasfanoencoder.delta_encode_since_min, h0]

/-- Witness for C3 at the sorted input [3, 10, 11]. -/
theorem C3_delta_encode_stream_witness :
    ([(3 : Int), 10, 11]).Sorted (· ≤ ·) ∧
    eliasfanoencoder.delta_encode_since_min [3, 10, 11]
      = some (if (3 : Int) = 0 then 0 :: [(3 : Int), 10, 11]
          else ((3 : Int) - min (10 - 3 - 1) (3 - 1)) :: min (10 - 3 - 1) (3 - 1)
            :: (10 - 3) :: [(11 : Int)].map (fun x => x - 3)) := by
  have hs : ([(3 : Int), 10, 11]).Sorted (· ≤ ·) := by
    simp [List.sorted_cons]
  exact ⟨hs, C3_delta_encode_stream 3 10 [11] hs⟩

/-! ## simple16encoder.py -/

/-- The fixed Simple-16 slot-width table (S16_FORMATS). -/
def simple16encoder.S16_FORMATS (f : Nat) : List Nat :=
  match f with
  | 15 => List.replicate 28 1
  | 14 => List.replicate 7 2 ++ List.replicate 14 1
  | 13 => List.replicate 7 1 ++ List.replicate 7 2 ++ List.replicate 7 1
  | 12 => List.replicate 14 1 ++ List.replicate 7 2
  | 11 => List.replicate 14 2
  | 10 => [4] ++ List.replicate 8 3
  | 9 => [3] ++ List.replicate 4 4 ++ List.replicate 3 3
  | 8 => List.replicate 7 4
  | 7 => List.replicate 4 5 ++ List.replicate 2 4
  | 6 => List.replicate 2 4 ++ List.replicate 4 5
  | 5 => List.replicate 3 6 ++ List.replicate 2 5
  | 4 => List.replicate 2 5 ++ List.replicate 3 6
  | 3 => List.replicate 4 7
  | 2 => [10] ++ List.replicate 2 9
  | 1 => List.replicate 2 14
  | 0 => [28]
  | _ => []

/-- S16_FORMAT_KEYS_REVERSED: the dictionary keys in decreasing order. -/
def simple16encoder.S16_FORMAT_KEYS_REVERSED : List Nat :=
  [15, 14, 13, 12, 11, 10, 9, 8, 7, 6, 5, 4, 3, 2, 1, 0]

/-- MASKS[x] = (1 << x) - 1. -/
def simple16encoder.MASKS (x : Nat) : Nat := (1 <<< x) - 1

/-- The key loop of find_optimal_format: try each format in decreasing key
order, capping the checked slot count at the remaining input length; return
(format, full slot count of the format) on the first fit. -/
def simple16encoder.findAux (numbers : List Nat) (start : Nat) :
    List Nat → Option (Nat × Nat)
  | [] => none
  | s16f :: keys =>
    let slots := simple16encoder.S16_FORMATS s16f
    let slots_size :=
      if slots.length > numbers.length - start then numbers.length - start
      else slots.length
    if (List.range slots_size).all
        (fun i => simple16encoder.MASKS (slots.getD i 0) ≥ numbers.getD (start + i) 0)
    then some (s16f, slots.length)
    else simple16encoder.findAux numbers start keys

/-- simple16encoder.find_optimal_format; `none` models the fall-off-the-end
`return None` (which makes encode raise on unpacking). -/
def simple16encoder.find_optimal_format (numbers : List Nat) (start : Nat) :
    Option (Nat × Nat) :=
  simple16encoder.findAux numbers start simple16encoder.S16_FORMAT_KEYS_REVERSED

theorem simple16encoder.formats_len_pos :
    ∀ f ∈ simple16encoder.S16_FORMAT_KEYS_REVERSED,
      0 < (simple16encoder.S16_FORMATS f).length := by decide

theorem simple16encoder.formats_width_le :
    ∀ f ∈ simple16encoder.S16_FORMAT_KEYS_REVERSED,
      ∀ i < (simple16encoder.S16_FORMATS f).length,
        (simple16encoder.S16_FORMATS f).getD i 0 ≤ 28 := by decide

theorem simple16encoder.findAux_some (numbers : List Nat) (start : Nat) :
    ∀ ks f k, simple16encoder.findAux numbers start ks = some (f, k) →
      f ∈ ks ∧ k = (simple16encoder.S16_FORMATS f).length ∧
      ∀ i, i < (simple16encoder.S16_FORMATS f).length →
        i < numbers.length - start →
        numbers.getD (start + i) 0
          ≤ simple16encoder.MASKS ((simple16encoder.S16_FORMATS f).getD i 0) := by
  intro ks
  induction ks with
  | nil => intro f k h; simp [simple16encoder.findAux] at h
  | cons key keys ih =>
    intro f k h
    rw [simple16encoder.findAux] at h
    by_cases hc : (List.range
        (if (simple16encoder.S16_FORMATS key).length > numbers.length - start
         then numbers.length - start
         else (simple16encoder.S16_FORMATS key).length)).all
        (fun i => decide (simple16encoder.MASKS
            ((simple16encoder.S16_FORMATS key).getD i 0)
          ≥ numbers.getD (start + i) 0)) = true
    · rw [if_pos hc] at h
      obtain ⟨hf, hk⟩ : key = f ∧ (simple16encoder.S16_FORMATS key).length = k := by
        have h2 := Option.some.inj h
        exact ⟨congrArg Prod.fst h2, congrArg Prod.snd h2⟩
      subst hf
      refine ⟨List.mem_cons_self _ _, hk.symm, ?_⟩
      intro i hi1 hi2
      rw [List.all_eq_true] at hc
      have hmem : i ∈ List.range
          (if (simple16encoder.S16_FORMATS key).length > numbers.length - start
           then numbers.length - start
           else (simple16encoder.S16_FORMATS key).length) := by
        rw [List.mem_range]
        split <;> omega
      have := hc i hmem
      simpa using this
    · rw [if_neg hc] at h
      obtain ⟨hmem, hrest⟩ := ih f k h
      exact ⟨List.mem_cons_of_mem _ hmem, hrest⟩

theorem simple16encoder.find_some_pos (numbers : List Nat) (start f k : Nat)
    (h : simple16encoder.find_optimal_format numbers start = some (f, k)) :
    0 < k := by
  obtain ⟨hmem, hk, -⟩ := simple16encoder.findAux_some numbers start _ f k h
  rw [hk]
  exact simple16encoder.formats_len_pos f hmem

/-- The packing loop of simple16encoder.encode: running `bits_to_move`
starting from 28, each value shifted into place
(`bits_to_move -= widths[i]; encoded_batch += to_encode[i] << bits_to_move`).
The (widths exhausted, values remaining) case is unreachable: encode slices
at most `len(slots)` values. -/
def simple16encoder.packAux : List Nat → List Nat → Nat → Nat
  | _, [], _ => 0
  | [], _ :: _, _ => 0
  | w :: ws, v :: vs, bits_to_move =>
    (v <<< (bits_to_move - w)) + simple16encoder.packAux ws vs (bits_to_move - w)

/-- One encoded 32-bit batch: format tag in the top 4 bits plus the packed
values. -/
def simple16encoder.encodeBatch (s16format : Nat) (to_encode : List Nat) : Nat :=
  (s16format <<< 28)
    + simple16encoder.packAux (simple16encoder.S16_FORMATS s16format) to_encode 28

/-- The while loop of simple16encoder.encode.  `none` models the TypeError
raised by unpacking the `None` returned by find_optimal_format. -/
def simple16encoder.encodeAux (numbers : List Nat) (start : Nat) :
    Option (List Nat) :=
  if hlt : start < numbers.length then
    match hf : simple16encoder.find_optimal_format numbers start with
    | none => none
    | some (s16format, numbers_to_encode) =>
      match simple16encoder.encodeAux numbers (start + numbers_to_encode) with
      | none => none
      | some rest =>
        some (simple16encoder.encodeBatch s16format
          ((numbers.drop start).take numbers_to_encode) :: rest)
  else some []
termination_by numbers.length - start
decreasing_by
  have hk := simple16encoder.find_some_pos numbers start _ _ hf
  omega

/-- simple16encoder.encode. -/
def simple16encoder.encode (numbers : List Nat) : Option (List Nat) :=
  simple16encoder.encodeAux numbers 0

/-- The slot loop of decode_batch, with the running offset
(`offset += bits_to_process; (batch >> 28-offset) & MASKS[bits_to_process]`). -/
def simple16encoder.decodeBatchAux (batch : Nat) : List Nat → Nat → List Nat
  | [], _ => []
  | w :: ws, offset =>
    ((batch >>> (28 - (offset + w))) &&& simple16encoder.MASKS w)
      :: simple16encoder.decodeBatchAux batch ws (offset + w)

/-- simple16encoder.decode_batch. -/
def simple16encoder.decode_batch (batch : Nat) (s16format : Nat) : List Nat :=
  simple16encoder.decodeBatchAux batch (simple16encoder.S16_FORMATS s16format) 0

/-- The trailing-zero strip of simple16encoder.decode
(`while numbers and numbers[-1] is 0: del numbers[-1]`). -/
def simple16encoder.rm_trailing_zeros (numbers : List Nat) : List Nat :=
  (numbers.reverse.dropWhile (fun x => x = 0)).reverse

/-- simple16encoder.decode: per batch, format from the top 4 bits (masked
with MASKS[5] as in the source), then the slots; optionally strip trailing
zeros. -/
def simple16encoder.decode (encoded : List Nat) (remove_trailing_zeros : Bool) :
    List Nat :=
  let numbers := (encoded.map (fun batch =>
    simple16encoder.decode_batch batch
      ((batch >>> 28) &&& simple16encoder.MASKS 5))).flatten
  if remove_trailing_zeros then simple16encoder.rm_trailing_zeros numbers
  else numbers

theorem simple16encoder.MASKS_lt (w : Nat) (hw : w ≤ 28) :
    simple16encoder.MASKS w < 2 ^ 28 := by
  unfold simple16encoder.MASKS
  rw [Nat.shiftLeft_eq, one_mul]
  have h2 : 2 ^ w ≤ 2 ^ 28 := Nat.pow_le_pow_right (by norm_num) hw
  have h3 : 0 < 2 ^ w := pow_pos (by norm_num) w
  omega

theorem simple16encoder.findAux_none_cond (numbers : List Nat) (start : Nat) :
    ∀ ks, simple16encoder.findAux numbers start ks = none →
      ∀ f ∈ ks, ¬ ((List.range
          (if (simple16encoder.S16_FORMATS f).length > numbers.length - start
           then numbers.length - start
           else (simple16encoder.S16_FORMATS f).length)).all
          (fun i => decide (simple16encoder.MASKS
              ((simple16encoder.S16_FORMATS f).getD i 0)
            ≥ numbers.getD (start + i) 0)) = true) := by
  intro ks
  induction ks with
  | nil => intro _ f hf; simp at hf
  | cons key keys ih =>
    intro h f hf
    rw [simple16encoder.findAux] at h
    by_cases hc : (List.range
        (if (simple16encoder.S16_FORMATS key).length > numbers.length - start
         then numbers.length - start
         else (simple16encoder.S16_FORMATS key).length)).all
        (fun i => decide (simple16encoder.MASKS
            ((simple16encoder.S16_FORMATS key).getD i 0)
          ≥ numbers.getD (start + i) 0)) = true
    · rw [if_pos hc] at h
      exact absurd h (by simp)
    · rw [if_neg hc] at h
      rcases List.mem_cons.mp hf with hkey | hmem
      · subst hkey; exact hc
      · exact ih h f hmem

theorem simple16encoder.find_none_iff (numbers : List Nat) (start : Nat)
    (hstart : start < numbers.length) :
    simple16encoder.find_optimal_format numbers start = none ↔
      2 ^ 28 ≤ numbers.getD start 0 := by
  constructor
  · intro h
    have hcond := simple16encoder.findAux_none_cond numbers start _ h 0 (by decide)
    by_contra hlt
    push_neg at hlt
    apply hcond
    rw [List.all_eq_true]
    intro i hi
    have hss : (if (simple16encoder.S16_FORMATS 0).length > numbers.length - start
        then numbers.length - start
        else (simple16encoder.S16_FORMATS 0).length) = 1 := by
      have h1 : (simple16encoder.S16_FORMATS 0).length = 1 := by decide
      rw [h1]; split <;> omega
    rw [hss, List.mem_range] at hi
    have hi0 : i = 0 := by omega
    subst hi0
    have hm : simple16encoder.MASKS ((simple16encoder.S16_FORMATS 0).getD 0 0)
        = 2 ^ 28 - 1 := by decide
    simp only [Nat.add_zero, decide_eq_true_eq, ge_iff_le, hm]
    omega
  · intro hbig
    unfold simple16encoder.find_optimal_format
    have hfacts : ∀ f ∈ simple16encoder.S16_FORMAT_KEYS_REVERSED,
        0 < (simple16encoder.S16_FORMATS f).length ∧
        (simple16encoder.S16_FORMATS f).getD 0 0 ≤ 28 := by decide
    revert hfacts
    generalize simple16encoder.S16_FORMAT_KEYS_REVERSED = ks
    intro hfacts
    induction ks with
    | nil => rfl
    | cons key keys ih =>
      rw [simple16encoder.findAux]
      have hkey := hfacts key (List.mem_cons_self _ _)
      have hcond : ¬ ((List.range
          (if (simple16encoder.S16_FORMATS key).length > numbers.length - start
           then numbers.length - start
           else (simple16encoder.S16_FORMATS key).length)).all
          (fun i => decide (simple16encoder.MASKS
              ((simple16encoder.S16_FORMATS key).getD i 0)
            ≥ numbers.getD (start + i) 0)) = true) := by
        intro hall
        rw [List.all_eq_true] at hall
        have h0 : (0 : Nat) ∈ List.range
            (if (simple16encoder.S16_FORMATS key).length > numbers.length - start
             then numbers.length - start
             else (simple16encoder.S16_FORMATS key).length) := by
          rw [List.mem_range]; split <;> omega
        have hthis := hall 0 h0
        simp only [Nat.add_zero, decide_eq_true_eq, ge_iff_le] at hthis
        have hmask := simple16encoder.MASKS_lt _ hkey.2
        omega
      rw [if_neg hcond]
      exact ih (fun f hf => hfacts f (List.mem_cons_of_mem _ hf))

theorem simple16encoder.encodeAux_none_of_bad (numbers : List Nat) :
    ∀ fuel start, numbers.length - start ≤ fuel →
      (∃ j, start ≤ j ∧ j < numbers.length ∧ 2 ^ 28 ≤ numbers.getD j 0) →
      simple16encoder.encodeAux numbers start = none := by
  intro fuel
  induction fuel with
  | zero =>
    intro start hle hbad
    obtain ⟨j, hj1, hj2, hj3⟩ := hbad
    exact absurd hj2 (by omega)
  | succ f ih =>
    intro start hle hbad
    obtain ⟨j, hj1, hj2, hj3⟩ := hbad
    have hstart : start < numbers.length := by omega
    rw [simple16encoder.encodeAux, dif_pos hstart]
    split
    · rfl
    · rename_i s16format numbers_to_encode hfind
      obtain ⟨hmem, hk, hcheck⟩ :=
        simple16encoder.findAux_some numbers start _ _ _ hfind
      have hwidth := simple16encoder.formats_width_le s16format hmem
      have hkpos := simple16encoder.find_some_pos numbers start _ _ hfind
      have hjge : start + numbers_to_encode ≤ j := by
        by_contra hlt2
        push_neg at hlt2
        have hi1 : j - start < (simple16encoder.S16_FORMATS s16format).length := by
          omega
        have hi2 : j - start < numbers.length - start := by omega
        have hsmall := hcheck (j - start) hi1 hi2
        have hwle := hwidth (j - start) hi1
        have hmask := simple16encoder.MASKS_lt _ hwle
        have hj : start + (j - start) = j := by omega
        rw [hj] at hsmall
        omega
      have hrec : simple16encoder.encodeAux numbers (start + numbers_to_encode)
          = none := by
        apply ih
        · omega
        · exact ⟨j, by omega, hj2, hj3⟩
      rw [hrec]

theorem simple16encoder.encodeAux_some_of_small (numbers : List Nat)
    (hsmall : ∀ x ∈ numbers, x < 2 ^ 28) :
    ∀ fuel start, numbers.length - start ≤ fuel →
      ∃ out, simple16encoder.encodeAux numbers start = some out := by
  intro fuel
  induction fuel with
  | zero =>
    intro start hle
    have h : ¬ start < numbers.length := by omega
    rw [simple16encoder.encodeAux, dif_neg h]
    exact ⟨[], rfl⟩
  | succ f ih =>
    intro start hle
    by_cases hstart : start < numbers.length
    · rw [simple16encoder.encodeAux, dif_pos hstart]
      have hx : numbers.getD start 0 < 2 ^ 28 := by
        apply hsmall
        rw [List.getD_eq_getElem?_getD, List.getElem?_eq_getElem hstart,
          Option.getD_some]
        exact List.getElem_mem hstart
      split
      · rename_i hfind
        have := (simple16encoder.find_none_iff numbers start hstart).mp hfind
        omega
      · rename_i s16format numbers_to_encode hfind
        have hkpos := simple16encoder.find_some_pos numbers start _ _ hfind
        obtain ⟨out, hout⟩ := ih (start + numbers_to_encode) (by omega)
        rw [hout]
        exact ⟨_, rfl⟩
    · rw [simple16encoder.encodeAux, dif_neg hstart]
      exact ⟨[], rfl⟩

/-- C9: Simple-16 encode is partial — it succeeds exactly when every element
fits the widest (28-bit) slot.  An element ≥ 2^28 makes find_optimal_format
return nothing at the position of that element (the scan reaches it, every
format fails there) and encode fails; when all elements are < 2^28 a format
is always found and encode returns a result. -/
theorem C9_simple16_encode_conditional (numbers : List Nat) :
    ((∃ x ∈ numbers, 2 ^ 28 ≤ x) → simple16encoder.encode numbers = none) ∧
    ((∀ x ∈ numbers, x < 2 ^ 28) →
      ∃ out, simple16encoder.encode numbers = some out) ∧
    (∀ start, start < numbers.length →
      (simple16encoder.find_optimal_format numbers start = none ↔
        2 ^ 28 ≤ numbers.getD start 0)) := by
  refine ⟨?_, ?_, fun start h => simple16encoder.find_none_iff numbers start h⟩
  · intro hbad
    obtain ⟨x, hxmem, hx⟩ := hbad
    obtain ⟨j, hj, hxj⟩ := List.getElem_of_mem hxmem
    apply simple16encoder.encodeAux_none_of_bad numbers numbers.length 0 (by omega)
    refine ⟨j, by omega, hj, ?_⟩
    rw [List.getD_eq_getElem?_getD, List.getElem?_eq_getElem hj, Option.getD_some,
      hxj]
    exact hx
  · intro hsmall
    exact simple16encoder.encodeAux_some_of_small numbers hsmall numbers.length 0
      (by omega)

/-- Witness for C9: the single-element input with value 2^28 makes encode
fail, and input [1] (all below 2^28) makes it succeed. -/
theorem C9_simple16_encode_conditional_witness :
    (∃ x ∈ [2 ^ 28], 2 ^ 28 ≤ x) ∧ simple16encoder.encode [2 ^ 28] = none ∧
    (∀ x ∈ [1], x < 2 ^ 28) ∧
    (∃ out, simple16encoder.encode [1] = some out) := by
  have h1 : ∃ x ∈ [2 ^ 28], 2 ^ 28 ≤ x := ⟨2 ^ 28, by simp⟩
  have h2 : ∀ x ∈ [1], x < 2 ^ 28 := by
    intro x hx
    simp at hx
    omega
  exact ⟨h1, (C9_simple16_encode_conditional [2 ^ 28]).1 h1,
    h2, (C9_simple16_encode_conditional [1]).2.1 h2⟩

/-! ## bitutils.py

The 8-bit and 32-bit write routines of the source are textually identical
except for the word width (8 ↔ 32) used in the index/offset computations;
both use the same 32-bit residual mask `0xFFFFFFFF >> (32 - shift)`.  They
are embedded as one definition over the word width `W`, instantiated at 8
and 32 below.  `none` models the two runtime errors the Python code can
raise: IndexError (writing past the array) and ValueError (a negative shift
count in `0xFFFFFFFF >> (32 - shift)` when `shift > 32`). -/

/-- The write loop shared by write_binary_in_iarray (W = 32) and
write_binary_in_barray (W = 8); `shift = abs(bits - writable)` is written as
the two-branch natural subtraction. -/
def bitutils.writeGen (W : Nat) (hW : 0 < W) (array : List Nat) (offset : Nat)
    (number : Nat) (bits : Nat) : Option (List Nat × Nat) :=
  if hb : bits > 0 then
    let array_index := offset / W
    let bit_index := offset % W
    let writable := W - bit_index
    let to_write := if bits < writable then bits else writable
    let shift := if writable < bits then bits - writable else writable - bits
    if array_index < array.length then
      if shift ≤ 32 then
        let arr' := if writable < bits
          then array.set array_index (array.getD array_index 0 + (number >>> shift))
          else array.set array_index (array.getD array_index 0 + (number <<< shift))
        let number' := number &&& (0xFFFFFFFF >>> (32 - shift))
        bitutils.writeGen W hW arr' (offset + to_write) number' (bits - to_write)
      else none
    else none
  else some (array, offset)
termination_by bits
decreasing_by
  have h1 : offset % W < W := Nat.mod_lt _ hW
  split <;> omega

/-- bitutils.write_binary_in_iarray: 32-bit-word variant. -/
def bitutils.write_binary_in_iarray (array : List Nat) (offset number bits : Nat) :
    Option (List Nat × Nat) :=
  bitutils.writeGen 32 (by norm_num) array offset number bits

/-- bitutils.write_binary_in_barray: 8-bit-word variant. -/
def bitutils.write_binary_in_barray (array : List Nat) (offset number bits : Nat) :
    Option (List Nat × Nat) :=
  bitutils.writeGen 8 (by norm_num) array offset number bits

/-- bitutils.read_binary_from_iarray: loop-free two-word read.  The source's
`to_shift = max(0, readable - bits)` is the natural subtraction, and
`bits -= readable; if bits > 0` matches the natural subtraction as well
(a negative Python value and a clamped 0 both fail the `> 0` test).  `none`
models IndexError on either word access and ValueError on the negative
shift `32 - bits` when more than 32 bits remain after the first word. -/
def bitutils.read_binary_from_iarray (array : List Nat) (offset bits : Nat) :
    Option Nat :=
  let array_index := offset / 32
  let bit_index := offset % 32
  let readable := 32 - bit_index
  if array_index < array.length then
    let extracted := array.getD array_index 0 &&& (0xFFFFFFFF >>> bit_index)
    let to_shift := readable - bits
    let number := extracted >>> to_shift
    let bits' := bits - readable
    if bits' > 0 then
      if bits' ≤ 32 then
        if array_index + 1 < array.length then
          some ((number <<< bits')
            + (array.getD (array_index + 1) 0 >>> (32 - bits')))
        else none
      else none
    else some number
  else none

/-- The byte loop of bitutils.read_binary_from_barray, with the running
accumulator `number`. -/
def bitutils.readBarrayAux (array : List Nat) (offset bits number : Nat) :
    Option Nat :=
  if hb : bits > 0 then
    let array_index := offset / 8
    let bit_index := offset % 8
    let readable := 8 - bit_index
    let to_read := if bits < readable then bits else readable
    if array_index < array.length then
      let extracted := array.getD array_index 0 &&& (0xFF >>> bit_index)
      let to_shift := readable - bits
      let shifted := extracted >>> to_shift
      bitutils.readBarrayAux array (offset + to_read) (bits - to_read)
        ((number <<< to_read) + shifted)
    else none
  else some number
termination_by bits
decreasing_by
  have h1 : offset % 8 < 8 := Nat.mod_lt _ (by norm_num)
  split <;> omega

/-- bitutils.read_binary_from_barray. -/
def bitutils.read_binary_from_barray (array : List Nat) (offset bits : Nat) :
    Option Nat :=
  bitutils.readBarrayAux array offset bits 0

/-! ## Bit-string value of a word array

`bitsVal W arr` is the value of `arr` read as a single big-endian bit string
(word 0 most significant).  All bit-level I/O correctness statements are
phrased through it: bits `offset, ..., offset+bits-1` of the stream hold the
value `bitsVal W arr / 2 ^ (W * arr.length - offset - bits) % 2 ^ bits`. -/

def bitsVal (W : Nat) (arr : List Nat) : Nat :=
  arr.foldl (fun a w => a * 2 ^ W + w) 0

theorem bitsVal_foldl (W : Nat) :
    ∀ (l : List Nat) (a : Nat),
      l.foldl (fun a w => a * 2 ^ W + w) a
        = a * 2 ^ (W * l.length) + bitsVal W l := by
  intro l
  induction l with
  | nil => intro a; simp [bitsVal]
  | cons w t ih =>
    intro a
    have hbv : bitsVal W (w :: t) = w * 2 ^ (W * t.length) + bitsVal W t := by
      show List.foldl _ _ (w :: t) = _
      rw [List.foldl_cons, ih]
      simp [bitsVal]
    rw [List.foldl_cons, ih, hbv, List.length_cons]
    have hp : (2 : Nat) ^ (W * (t.length + 1)) = 2 ^ (W * t.length) * 2 ^ W := by
      rw [← pow_add, Nat.mul_succ]
    rw [hp]
    ring

theorem bitsVal_cons (W w : Nat) (t : List Nat) :
    bitsVal W (w :: t) = w * 2 ^ (W * t.length) + bitsVal W t := by
  show List.foldl _ _ (w :: t) = _
  rw [List.foldl_cons, bitsVal_foldl]
  simp

theorem bitsVal_append (W : Nat) (l1 l2 : List Nat) :
    bitsVal W (l1 ++ l2)
      = bitsVal W l1 * 2 ^ (W * l2.length) + bitsVal W l2 := by
  show List.foldl _ _ (l1 ++ l2) = _
  rw [List.foldl_append, bitsVal_foldl]
  rfl

theorem bitsVal_lt (W : Nat) (l : List Nat) (h : ∀ w ∈ l, w < 2 ^ W) :
    bitsVal W l < 2 ^ (W * l.length) := by
  induction l with
  | nil => simp [bitsVal]
  | cons w t ih =>
    rw [bitsVal_cons, List.length_cons]
    have hw : w < 2 ^ W := h w (List.mem_cons_self _ _)
    have ht : bitsVal W t < 2 ^ (W * t.length) :=
      ih (fun x hx => h x (List.mem_cons_of_mem _ hx))
    have hp : (2 : Nat) ^ (W * (t.length + 1)) = 2 ^ W * 2 ^ (W * t.length) := by
      rw [← pow_add]
      congr 1
      ring
    have step : w * 2 ^ (W * t.length) + bitsVal W t
        < (w + 1) * 2 ^ (W * t.length) := by
      have h2 := Nat.add_lt_add_left ht (w * 2 ^ (W * t.length))
      calc w * 2 ^ (W * t.length) + bitsVal W t
          < w * 2 ^ (W * t.length) + 2 ^ (W * t.length) := h2
        _ = (w + 1) * 2 ^ (W * t.length) := by ring
    calc w * 2 ^ (W * t.length) + bitsVal W t
        < (w + 1) * 2 ^ (W * t.length) := step
      _ ≤ 2 ^ W * 2 ^ (W * t.length) :=
          Nat.mul_le_mul_right _ (by omega)
      _ = 2 ^ (W * (t.length + 1)) := hp.symm

theorem getD_mem_of_lt (arr : List Nat) (i : Nat) (hi : i < arr.length) :
    arr.getD i 0 ∈ arr := by
  rw [List.getD_eq_getElem?_getD, List.getElem?_eq_getElem hi, Option.getD_some]
  exact List.getElem_mem hi

theorem bitsVal_getD (W : Nat) (arr : List Nat) (h : ∀ w ∈ arr, w < 2 ^ W)
    (i : Nat) (hi : i < arr.length) :
    bitsVal W arr / 2 ^ (W * (arr.length - 1 - i)) % 2 ^ W = arr.getD i 0 := by
  have hsplit : arr = arr.take (i + 1) ++ arr.drop (i + 1) :=
    (List.take_append_drop _ _).symm
  have hlen2 : (arr.drop (i + 1)).length = arr.length - 1 - i := by
    rw [List.length_drop]
    omega
  have hdlt : bitsVal W (arr.drop (i + 1)) < 2 ^ (W * (arr.length - 1 - i)) := by
    rw [← hlen2]
    exact bitsVal_lt W _ (fun w hw => h w (List.mem_of_mem_drop hw))
  have hb : bitsVal W arr
      = bitsVal W (arr.take (i + 1)) * 2 ^ (W * (arr.length - 1 - i))
        + bitsVal W (arr.drop (i + 1)) := by
    conv_lhs => rw [hsplit]
    rw [bitsVal_append, hlen2]
  have hdiv : bitsVal W arr / 2 ^ (W * (arr.length - 1 - i))
      = bitsVal W (arr.take (i + 1)) := by
    rw [hb, Nat.mul_comm (bitsVal W (arr.take (i + 1))),
      Nat.mul_add_div (pow_pos (by norm_num) _), Nat.div_eq_of_lt hdlt,
      Nat.add_zero]
  have htake : arr.take (i + 1) = arr.take i ++ [arr.getD i 0] := by
    rw [List.take_succ, List.getElem?_eq_getElem hi]
    simp [List.getD_eq_getElem?_getD, List.getElem?_eq_getElem hi]
  have hone : bitsVal W [arr.getD i 0] = arr.getD i 0 := by
    show List.foldl _ _ _ = _
    simp
  have hxlt : arr.getD i 0 < 2 ^ W := h _ (getD_mem_of_lt arr i hi)
  rw [hdiv, htake, bitsVal_append, hone]
  simp only [List.length_cons, List.length_nil, Nat.zero_add, Nat.mul_one]
  rw [Nat.mul_comm (bitsVal W (List.take i arr)) (2 ^ W), Nat.mul_add_mod,
    Nat.mod_eq_of_lt hxlt]

theorem bitsVal_getD2 (W : Nat) (arr : List Nat) (h : ∀ w ∈ arr, w < 2 ^ W)
    (i : Nat) (hi : i + 1 < arr.length) :
    bitsVal W arr / 2 ^ (W * (arr.length - 2 - i)) % 2 ^ (W + W)
      = arr.getD i 0 * 2 ^ W + arr.getD (i + 1) 0 := by
  have hi0 : i < arr.length := by omega
  have hsplit : arr = arr.take (i + 2) ++ arr.drop (i + 2) :=
    (List.take_append_drop _ _).symm
  have hlen2 : (arr.drop (i + 2)).length = arr.length - 2 - i := by
    rw [List.length_drop]
    omega
  have hdlt : bitsVal W (arr.drop (i + 2)) < 2 ^ (W * (arr.length - 2 - i)) := by
    rw [← hlen2]
    exact bitsVal_lt W _ (fun w hw => h w (List.mem_of_mem_drop hw))
  have hb : bitsVal W arr
      = bitsVal W (arr.take (i + 2)) * 2 ^ (W * (arr.length - 2 - i))
        + bitsVal W (arr.drop (i + 2)) := by
    conv_lhs => rw [hsplit]
    rw [bitsVal_append, hlen2]
  have hdiv : bitsVal W arr / 2 ^ (W * (arr.length - 2 - i))
      = bitsVal W (arr.take (i + 2)) := by
    rw [hb, Nat.mul_comm (bitsVal W (arr.take (i + 2))),
      Nat.mul_add_div (pow_pos (by norm_num) _), Nat.div_eq_of_lt hdlt,
      Nat.add_zero]
  have htake1 : arr.take (i + 2) = arr.take (i + 1) ++ [arr.getD (i + 1) 0] := by
    rw [List.take_succ, List.getElem?_eq_getElem hi]
    simp [List.getD_eq_getElem?_getD, List.getElem?_eq_getElem hi]
  have htake0 : arr.take (i + 1) = arr.take i ++ [arr.getD i 0] := by
    rw [List.take_succ, List.getElem?_eq_getElem hi0]
    simp [List.getD_eq_getElem?_getD, List.getElem?_eq_getElem hi0]
  have hone : ∀ x : Nat, bitsVal W [x] = x := by
    intro x
    show List.foldl _ _ _ = _
    simp
  have hx0 : arr.getD i 0 < 2 ^ W := h _ (getD_mem_of_lt arr i hi0)
  have hx1 : arr.getD (i + 1) 0 < 2 ^ W := h _ (getD_mem_of_lt arr (i + 1) hi)
  rw [hdiv, htake1, htake0, bitsVal_append, bitsVal_append, hone, hone]
  simp only [List.length_cons, List.length_nil, Nat.zero_add, Nat.mul_one]
  have hlt2 : arr.getD i 0 * 2 ^ W + arr.getD (i + 1) 0 < 2 ^ (W + W) := by
    have e1 : (2 : Nat) ^ (W + W) = 2 ^ W * 2 ^ W := by rw [pow_add]
    have e2 : arr.getD i 0 * 2 ^ W + arr.getD (i + 1) 0
        < (arr.getD i 0 + 1) * 2 ^ W := by
      have := Nat.add_lt_add_left hx1 (arr.getD i 0 * 2 ^ W)
      calc arr.getD i 0 * 2 ^ W + arr.getD (i + 1) 0
          < arr.getD i 0 * 2 ^ W + 2 ^ W := this
        _ = (arr.getD i 0 + 1) * 2 ^ W := by ring
    calc arr.getD i 0 * 2 ^ W + arr.getD (i + 1) 0
        < (arr.getD i 0 + 1) * 2 ^ W := e2
      _ ≤ 2 ^ W * 2 ^ W := Nat.mul_le_mul_right _ (by omega)
      _ = 2 ^ (W + W) := e1.symm
  have hform : (bitsVal W (arr.take i) * 2 ^ W + arr.getD i 0) * 2 ^ W
        + arr.getD (i + 1) 0
      = 2 ^ (W + W) * bitsVal W (arr.take i)
        + (arr.getD i 0 * 2 ^ W + arr.getD (i + 1) 0) := by
    rw [pow_add]
    ring
  rw [hform, Nat.mul_add_mod, Nat.mod_eq_of_lt hlt2]

theorem bitsVal_set_add (W : Nat) (arr : List Nat) (i x : Nat)
    (hi : i < arr.length) :
    bitsVal W (arr.set i (arr.getD i 0 + x))
      = bitsVal W arr + x * 2 ^ (W * (arr.length - 1 - i)) := by
  have hset := List.set_eq_take_cons_drop (arr.getD i 0 + x) hi
  have hdecomp : arr = arr.take i ++ arr.getD i 0 :: arr.drop (i + 1) := by
    conv_lhs => rw [← List.take_append_drop i arr]
    congr 1
    rw [List.drop_eq_getElem_cons hi]
    congr 1
    rw [List.getD_eq_getElem?_getD, List.getElem?_eq_getElem hi, Option.getD_some]
  have hlen2 : (arr.drop (i + 1)).length = arr.length - 1 - i := by
    rw [List.length_drop]
    omega
  have hA : ∀ v : Nat, bitsVal W (arr.take i ++ v :: arr.drop (i + 1))
      = bitsVal W (arr.take i) * 2 ^ (W * (arr.length - 1 - i + 1))
        + (v * 2 ^ (W * (arr.length - 1 - i)) + bitsVal W (arr.drop (i + 1))) := by
    intro v
    rw [bitsVal_append, bitsVal_cons, hlen2, List.length_cons, hlen2]
  have harr : bitsVal W arr
      = bitsVal W (arr.take i) * 2 ^ (W * (arr.length - 1 - i + 1))
        + (arr.getD i 0 * 2 ^ (W * (arr.length - 1 - i))
          + bitsVal W (arr.drop (i + 1))) := by
    conv_lhs => rw [hdecomp]
    exact hA _
  rw [hset, hA, harr]
  ring

/-! ## Arithmetic helpers for the bit-level proofs -/

theorem two_pow_sub_one_shiftRight (a b : Nat) (h : b ≤ a) :
    ((2 : Nat) ^ a - 1) >>> b = 2 ^ (a - b) - 1 := by
  rw [Nat.shiftRight_eq_div_pow]
  have h1 : (0 : Nat) < 2 ^ b := pow_pos (by norm_num) b
  have h2 : (0 : Nat) < 2 ^ (a - b) := pow_pos (by norm_num) (a - b)
  have ha : (2 : Nat) ^ a = 2 ^ b * 2 ^ (a - b) := by
    rw [← pow_add]
    congr 1
    omega
  have hb2 : 2 ^ b * (2 ^ (a - b) - 1) + 2 ^ b = 2 ^ b * 2 ^ (a - b) := by
    rw [← Nat.mul_succ]
    congr 1
    omega
  have hsplit : (2 : Nat) ^ a - 1 = (2 ^ b - 1) + 2 ^ b * (2 ^ (a - b) - 1) := by
    omega
  rw [hsplit, Nat.add_mul_div_left _ _ h1, Nat.div_eq_of_lt (by omega),
    Nat.zero_add]

theorem mask32_shiftRight (s : Nat) (h : s ≤ 32) :
    (0xFFFFFFFF : Nat) >>> (32 - s) = 2 ^ s - 1 := by
  have h0 : (0xFFFFFFFF : Nat) = 2 ^ 32 - 1 := by norm_num
  rw [h0, two_pow_sub_one_shiftRight 32 (32 - s) (by omega)]
  congr 2
  omega

theorem subrange_zero (X E bits E2 k2 : Nat) (h : X / 2 ^ E % 2 ^ bits = 0)
    (h1 : E ≤ E2) (h2 : (E2 - E) + k2 ≤ bits) : X / 2 ^ E2 % 2 ^ k2 = 0 := by
  obtain ⟨c, hc⟩ := Nat.dvd_of_mod_eq_zero h
  have hE2 : X / 2 ^ E2 = X / 2 ^ E / 2 ^ (E2 - E) := by
    rw [Nat.div_div_eq_div_mul, ← pow_add]
    congr 2
    omega
  have hsplit : (2 : Nat) ^ bits
      = 2 ^ (E2 - E) * (2 ^ k2 * 2 ^ (bits - (E2 - E) - k2)) := by
    rw [← pow_add, ← pow_add]
    congr 1
    omega
  rw [hE2, hc, hsplit, Nat.mul_assoc,
    Nat.mul_div_cancel_left _ (pow_pos (by norm_num) (E2 - E)), Nat.mul_assoc]
  exact Nat.mul_mod_right _ _

theorem mod_pow_mod_pow (A k j : Nat) (h : j ≤ k) :
    A % 2 ^ k % 2 ^ j = A % 2 ^ j :=
  Nat.mod_mod_of_dvd A (pow_dvd_pow 2 h)

theorem mod_div_mod (A s b R : Nat) (h : s + b ≤ R) :
    (A % 2 ^ R) / 2 ^ s % 2 ^ b = A / 2 ^ s % 2 ^ b := by
  rw [Nat.div_mod_eq_mod_mul_div, Nat.div_mod_eq_mod_mul_div, ← pow_add,
    mod_pow_mod_pow A R (s + b) h]

theorem add_mul_pow_div (X u E s : Nat) :
    (X + u * 2 ^ (E + s)) / 2 ^ E = X / 2 ^ E + u * 2 ^ s := by
  rw [pow_add, ← Nat.mul_assoc, Nat.mul_comm u (2 ^ E), Nat.mul_assoc,
    Nat.add_mul_div_left _ _ (pow_pos (by norm_num) E)]

theorem mod_pow_zero_mono (X bits k : Nat) (h : X % 2 ^ bits = 0)
    (hk : k ≤ bits) : X % 2 ^ k = 0 := by
  obtain ⟨c, hc⟩ := Nat.dvd_of_mod_eq_zero h
  rw [hc, show (2 : Nat) ^ bits = 2 ^ k * 2 ^ (bits - k) by
    rw [← pow_add]; congr 1; omega, Nat.mul_assoc]
  exact Nat.mul_mod_right _ _

theorem add_in_gap (x v s b W : Nat) (hx : x < 2 ^ W)
    (hzero : x / 2 ^ s % 2 ^ b = 0) (hv : v < 2 ^ b) (hsb : s + b ≤ W) :
    x + v * 2 ^ s < 2 ^ W := by
  have hq : x / 2 ^ (s + b) < 2 ^ (W - s - b) := by
    apply Nat.div_lt_of_lt_mul
    rw [← pow_add]
    calc x < 2 ^ W := hx
      _ = 2 ^ (s + b + (W - s - b)) := by congr 1; omega
  have hdecomp : x = 2 ^ (s + b) * (x / 2 ^ (s + b)) + x % 2 ^ s := by
    have e1 := Nat.div_add_mod x (2 ^ s)
    have e2 := Nat.div_add_mod (x / 2 ^ s) (2 ^ b)
    rw [hzero, Nat.add_zero, Nat.div_div_eq_div_mul, ← pow_add] at e2
    calc x = 2 ^ s * (x / 2 ^ s) + x % 2 ^ s := e1.symm
      _ = 2 ^ s * (2 ^ b * (x / 2 ^ (s + b))) + x % 2 ^ s := by rw [e2]
      _ = 2 ^ (s + b) * (x / 2 ^ (s + b)) + x % 2 ^ s := by
          rw [← Nat.mul_assoc, ← pow_add]
  have hr : x % 2 ^ s < 2 ^ s := Nat.mod_lt _ (pow_pos (by norm_num) s)
  have e3 : (2 : Nat) ^ b * 2 ^ s = 2 ^ (s + b) := by
    rw [← pow_add]
    congr 1
    omega
  have e4 : (2 : Nat) ^ (s + b) * 2 ^ (W - s - b) = 2 ^ W := by
    rw [← pow_add]
    congr 1
    omega
  have e5 : v * 2 ^ s + 2 ^ s ≤ 2 ^ b * 2 ^ s := by
    calc v * 2 ^ s + 2 ^ s = (v + 1) * 2 ^ s := by ring
      _ ≤ 2 ^ b * 2 ^ s := Nat.mul_le_mul_right _ (by omega)
  have e6 : 2 ^ (s + b) * (x / 2 ^ (s + b)) + 2 ^ (s + b)
      ≤ 2 ^ (s + b) * 2 ^ (W - s - b) := by
    calc 2 ^ (s + b) * (x / 2 ^ (s + b)) + 2 ^ (s + b)
        = 2 ^ (s + b) * (x / 2 ^ (s + b) + 1) := by ring
      _ ≤ 2 ^ (s + b) * 2 ^ (W - s - b) := Nat.mul_le_mul_left _ (by omega)
  omega

theorem bitutils.writeGen_zero (W : Nat) (hW : 0 < W) (a : List Nat) (o n : Nat) :
    bitutils.writeGen W hW a o n 0 = some (a, o) := by
  rw [bitutils.writeGen]
  simp

theorem bitutils.writeGen_spec (W : Nat) (hW : 0 < W) (hW32 : W ≤ 32) :
    ∀ bits offset number (array : List Nat),
      0 < bits → bits ≤ 32 →
      offset + bits ≤ W * array.length →
      (∀ w ∈ array, w < 2 ^ W) →
      number < 2 ^ bits →
      bitsVal W array / 2 ^ (W * array.length - offset - bits) % 2 ^ bits = 0 →
      ∃ arr', bitutils.writeGen W hW array offset number bits
          = some (arr', offset + bits) ∧
        arr'.length = array.length ∧ (∀ w ∈ arr', w < 2 ^ W) ∧
        bitsVal W arr' = bitsVal W array
          + number * 2 ^ (W * array.length - offset - bits) := by
  intro bits
  induction bits using Nat.strong_induction_on with
  | _ bits ih =>
    intro offset number array hpos hle hbound harr hnum hzero
    have hbi : offset % W < W := Nat.mod_lt _ hW
    have hidx : offset / W < array.length := by
      apply Nat.div_lt_of_lt_mul
      omega
    have hword_lt : array.getD (offset / W) 0 < 2 ^ W :=
      harr _ (getD_mem_of_lt _ _ hidx)
    have hd1 : W * (array.length - 1 - offset / W) + W * (offset / W) + W
        = W * array.length := by
      have he : array.length - 1 - offset / W + offset / W + 1 = array.length := by
        omega
      calc W * (array.length - 1 - offset / W) + W * (offset / W) + W
          = W * (array.length - 1 - offset / W + offset / W + 1) := by ring
        _ = W * array.length := by rw [he]
    have hoffset : W * (offset / W) + offset % W = offset := Nat.div_add_mod offset W
    have hgd := bitsVal_getD W array harr (offset / W) hidx
    by_cases hcase : W - offset % W < bits
    · -- the value straddles into the next word
      have hs_pos : 0 < bits - (W - offset % W) := by omega
      have hs32 : bits - (W - offset % W) ≤ 32 := by omega
      have hwlow : array.getD (offset / W) 0 % 2 ^ (W - offset % W) = 0 := by
        rw [← hgd, mod_pow_mod_pow _ _ _ (by omega)]
        apply subrange_zero _ (W * array.length - offset - bits) bits _ _ hzero
        · omega
        · omega
      have hvlt : number >>> (bits - (W - offset % W)) < 2 ^ (W - offset % W) := by
        rw [Nat.shiftRight_eq_div_pow]
        apply Nat.div_lt_of_lt_mul
        calc number < 2 ^ bits := hnum
          _ = 2 ^ (bits - (W - offset % W) + (W - offset % W)) := by congr 1; omega
          _ = 2 ^ (bits - (W - offset % W)) * 2 ^ (W - offset % W) := by
              rw [pow_add]
      have hnew_lt : array.getD (offset / W) 0
          + number >>> (bits - (W - offset % W)) < 2 ^ W := by
        have h2 := add_in_gap (array.getD (offset / W) 0)
          (number >>> (bits - (W - offset % W))) 0 (W - offset % W) W hword_lt
          (by simpa using hwlow) hvlt (by omega)
        simpa using h2
      set arr1 := array.set (offset / W)
        (array.getD (offset / W) 0 + number >>> (bits - (W - offset % W))) with harr1
      have hlen1 : arr1.length = array.length := by
        rw [harr1, List.length_set]
      have hmem1 : ∀ w ∈ arr1, w < 2 ^ W := by
        intro w hw
        rcases List.mem_or_eq_of_mem_set hw with h | h
        · exact harr w h
        · rw [h]; exact hnew_lt
      have hbv1 : bitsVal W arr1 = bitsVal W array
          + number >>> (bits - (W - offset % W))
            * 2 ^ (W * (array.length - 1 - offset / W)) :=
        bitsVal_set_add W array (offset / W) _ hidx
      have hEw : W * (array.length - 1 - offset / W)
          = W * array.length - offset - bits + (bits - (W - offset % W)) := by
        omega
      have hzero1 : bitsVal W arr1
          / 2 ^ (W * arr1.length - (offset + (W - offset % W))
              - (bits - (W - offset % W)))
          % 2 ^ (bits - (W - offset % W)) = 0 := by
        rw [hlen1]
        have hexp : W * array.length - (offset + (W - offset % W))
            - (bits - (W - offset % W)) = W * array.length - offset - bits := by
          omega
        rw [hexp, hbv1, hEw, Nat.shiftRight_eq_div_pow, add_mul_pow_div,
          Nat.add_mul_mod_self_right]
        exact mod_pow_zero_mono _ bits _ hzero (by omega)
      obtain ⟨arr2, hw2, hlen2, hmem2, hbv2⟩ :=
        ih (bits - (W - offset % W)) (by omega) (offset + (W - offset % W))
          (number % 2 ^ (bits - (W - offset % W))) arr1 hs_pos (by omega)
          (by rw [hlen1]; omega) hmem1
          (Nat.mod_lt _ (pow_pos (by norm_num) _)) hzero1
      refine ⟨arr2, ?_, ?_, hmem2, ?_⟩
      · rw [bitutils.writeGen, dif_pos hpos]
        simp only []
        rw [if_pos hidx, if_pos hcase, if_pos hcase,
          if_neg (show ¬ bits < W - offset % W by omega),
          if_pos (show bits - (W - offset % W) ≤ 32 by omega)]
        rw [mask32_shiftRight _ hs32, Nat.and_pow_two_sub_one_eq_mod, ← harr1,
          hw2]
        congr 2
        omega
      · rw [hlen2, hlen1]
      · rw [hbv2, hbv1, hlen1]
        have hexp : W * array.length - (offset + (W - offset % W))
            - (bits - (W - offset % W)) = W * array.length - offset - bits := by
          omega
        rw [hexp, hEw, Nat.shiftRight_eq_div_pow]
        have hdm : 2 ^ (bits - (W - offset % W))
              * (number / 2 ^ (bits - (W - offset % W)))
            + number % 2 ^ (bits - (W - offset % W)) = number :=
          Nat.div_add_mod number (2 ^ (bits - (W - offset % W)))
        conv_rhs => rw [← hdm]
        rw [pow_add]
        ring
    · -- the value fits in the current word
      have hs0 : W - offset % W - bits ≤ 32 := by omega
      have hwzero : array.getD (offset / W) 0 / 2 ^ (W - offset % W - bits)
          % 2 ^ bits = 0 := by
        rw [← hgd, mod_div_mod _ _ _ _ (by omega), Nat.div_div_eq_div_mul,
          ← pow_add]
        apply subrange_zero _ (W * array.length - offset - bits) bits _ _ hzero
        · omega
        · omega
      have hnew_lt : array.getD (offset / W) 0
          + number <<< (W - offset % W - bits) < 2 ^ W := by
        rw [Nat.shiftLeft_eq]
        exact add_in_gap _ _ _ _ _ hword_lt hwzero hnum (by omega)
      set arr1 := array.set (offset / W)
        (array.getD (offset / W) 0 + number <<< (W - offset % W - bits))
        with harr1
      have hlen1 : arr1.length = array.length := by
        rw [harr1, List.length_set]
      have hmem1 : ∀ w ∈ arr1, w < 2 ^ W := by
        intro w hw
        rcases List.mem_or_eq_of_mem_set hw with h | h
        · exact harr w h
        · rw [h]; exact hnew_lt
      have hbv1 : bitsVal W arr1 = bitsVal W array
          + number <<< (W - offset % W - bits)
            * 2 ^ (W * (array.length - 1 - offset / W)) :=
        bitsVal_set_add W array (offset / W) _ hidx
      refine ⟨arr1, ?_, hlen1, hmem1, ?_⟩
      · rw [bitutils.writeGen, dif_pos hpos]
        simp only []
        rw [if_neg hcase, if_neg hcase,
          show (if bits < W - offset % W then bits else W - offset % W) = bits
            from by split <;> omega,
          if_pos hidx, if_pos hs0, ← harr1]
        rw [show bits - bits = 0 from by omega, bitutils.writeGen_zero]
      · rw [hbv1, Nat.shiftLeft_eq]
        have hexp2 : (2 : Nat) ^ (W - offset % W - bits)
              * 2 ^ (W * (array.length - 1 - offset / W))
            = 2 ^ (W * array.length - offset - bits) := by
          rw [← pow_add]
          congr 1
          omega
        rw [Nat.mul_assoc number, hexp2]

theorem mul_mod_pow_shift (a k n : Nat) :
    a * 2 ^ k % 2 ^ (n + k) = a % 2 ^ n * 2 ^ k := by
  rw [pow_add, Nat.mul_mod_mul_right]

theorem bitutils.read_iarray_spec (array : List Nat) (offset bits : Nat)
    (h1 : 0 < bits) (h2 : bits ≤ 32)
    (hb : offset + bits ≤ 32 * array.length)
    (harr : ∀ w ∈ array, w < 2 ^ 32) :
    bitutils.read_binary_from_iarray array offset bits
      = some (bitsVal 32 array / 2 ^ (32 * array.length - offset - bits)
          % 2 ^ bits) := by
  have hbi : offset % 32 < 32 := Nat.mod_lt _ (by norm_num)
  have hidx : offset / 32 < array.length := by
    apply Nat.div_lt_of_lt_mul
    omega
  have hgd := bitsVal_getD 32 array harr (offset / 32) hidx
  have hmask : (0xFFFFFFFF : Nat) >>> (offset % 32)
      = 2 ^ (32 - offset % 32) - 1 := by
    rw [show (0xFFFFFFFF : Nat) = 2 ^ 32 - 1 from by norm_num,
      two_pow_sub_one_shiftRight 32 (offset % 32) (by omega)]
  rw [bitutils.read_binary_from_iarray]
  simp only []
  rw [if_pos hidx, hmask, Nat.and_pow_two_sub_one_eq_mod]
  by_cases hc : bits - (32 - offset % 32) > 0
  · -- the read straddles into the next word
    have hidx2 : offset / 32 + 1 < array.length := by
      omega
    rw [if_pos hc, if_pos (show bits - (32 - offset % 32) ≤ 32 by omega),
      if_pos hidx2]
    congr 1
    have hts : 32 - offset % 32 - bits = 0 := by omega
    rw [hts, Nat.shiftRight_zero, Nat.shiftLeft_eq, Nat.shiftRight_eq_div_pow]
    have hgd2 := bitsVal_getD2 32 array harr (offset / 32) hidx2
    have hstep1 : bitsVal 32 array / 2 ^ (32 * array.length - offset - bits)
          % 2 ^ bits
        = (array.getD (offset / 32) 0 * 2 ^ 32 + array.getD (offset / 32 + 1) 0)
          / 2 ^ (32 - (bits - (32 - offset % 32))) % 2 ^ bits := by
      rw [show 32 * array.length - offset - bits
          = 32 * (array.length - 2 - offset / 32)
            + (32 - (bits - (32 - offset % 32))) from by omega,
        pow_add, ← Nat.div_div_eq_div_mul, ← hgd2,
        mod_div_mod _ _ _ (32 + 32) (by omega)]
    rw [hstep1]
    have hw1 := harr _ (getD_mem_of_lt array (offset / 32 + 1) hidx2)
    have hsplitY : array.getD (offset / 32) 0 * 2 ^ 32
          + array.getD (offset / 32 + 1) 0
        = 2 ^ (32 - (bits - (32 - offset % 32)))
            * (array.getD (offset / 32) 0 * 2 ^ (bits - (32 - offset % 32)))
          + array.getD (offset / 32 + 1) 0 := by
      congr 1
      rw [Nat.mul_comm (2 ^ (32 - (bits - (32 - offset % 32)))), Nat.mul_assoc,
        ← pow_add]
      congr 2
      omega
    rw [hsplitY, Nat.mul_add_div (pow_pos (by norm_num) _)]
    have hq : array.getD (offset / 32 + 1) 0
        / 2 ^ (32 - (bits - (32 - offset % 32)))
        < 2 ^ (bits - (32 - offset % 32)) := by
      apply Nat.div_lt_of_lt_mul
      calc array.getD (offset / 32 + 1) 0 < 2 ^ 32 := hw1
        _ = 2 ^ (32 - (bits - (32 - offset % 32)))
            * 2 ^ (bits - (32 - offset % 32)) := by
            rw [← pow_add]
            congr 1
            omega
    have hdecompw : array.getD (offset / 32) 0 * 2 ^ (bits - (32 - offset % 32))
        = array.getD (offset / 32) 0 % 2 ^ (32 - offset % 32)
            * 2 ^ (bits - (32 - offset % 32))
          + array.getD (offset / 32) 0 / 2 ^ (32 - offset % 32) * 2 ^ bits := by
      have hsplit2 : (2 : Nat) ^ bits
          = 2 ^ (32 - offset % 32) * 2 ^ (bits - (32 - offset % 32)) := by
        rw [← pow_add]
        congr 1
        omega
      conv_lhs => rw [← Nat.div_add_mod (array.getD (offset / 32) 0)
        (2 ^ (32 - offset % 32))]
      rw [hsplit2]
      ring
    rw [hdecompw, Nat.add_assoc,
      Nat.add_comm (array.getD (offset / 32) 0 / 2 ^ (32 - offset % 32) * 2 ^ bits),
      ← Nat.add_assoc, Nat.add_mul_mod_self_right]
    have hmod8 : array.getD (offset / 32) 0 % 2 ^ (32 - offset % 32)
        < 2 ^ (32 - offset % 32) := Nat.mod_lt _ (pow_pos (by norm_num) _)
    have hble : (array.getD (offset / 32) 0 % 2 ^ (32 - offset % 32) + 1)
          * 2 ^ (bits - (32 - offset % 32))
        ≤ 2 ^ (32 - offset % 32) * 2 ^ (bits - (32 - offset % 32)) :=
      Nat.mul_le_mul_right _ (by omega)
    have he2 : (2 : Nat) ^ (32 - offset % 32) * 2 ^ (bits - (32 - offset % 32))
        = 2 ^ bits := by
      rw [← pow_add]
      congr 1
      omega
    have he3 : array.getD (offset / 32) 0 % 2 ^ (32 - offset % 32)
          * 2 ^ (bits - (32 - offset % 32)) + 2 ^ (bits - (32 - offset % 32))
        = (array.getD (offset / 32) 0 % 2 ^ (32 - offset % 32) + 1)
          * 2 ^ (bits - (32 - offset % 32)) := by
      ring
    have hfin : array.getD (offset / 32) 0 % 2 ^ (32 - offset % 32)
          * 2 ^ (bits - (32 - offset % 32))
        + array.getD (offset / 32 + 1) 0
          / 2 ^ (32 - (bits - (32 - offset % 32)))
        < 2 ^ bits := by omega
    rw [Nat.mod_eq_of_lt hfin]
  · -- the read fits in the current word
    rw [if_neg hc]
    congr 1
    rw [Nat.shiftRight_eq_div_pow,
      show (2 : Nat) ^ (32 - offset % 32)
        = 2 ^ (32 - offset % 32 - bits) * 2 ^ bits from by
          rw [← pow_add]; congr 1; omega,
      ← Nat.div_mod_eq_mod_mul_div, ← hgd,
      mod_div_mod _ _ _ 32 (by omega), Nat.div_div_eq_div_mul, ← pow_add,
      show 32 * (array.length - 1 - offset / 32) + (32 - offset % 32 - bits)
        = 32 * array.length - offset - bits from by omega]

theorem bitutils.readBarrayAux_spec (array : List Nat)
    (harr : ∀ w ∈ array, w < 2 ^ 8) :
    ∀ bits offset acc, offset + bits ≤ 8 * array.length →
      bitutils.readBarrayAux array offset bits acc
        = some (acc * 2 ^ bits
            + bitsVal 8 array / 2 ^ (8 * array.length - offset - bits)
              % 2 ^ bits) := by
  intro bits
  induction bits using Nat.strong_induction_on with
  | _ bits ih =>
    intro offset acc hbound
    by_cases hpos : bits > 0
    · have hbi : offset % 8 < 8 := Nat.mod_lt _ (by norm_num)
      have hidx : offset / 8 < array.length := by
        apply Nat.div_lt_of_lt_mul
        omega
      have hgd := bitsVal_getD 8 array harr (offset / 8) hidx
      have hmask : (0xFF : Nat) >>> (offset % 8) = 2 ^ (8 - offset % 8) - 1 := by
        rw [show (0xFF : Nat) = 2 ^ 8 - 1 from by norm_num,
          two_pow_sub_one_shiftRight 8 (offset % 8) (by omega)]
      rw [bitutils.readBarrayAux, dif_pos hpos]
      simp only []
      rw [if_pos hidx, hmask, Nat.and_pow_two_sub_one_eq_mod]
      by_cases hcase : bits ≤ 8 - offset % 8
      · -- last byte of the read
        rw [show (if bits < 8 - offset % 8 then bits else 8 - offset % 8) = bits
          from by split <;> omega]
        have hval : (array.getD (offset / 8) 0 % 2 ^ (8 - offset % 8))
              >>> (8 - offset % 8 - bits)
            = bitsVal 8 array / 2 ^ (8 * array.length - offset - bits)
              % 2 ^ bits := by
          rw [Nat.shiftRight_eq_div_pow,
            show (2 : Nat) ^ (8 - offset % 8)
              = 2 ^ (8 - offset % 8 - bits) * 2 ^ bits from by
                rw [← pow_add]; congr 1; omega,
            ← Nat.div_mod_eq_mod_mul_div, ← hgd,
            mod_div_mod _ _ _ 8 (by omega), Nat.div_div_eq_div_mul, ← pow_add,
            show 8 * (array.length - 1 - offset / 8) + (8 - offset % 8 - bits)
              = 8 * array.length - offset - bits from by omega]
        rw [hval, show bits - bits = 0 from by omega]
        rw [bitutils.readBarrayAux]
        simp only [gt_iff_lt, Nat.lt_irrefl, dif_neg, Nat.not_lt_zero,
          not_false_iff]
        rw [Nat.shiftLeft_eq]
      · -- the read continues into the following bytes
        have hr1 : 0 < 8 - offset % 8 := by omega
        rw [show (if bits < 8 - offset % 8 then bits else 8 - offset % 8)
            = 8 - offset % 8 from by split <;> omega,
          show 8 - offset % 8 - bits = 0 from by omega, Nat.shiftRight_zero]
        have hrec := ih (bits - (8 - offset % 8)) (by omega)
          (offset + (8 - offset % 8))
          ((acc <<< (8 - offset % 8))
            + array.getD (offset / 8) 0 % 2 ^ (8 - offset % 8)) (by omega)
        rw [hrec]
        congr 1
        have hV1 : array.getD (offset / 8) 0 % 2 ^ (8 - offset % 8)
            = bitsVal 8 array / 2 ^ (8 * array.length - offset - (8 - offset % 8))
              % 2 ^ (8 - offset % 8) := by
          rw [← hgd, mod_pow_mod_pow _ _ _ (by omega)]
          congr 3
          omega
        have hVsplit : bitsVal 8 array
              / 2 ^ (8 * array.length - offset - bits) % 2 ^ bits
            = (bitsVal 8 array
                / 2 ^ (8 * array.length - offset - (8 - offset % 8))
                % 2 ^ (8 - offset % 8)) * 2 ^ (bits - (8 - offset % 8))
              + bitsVal 8 array
                / 2 ^ (8 * array.length - offset - bits)
                % 2 ^ (bits - (8 - offset % 8)) := by
          set X := bitsVal 8 array
          have e1 : X / 2 ^ (8 * array.length - offset - bits) % 2 ^ bits
                / 2 ^ (bits - (8 - offset % 8))
              = X / 2 ^ (8 * array.length - offset - (8 - offset % 8))
                % 2 ^ (8 - offset % 8) := by
            rw [show (2 : Nat) ^ bits
                = 2 ^ (bits - (8 - offset % 8)) * 2 ^ (8 - offset % 8) from by
                  rw [← pow_add]; congr 1; omega,
              ← Nat.div_mod_eq_mod_mul_div, Nat.div_div_eq_div_mul, ← pow_add,
              show 8 * array.length - offset - bits + (bits - (8 - offset % 8))
                = 8 * array.length - offset - (8 - offset % 8) from by omega]
          have e2 : X / 2 ^ (8 * array.length - offset - bits) % 2 ^ bits
                % 2 ^ (bits - (8 - offset % 8))
              = X / 2 ^ (8 * array.length - offset - bits)
                % 2 ^ (bits - (8 - offset % 8)) :=
            mod_pow_mod_pow _ _ _ (by omega)
          calc X / 2 ^ (8 * array.length - offset - bits) % 2 ^ bits
              = 2 ^ (bits - (8 - offset % 8))
                  * (X / 2 ^ (8 * array.length - offset - bits) % 2 ^ bits
                    / 2 ^ (bits - (8 - offset % 8)))
                + X / 2 ^ (8 * array.length - offset - bits) % 2 ^ bits
                  % 2 ^ (bits - (8 - offset % 8)) :=
              (Nat.div_add_mod _ _).symm
            _ = _ := by rw [e1, e2]; ring
        rw [hVsplit, ← hV1, Nat.shiftLeft_eq, Nat.add_mul,
          show 8 * array.length - (offset + (8 - offset % 8))
              - (bits - (8 - offset % 8)) = 8 * array.length - offset - bits
            from by omega,
          Nat.mul_assoc acc, ← pow_add,
          show 8 - offset % 8 + (bits - (8 - offset % 8)) = bits from by omega]
        ring
    · have hz : bits = 0 := by omega
      subst hz
      rw [bitutils.readBarrayAux]
      simp [Nat.mod_one]

theorem bitutils.read_barray_spec (array : List Nat) (offset bits : Nat)
    (hbound : offset + bits ≤ 8 * array.length)
    (harr : ∀ w ∈ array, w < 2 ^ 8) :
    bitutils.read_binary_from_barray array offset bits
      = some (bitsVal 8 array / 2 ^ (8 * array.length - offset - bits)
          % 2 ^ bits) := by
  rw [bitutils.read_binary_from_barray,
    bitutils.readBarrayAux_spec array harr bits offset 0 hbound]
  simp

theorem suffix_zero_target (X K b : Nat) (h : X % 2 ^ K = 0) (hb : b ≤ K) :
    X / 2 ^ (K - b) % 2 ^ b = 0 := by
  obtain ⟨c, hc⟩ := Nat.dvd_of_mod_eq_zero h
  rw [hc, show (2 : Nat) ^ K = 2 ^ b * 2 ^ (K - b) from by
      rw [← pow_add]; congr 1; omega,
    Nat.mul_assoc, Nat.mul_comm (2 ^ (K - b)) c, ← Nat.mul_assoc,
    Nat.mul_div_cancel _ (pow_pos (by norm_num) _)]
  exact Nat.mul_mod_right _ _

/-- C2 (amended): with the width capped at the machine-word size
(1 ≤ bits ≤ 32), writing `value` into an array whose target bit range
[offset, offset+bits) is zero and reading it back at the same offset returns
`value`, and the write returns offset+bits — for both the 32-bit-word and the
8-bit-word routines.  The target-range-zero premise is phrased through
`bitsVal`: the `bits`-wide field of the stream at `offset` is 0. -/
theorem C2_write_then_read (offset bits value : Nat)
    (h1 : 1 ≤ bits) (h2 : bits ≤ 32) (hv : value < 2 ^ bits) :
    (∀ array : List Nat, offset + bits ≤ 32 * array.length →
      (∀ w ∈ array, w < 2 ^ 32) →
      bitsVal 32 array / 2 ^ (32 * array.length - offset - bits) % 2 ^ bits = 0 →
      ∃ arr', bitutils.write_binary_in_iarray array offset value bits
          = some (arr', offset + bits) ∧
        bitutils.read_binary_from_iarray arr' offset bits = some value) ∧
    (∀ array : List Nat, offset + bits ≤ 8 * array.length →
      (∀ w ∈ array, w < 2 ^ 8) →
      bitsVal 8 array / 2 ^ (8 * array.length - offset - bits) % 2 ^ bits = 0 →
      ∃ arr', bitutils.write_binary_in_barray array offset value bits
          = some (arr', offset + bits) ∧
        bitutils.read_binary_from_barray arr' offset bits = some value) := by
  constructor
  · intro array hbound harr hzero
    obtain ⟨arr', hw, hlen, hmem, hbv⟩ :=
      bitutils.writeGen_spec 32 (by norm_num) (by norm_num) bits offset value
        array (by omega) h2 hbound harr hv hzero
    refine ⟨arr', hw, ?_⟩
    rw [bitutils.read_iarray_spec arr' offset bits (by omega) h2
      (by rw [hlen]; exact hbound) hmem]
    congr 1
    rw [hlen, hbv]
    obtain ⟨c, hc⟩ := Nat.dvd_of_mod_eq_zero hzero
    have hd : (bitsVal 32 array
          + value * 2 ^ (32 * array.length - offset - bits))
          / 2 ^ (32 * array.length - offset - bits)
        = bitsVal 32 array / 2 ^ (32 * array.length - offset - bits) + value := by
      have h3 := add_mul_pow_div (bitsVal 32 array) value
        (32 * array.length - offset - bits) 0
      simpa using h3
    rw [hd, hc, Nat.mul_add_mod, Nat.mod_eq_of_lt hv]
  · intro array hbound harr hzero
    obtain ⟨arr', hw, hlen, hmem, hbv⟩ :=
      bitutils.writeGen_spec 8 (by norm_num) (by norm_num) bits offset value
        array (by omega) h2 hbound harr hv hzero
    refine ⟨arr', hw, ?_⟩
    rw [bitutils.read_barray_spec arr' offset bits
      (by rw [hlen]; exact hbound) hmem]
    congr 1
    rw [hlen, hbv]
    obtain ⟨c, hc⟩ := Nat.dvd_of_mod_eq_zero hzero
    have hd : (bitsVal 8 array
          + value * 2 ^ (8 * array.length - offset - bits))
          / 2 ^ (8 * array.length - offset - bits)
        = bitsVal 8 array / 2 ^ (8 * array.length - offset - bits) + value := by
      have h3 := add_mul_pow_div (bitsVal 8 array) value
        (8 * array.length - offset - bits) 0
      simpa using h3
    rw [hd, hc, Nat.mul_add_mod, Nat.mod_eq_of_lt hv]

/-- Witness for C2: value 21 written 5 bits wide at bit offset 3 of a
one-word (resp. one-byte) zero array round-trips in both variants. -/
theorem C2_write_then_read_witness :
    (1 ≤ 5 ∧ 5 ≤ 32 ∧ 21 < 2 ^ 5) ∧
    (∃ arr', bitutils.write_binary_in_iarray [0] 3 21 5 = some (arr', 3 + 5) ∧
      bitutils.read_binary_from_iarray arr' 3 5 = some 21) ∧
    (∃ arr', bitutils.write_binary_in_barray [0] 3 21 5 = some (arr', 3 + 5) ∧
      bitutils.read_binary_from_barray arr' 3 5 = some 21) :=
  ⟨⟨by decide, by decide, by decide⟩,
    (C2_write_then_read 3 5 21 (by decide) (by decide) (by decide)).1 [0]
      (by decide) (by decide) (by decide),
    (C2_write_then_read 3 5 21 (by decide) (by decide) (by decide)).2 [0]
      (by decide) (by decide) (by decide)⟩

/-- C2 counterexample: with no cap on `bits` the claim is false — at
offset 31 with bits = 34 (a zero 3-word array, value 0 < 2^34) the 32-bit
write raises ValueError (`0xFFFFFFFF >> (32 - shift)` with shift = 33), so
it neither returns offset+bits nor can the value be read back. -/
theorem C2_counterexample :
    bitutils.write_binary_in_iarray [0, 0, 0] 31 0 34 = none ∧
    ¬ ∃ arr', bitutils.write_binary_in_iarray [0, 0, 0] 31 0 34
        = some (arr', 31 + 34) ∧
      bitutils.read_binary_from_iarray arr' 31 34 = some 0 := by
  have hnone : bitutils.write_binary_in_iarray [0, 0, 0] 31 0 34 = none := by
    rw [bitutils.write_binary_in_iarray, bitutils.writeGen]
    norm_num
  refine ⟨hnone, ?_⟩
  rintro ⟨arr', hw, -⟩
  rw [hnone] at hw
  exact Option.noConfusion hw

/-! ## pforencoder.py -/

/-- POSSIBLES_B = [1, ..., 32]. -/
def pforencoder.POSSIBLES_B : List Nat := List.range' 1 32

/-- MASKS[x] = (1 << x) - 1. -/
def pforencoder.MASKS (x : Nat) : Nat := (1 <<< x) - 1

/-- HEADER_SIZE: one 32-bit integer for b and the exception count. -/
def pforencoder.HEADER_SIZE : Nat := 32

/-- B_HEADER_SIZE: bits of the header devoted to b. -/
def pforencoder.B_HEADER_SIZE : Nat := 5

/-- pforencoder.estimate_encoded_size: header + b bits per slot + a
32-bit penalty per exception (the counting loop is `List.countP`). -/
def pforencoder.estimate_encoded_size (numbers : List Nat) (b : Nat) : Nat :=
  pforencoder.HEADER_SIZE + numbers.length * b
    + numbers.countP (fun x => decide (x > pforencoder.MASKS b)) * 32

/-- The selection loop of __find_optimal_b, carrying (optimal_b,
optimal_size) and updating only on a strict improvement. -/
def pforencoder.findBAux (numbers : List Nat) :
    List Nat → Nat × Nat → Nat × Nat
  | [], acc => acc
  | b :: bs, acc =>
    let current_size := pforencoder.estimate_encoded_size numbers b
    if current_size < acc.2 then pforencoder.findBAux numbers bs (b, current_size)
    else pforencoder.findBAux numbers bs acc

/-- pforencoder.__find_optimal_b: start from POSSIBLES_B[0] and scan the
rest. -/
def pforencoder.find_optimal_b (numbers : List Nat) : Nat :=
  (pforencoder.findBAux numbers pforencoder.POSSIBLES_B.tail
    (pforencoder.POSSIBLES_B.headD 0,
      pforencoder.estimate_encoded_size numbers
        (pforencoder.POSSIBLES_B.headD 0))).1

/-- The slot-writing loop of pforencoder.encode: for each number at position
i, mask exceptions down to b bits, record (index, high bits), and write the
b-bit slot with write_binary_in_iarray. -/
def pforencoder.encodeLoop (b : Nat) :
    List Nat → Nat → List Nat → Nat → List Nat → List Nat →
    Option (List Nat × Nat × List Nat × List Nat)
  | [], _, encoded, offset, idxs, ups => some (encoded, offset, idxs, ups)
  | x :: xs, i, encoded, offset, idxs, ups =>
    let isExc := x > pforencoder.MASKS b
    let idxs' := if isExc then idxs ++ [i] else idxs
    let ups' := if isExc then ups ++ [x >>> b] else ups
    let number := if isExc then x &&& pforencoder.MASKS b else x
    match bitutils.write_binary_in_iarray encoded offset number b with
    | none => none
    | some (encoded', _) =>
      pforencoder.encodeLoop b xs (i + 1) encoded' (offset + b) idxs' ups'

/-- pforencoder.encode.  The two `math.ceil` float divisions of the source
are modelled as exact natural ceiling divisions. -/
def pforencoder.encode (numbers : List Nat) : Option (List Nat) :=
  let b := pforencoder.find_optimal_b numbers
  let numbers_per_int := 32 / b
  let encoded_size := (numbers.length + numbers_per_int - 1) / numbers_per_int
  match pforencoder.encodeLoop b numbers 0 (List.replicate encoded_size 0) 0 [] [] with
  | none => none
  | some (encoded, offset, exceptions_indexes, exceptions) =>
    let used_ints := (offset + 31) / 32
    let encoded := encoded.take used_ints
    let header := ((b - 1) <<< (32 - pforencoder.B_HEADER_SIZE))
      + exceptions.length
    match simple16encoder.encode (exceptions_indexes ++ exceptions) with
    | none => none
    | some exception_encode => some ((header :: encoded) ++ exception_encode)

/-- pforencoder.__get_header; `none` models the IndexError on an empty
encoding. -/
def pforencoder.get_header (encoded : List Nat) : Option (Nat × Nat) :=
  match encoded with
  | [] => none
  | e0 :: _ =>
    let offset := 32 - pforencoder.B_HEADER_SIZE
    some ((e0 >>> offset) + 1, e0 &&& pforencoder.MASKS offset)

/-- The loop of pforencoder.__merge_exceptions
(`decoded[i] += exceptions.pop(0) << b`); `none` models the IndexError of
popping from an empty exception list. -/
def pforencoder.merge_exceptions (decoded : List Nat) :
    List Nat → List Nat → Nat → Option (List Nat)
  | [], _, _ => some decoded
  | i :: rest1, u :: rest2, b =>
    pforencoder.merge_exceptions
      (decoded.set i (decoded.getD i 0 + (u <<< b))) rest1 rest2 b
  | _ :: _, [], _ => none

/-- The batch-decode loop of pforencoder.decode: read `n` slots of b bits. -/
def pforencoder.decodeLoop (encoded : List Nat) (b : Nat) :
    Nat → Nat → Option (List Nat)
  | 0, _ => some []
  | n + 1, offset =>
    match bitutils.read_binary_from_iarray encoded offset b with
    | none => none
    | some v =>
      match pforencoder.decodeLoop encoded b n (offset + b) with
      | none => none
      | some rest => some (v :: rest)

/-- pforencoder.decode. -/
def pforencoder.decode (encoded : List Nat) (nums : Nat) : Option (List Nat) :=
  match pforencoder.get_header encoded with
  | none => none
  | some (b, exceptions_count) =>
    let encoded := encoded.tail
    match pforencoder.decodeLoop encoded b nums 0 with
    | none => none
    | some decoded =>
      if exceptions_count > 0 then
        let ints_readed := (nums * b + 31) / 32
        let exceptions := simple16encoder.decode (encoded.drop ints_readed) true
        let exceptions := exceptions.take (exceptions_count <<< 1)
        let middle := exceptions.length >>> 1
        pforencoder.merge_exceptions decoded (exceptions.take middle)
          (exceptions.drop middle) b
      else some decoded

/-! ## Proof-side views of the PFor encode pass -/

/-- The b-bit slot value for each input number (exceptions masked). -/
def pforencoder.passLows (b : Nat) : List Nat → List Nat
  | [] => []
  | x :: xs =>
    (if x > pforencoder.MASKS b then x &&& pforencoder.MASKS b else x)
      :: pforencoder.passLows b xs

/-- The positions (from a running index) of the exceptions. -/
def pforencoder.passIdxs (b : Nat) : List Nat → Nat → List Nat
  | [], _ => []
  | x :: xs, i =>
    (if x > pforencoder.MASKS b then [i] else [])
      ++ pforencoder.passIdxs b xs (i + 1)

/-- The high bits of each exception, in input order. -/
def pforencoder.passUps (b : Nat) : List Nat → List Nat
  | [] => []
  | x :: xs =>
    (if x > pforencoder.MASKS b then [x >>> b] else []) ++ pforencoder.passUps b xs

theorem pforencoder.MASKS_eq (b : Nat) : pforencoder.MASKS b = 2 ^ b - 1 := by
  unfold pforencoder.MASKS
  rw [Nat.shiftLeft_eq, one_mul]

theorem pforencoder.passLows_length (b : Nat) :
    ∀ xs : List Nat, (pforencoder.passLows b xs).length = xs.length := by
  intro xs
  induction xs with
  | nil => rfl
  | cons x t ih => simp [pforencoder.passLows, ih]

theorem pforencoder.passLows_lt (b : Nat) :
    ∀ xs : List Nat, ∀ v ∈ pforencoder.passLows b xs, v < 2 ^ b := by
  intro xs
  induction xs with
  | nil => intro v hv; simp [pforencoder.passLows] at hv
  | cons x t ih =>
    intro v hv
    rw [pforencoder.passLows] at hv
    rcases List.mem_cons.mp hv with h | h
    · subst h
      by_cases hexc : x > pforencoder.MASKS b
      · rw [if_pos hexc, pforencoder.MASKS_eq, Nat.and_pow_two_sub_one_eq_mod]
        exact Nat.mod_lt _ (pow_pos (by norm_num) _)
      · rw [if_neg hexc]
        rw [pforencoder.MASKS_eq] at hexc
        have hp : (0 : Nat) < 2 ^ b := pow_pos (by norm_num) _
        omega
    · exact ih v h

theorem pforencoder.passIdxs_length (b : Nat) :
    ∀ (xs : List Nat) (i : Nat), (pforencoder.passIdxs b xs i).length
      = xs.countP (fun x => decide (x > pforencoder.MASKS b)) := by
  intro xs
  induction xs with
  | nil => intro i; rfl
  | cons x t ih =>
    intro i
    rw [pforencoder.passIdxs, List.countP_cons]
    by_cases hexc : x > pforencoder.MASKS b <;>
      simp [hexc, ih]

theorem pforencoder.passUps_length (b : Nat) :
    ∀ xs : List Nat, (pforencoder.passUps b xs).length
      = xs.countP (fun x => decide (x > pforencoder.MASKS b)) := by
  intro xs
  induction xs with
  | nil => rfl
  | cons x t ih =>
    rw [pforencoder.passUps, List.countP_cons]
    by_cases hexc : x > pforencoder.MASKS b <;>
      simp [hexc, ih]

theorem pforencoder.passUps_pos (b : Nat) :
    ∀ xs : List Nat, ∀ u ∈ pforencoder.passUps b xs, 1 ≤ u := by
  intro xs
  induction xs with
  | nil => intro u hu; simp [pforencoder.passUps] at hu
  | cons x t ih =>
    intro u hu
    rw [pforencoder.passUps] at hu
    rcases List.mem_append.mp hu with h | h
    · by_cases hexc : x > pforencoder.MASKS b
      · rw [if_pos hexc] at h
        rcases List.mem_singleton.mp h with rfl
        rw [pforencoder.MASKS_eq] at hexc
        rw [Nat.shiftRight_eq_div_pow]
        have hx : 2 ^ b ≤ x := by
          have hp : (0 : Nat) < 2 ^ b := pow_pos (by norm_num) _
          omega
        exact Nat.one_le_div_iff (pow_pos (by norm_num) _) |>.mpr hx
      · rw [if_neg hexc] at h
        simp at h
    · exact ih u h

theorem pforencoder.passUps_le (b : Nat) :
    ∀ xs : List Nat, ∀ u ∈ pforencoder.passUps b xs, ∃ x ∈ xs, u ≤ x := by
  intro xs
  induction xs with
  | nil => intro u hu; simp [pforencoder.passUps] at hu
  | cons x t ih =>
    intro u hu
    rw [pforencoder.passUps] at hu
    rcases List.mem_append.mp hu with h | h
    · refine ⟨x, List.mem_cons_self _ _, ?_⟩
      by_cases hexc : x > pforencoder.MASKS b
      · rw [if_pos hexc] at h
        rcases List.mem_singleton.mp h with rfl
        rw [Nat.shiftRight_eq_div_pow]
        exact Nat.div_le_self _ _
      · rw [if_neg hexc] at h
        simp at h
    · obtain ⟨y, hy, hle⟩ := ih u h
      exact ⟨y, List.mem_cons_of_mem _ hy, hle⟩

theorem pforencoder.passIdxs_lt (b : Nat) :
    ∀ (xs : List Nat) (i : Nat), ∀ j ∈ pforencoder.passIdxs b xs i,
      j < i + xs.length := by
  intro xs
  induction xs with
  | nil => intro i j hj; simp [pforencoder.passIdxs] at hj
  | cons x t ih =>
    intro i j hj
    rw [pforencoder.passIdxs] at hj
    rcases List.mem_append.mp hj with h | h
    · by_cases hexc : x > pforencoder.MASKS b
      · rw [if_pos hexc] at h
        rcases List.mem_singleton.mp h with rfl
        simp only [List.length_cons]
        omega
      · rw [if_neg hexc] at h
        simp at h
    · have := ih (i + 1) j h
      simp only [List.length_cons]
      omega

theorem pforencoder.passLows_of_no_exc (b : Nat) :
    ∀ xs : List Nat, (∀ x ∈ xs, ¬ x > pforencoder.MASKS b) →
      pforencoder.passLows b xs = xs := by
  intro xs
  induction xs with
  | nil => intro _; rfl
  | cons x t ih =>
    intro h
    rw [pforencoder.passLows, if_neg (h x (List.mem_cons_self _ _)),
      ih (fun y hy => h y (List.mem_cons_of_mem _ hy))]

theorem list_getD_append_cons (y : Nat) :
    ∀ (pre t : List Nat), (pre ++ y :: t).getD pre.length 0 = y := by
  intro pre
  induction pre with
  | nil => intro t; rfl
  | cons p ps ih => intro t; simpa using ih t

theorem list_set_append_cons (y v : Nat) :
    ∀ (pre t : List Nat), (pre ++ y :: t).set pre.length v = pre ++ v :: t := by
  intro pre
  induction pre with
  | nil => intro t; rfl
  | cons p ps ih => intro t; simpa using ih t

theorem pforencoder.merge_spec (b : Nat) :
    ∀ (xs pre : List Nat),
      pforencoder.merge_exceptions (pre ++ pforencoder.passLows b xs)
        (pforencoder.passIdxs b xs pre.length) (pforencoder.passUps b xs) b
      = some (pre ++ xs) := by
  intro xs
  induction xs with
  | nil =>
    intro pre
    simp [pforencoder.passLows, pforencoder.passIdxs, pforencoder.passUps,
      pforencoder.merge_exceptions]
  | cons x t ih =>
    intro pre
    rw [pforencoder.passLows, pforencoder.passIdxs, pforencoder.passUps]
    by_cases hexc : x > pforencoder.MASKS b
    · rw [if_pos hexc, if_pos hexc, if_pos hexc]
      simp only [List.singleton_append]
      rw [pforencoder.merge_exceptions]
      rw [list_getD_append_cons, list_set_append_cons]
      have hx : (x &&& pforencoder.MASKS b) + x >>> b <<< b = x := by
        rw [pforencoder.MASKS_eq, Nat.and_pow_two_sub_one_eq_mod,
          Nat.shiftRight_eq_div_pow, Nat.shiftLeft_eq]
        rw [Nat.add_comm, Nat.mul_comm]
        exact Nat.div_add_mod x (2 ^ b)
      rw [hx]
      have := ih (pre ++ [x])
      simpa using this
    · rw [if_neg hexc, if_neg hexc, if_neg hexc]
      simp only [List.nil_append]
      have := ih (pre ++ [x])
      simpa using this

theorem pforencoder.encodeLoop_spec (b : Nat) (hb1 : 1 ≤ b) (hb2 : b ≤ 32) :
    ∀ (xs : List Nat) (i : Nat) (encoded : List Nat) (offset : Nat)
      (idxs ups : List Nat),
      offset + b * xs.length ≤ 32 * encoded.length →
      (∀ w ∈ encoded, w < 2 ^ 32) →
      bitsVal 32 encoded % 2 ^ (32 * encoded.length - offset) = 0 →
      ∃ arr, pforencoder.encodeLoop b xs i encoded offset idxs ups
          = some (arr, offset + b * xs.length,
              idxs ++ pforencoder.passIdxs b xs i,
              ups ++ pforencoder.passUps b xs) ∧
        arr.length = encoded.length ∧ (∀ w ∈ arr, w < 2 ^ 32) ∧
        bitsVal 32 arr = bitsVal 32 encoded
          + bitsVal b (pforencoder.passLows b xs)
            * 2 ^ (32 * encoded.length - offset - b * xs.length) ∧
        bitsVal 32 arr % 2 ^ (32 * encoded.length - (offset + b * xs.length))
          = 0 := by
  intro xs
  induction xs with
  | nil =>
    intro i encoded offset idxs ups hbound harr hzero
    refine ⟨encoded, ?_, rfl, harr, ?_, ?_⟩
    · simp [pforencoder.encodeLoop, pforencoder.passIdxs, pforencoder.passUps]
    · simp [pforencoder.passLows, bitsVal]
    · simpa using hzero
  | cons x t ih =>
    intro i encoded offset idxs ups hbound harr hzero
    have hlen : b * (x :: t).length = b * t.length + b := by
      simp only [List.length_cons]
      ring
    rw [hlen] at hbound
    have hbound' : offset + b ≤ 32 * encoded.length := by omega
    have hzero_tgt : bitsVal 32 encoded
        / 2 ^ (32 * encoded.length - offset - b) % 2 ^ b = 0 :=
      suffix_zero_target _ _ _ hzero (by omega)
    have hnum : (if x > pforencoder.MASKS b
        then x &&& pforencoder.MASKS b else x) < 2 ^ b := by
      by_cases hexc : x > pforencoder.MASKS b
      · rw [if_pos hexc, pforencoder.MASKS_eq, Nat.and_pow_two_sub_one_eq_mod]
        exact Nat.mod_lt _ (pow_pos (by norm_num) _)
      · rw [if_neg hexc, pforencoder.MASKS_eq] at *
        have hp : (0 : Nat) < 2 ^ b := pow_pos (by norm_num) _
        omega
    obtain ⟨arr1, hw, hlen1, harr1, hval1⟩ :=
      bitutils.writeGen_spec 32 (by norm_num) (by norm_num) b offset
        (if x > pforencoder.MASKS b then x &&& pforencoder.MASKS b else x)
        encoded (by omega) hb2 hbound' harr hnum hzero_tgt
    have hw' : bitutils.write_binary_in_iarray encoded offset
        (if x > pforencoder.MASKS b then x &&& pforencoder.MASKS b else x) b
        = some (arr1, offset + b) := hw
    have hzero1 : bitsVal 32 arr1
        % 2 ^ (32 * arr1.length - (offset + b)) = 0 := by
      rw [hval1, hlen1,
        show 32 * encoded.length - offset - b
          = 32 * encoded.length - (offset + b) from by omega,
        Nat.add_mul_mod_self_right]
      exact mod_pow_zero_mono _ _ _ hzero (by omega)
    have hbound2 : (offset + b) + b * t.length ≤ 32 * arr1.length := by
      rw [hlen1]
      omega
    obtain ⟨arr, hrec, hlen2, harr2, hval2, hzero2⟩ :=
      ih (i + 1) arr1 (offset + b)
        (if x > pforencoder.MASKS b then idxs ++ [i] else idxs)
        (if x > pforencoder.MASKS b then ups ++ [x >>> b] else ups)
        hbound2 harr1 hzero1
    refine ⟨arr, ?_, by rw [hlen2, hlen1], harr2, ?_, ?_⟩
    · rw [pforencoder.encodeLoop]
      simp only [hw']
      rw [hrec]
      congr 1
      rw [pforencoder.passIdxs, pforencoder.passUps]
      have hd : b * (t.length + 1) = b * t.length + b := by ring
      by_cases hexc : x > pforencoder.MASKS b
      · simp [hexc, hlen]
        omega
      · simp [hexc, hlen]
        omega
    · rw [hval2, hlen1, hval1, pforencoder.passLows, bitsVal_cons,
        pforencoder.passLows_length]
      have hE : 32 * encoded.length - (offset + b) - b * t.length
          = 32 * encoded.length - offset - b * (x :: t).length := by
        simp only [List.length_cons]
        have : b * (t.length + 1) = b * t.length + b := by ring
        omega
      rw [hE]
      have hE2 : b * t.length + (32 * encoded.length - offset
          - b * (x :: t).length) = 32 * encoded.length - offset - b := by
        simp only [List.length_cons]
        have : b * (t.length + 1) = b * t.length + b := by ring
        omega
      rw [Nat.add_mul, Nat.mul_assoc, ← pow_add, hE2, Nat.add_assoc]
    · rw [hlen1] at hzero2
      have hE3 : 32 * encoded.length - (offset + b + b * t.length)
          = 32 * encoded.length - (offset + b * (x :: t).length) := by
        simp only [List.length_cons]
        have : b * (t.length + 1) = b * t.length + b := by ring
        omega
      rw [hE3] at hzero2
      exact hzero2

theorem mul_pow_add_div (F K B e : Nat) (hB : B < 2 ^ K) :
    (F * 2 ^ K + B) / 2 ^ (K + e) = F / 2 ^ e := by
  rw [pow_add, ← Nat.div_div_eq_div_mul, Nat.mul_comm F,
    Nat.mul_add_div (pow_pos (by norm_num) K), Nat.div_eq_of_lt hB,
    Nat.add_zero]

theorem pforencoder.decodeLoop_eq (total : List Nat) (b : Nat)
    (hb1 : 1 ≤ b) (hb2 : b ≤ 32) (harr : ∀ w ∈ total, w < 2 ^ 32) :
    ∀ (lows : List Nat) (offset : Nat),
      offset + b * lows.length ≤ 32 * total.length →
      (∀ j, j < lows.length → bitsVal 32 total
          / 2 ^ (32 * total.length - (offset + j * b) - b) % 2 ^ b
        = lows.getD j 0) →
      pforencoder.decodeLoop total b lows.length offset = some lows := by
  intro lows
  induction lows with
  | nil => intro offset _ _; rfl
  | cons v rest ih =>
    intro offset hbound hfield
    simp only [List.length_cons] at hbound hfield ⊢
    have hd : b * (rest.length + 1) = b * rest.length + b := by ring
    have hb' : offset + b ≤ 32 * total.length := by omega
    rw [pforencoder.decodeLoop,
      bitutils.read_iarray_spec total offset b (by omega) hb2 hb' harr]
    have h0 := hfield 0 (by simp)
    simp only [Nat.zero_mul, Nat.add_zero, List.getD_cons_zero] at h0
    rw [h0]
    have hrec : pforencoder.decodeLoop total b rest.length (offset + b)
        = some rest := by
      refine ih (offset + b) (by omega) ?_
      intro j hj
      have hs := hfield (j + 1) (by omega)
      rw [List.getD_cons_succ] at hs
      rw [show offset + b + j * b = offset + (j + 1) * b from by ring]
      exact hs
    rw [hrec]

theorem stream_field_of_packed (front rest lows : List Nat) (b n j : Nat)
    (hlen : lows.length = n) (hj : j < n)
    (hlow : ∀ v ∈ lows, v < 2 ^ b)
    (hbn : b * n ≤ 32 * front.length)
    (hfront : bitsVal 32 front
      = bitsVal b lows * 2 ^ (32 * front.length - b * n))
    (hrest : ∀ w ∈ rest, w < 2 ^ 32) :
    bitsVal 32 (front ++ rest)
        / 2 ^ (32 * (front ++ rest).length - (0 + j * b) - b) % 2 ^ b
      = lows.getD j 0 := by
  have hjb : j * b + b ≤ b * n := by
    calc j * b + b = b * (j + 1) := by ring
      _ ≤ b * n := Nat.mul_le_mul_left b (by omega)
  have hexp : 32 * (front ++ rest).length - (0 + j * b) - b
      = 32 * rest.length + (32 * front.length - j * b - b) := by
    simp only [List.length_append]
    omega
  rw [hexp, bitsVal_append,
    mul_pow_add_div _ _ _ _ (bitsVal_lt 32 rest hrest), hfront]
  have he : 32 * front.length - j * b - b
      = (32 * front.length - b * n) + (b * n - j * b - b) := by omega
  rw [he]
  have h0 : bitsVal b lows * 2 ^ (32 * front.length - b * n) + 0
      = bitsVal b lows * 2 ^ (32 * front.length - b * n) := by ring
  rw [← h0, mul_pow_add_div _ _ _ _ (pow_pos (by norm_num) _)]
  have hd : b * n - j * b - b = b * (lows.length - 1 - j) := by
    have hsp : b * (n - 1 - j) + (j * b + b) = b * n := by
      calc b * (n - 1 - j) + (j * b + b) = b * ((n - 1 - j) + j + 1) := by ring
        _ = b * n := by congr 1; omega
    rw [hlen]
    omega
  rw [hd]
  exact bitsVal_getD b lows hlow j (by omega)

theorem simple16encoder.MASKS_val (x : Nat) :
    simple16encoder.MASKS x = 2 ^ x - 1 := by
  unfold simple16encoder.MASKS
  rw [Nat.shiftLeft_eq, one_mul]

theorem simple16encoder.formats_sum_le :
    ∀ f ∈ simple16encoder.S16_FORMAT_KEYS_REVERSED,
      (simple16encoder.S16_FORMATS f).sum ≤ 28 := by decide

theorem simple16encoder.keys_le :
    ∀ f ∈ simple16encoder.S16_FORMAT_KEYS_REVERSED, f ≤ 15 := by decide

theorem simple16encoder.packAux_lt :
    ∀ (ws vs : List Nat) (B : Nat),
      (∀ i, i < vs.length →
        vs.getD i 0 ≤ simple16encoder.MASKS (ws.getD i 0)) →
      ws.sum ≤ B →
      simple16encoder.packAux ws vs B < 2 ^ B := by
  intro ws
  induction ws with
  | nil =>
    intro vs B _ _
    cases vs with
    | nil => simpa [simple16encoder.packAux] using pow_pos (by norm_num : (0:Nat) < 2) B
    | cons v vs =>
      simpa [simple16encoder.packAux] using pow_pos (by norm_num : (0:Nat) < 2) B
  | cons w ws ih =>
    intro vs B hval hsum
    cases vs with
    | nil =>
      simpa [simple16encoder.packAux] using pow_pos (by norm_num : (0:Nat) < 2) B
    | cons v vs =>
      simp only [simple16encoder.packAux]
      rw [List.sum_cons] at hsum
      have hv : v ≤ simple16encoder.MASKS w := by
        have := hval 0 (by simp)
        simpa using this
      rw [simple16encoder.MASKS_val] at hv
      have h1 : (0:Nat) < 2 ^ w := pow_pos (by norm_num) w
      have hih : simple16encoder.packAux ws vs (B - w) < 2 ^ (B - w) := by
        refine ih vs (B - w) ?_ (by omega)
        intro i hi
        have := hval (i + 1) (by simpa using Nat.succ_lt_succ hi)
        simpa using this
      rw [Nat.shiftLeft_eq]
      have hmul : v * 2 ^ (B - w) ≤ (2 ^ w - 1) * 2 ^ (B - w) :=
        Nat.mul_le_mul_right _ hv
      have hfac : (2 ^ w - 1) * 2 ^ (B - w) + 2 ^ (B - w) = 2 ^ B := by
        calc (2 ^ w - 1) * 2 ^ (B - w) + 2 ^ (B - w)
            = ((2 ^ w - 1) + 1) * 2 ^ (B - w) := by ring
          _ = 2 ^ w * 2 ^ (B - w) := by rw [Nat.sub_add_cancel h1]
          _ = 2 ^ B := by rw [← pow_add]; congr 1; omega
      omega

theorem simple16encoder.decodeBatchAux_spec :
    ∀ (ws vs : List Nat) (offset T : Nat),
      vs.length ≤ ws.length →
      (∀ i, i < vs.length →
        vs.getD i 0 ≤ simple16encoder.MASKS (ws.getD i 0)) →
      offset + ws.sum ≤ 28 →
      simple16encoder.decodeBatchAux
          (T * 2 ^ (28 - offset) + simple16encoder.packAux ws vs (28 - offset))
          ws offset
        = vs ++ List.replicate (ws.length - vs.length) 0 := by
  intro ws
  induction ws with
  | nil =>
    intro vs offset T hlen _ _
    have hvs : vs = [] := List.eq_nil_of_length_eq_zero (by simpa using hlen)
    subst hvs
    rfl
  | cons w ws ih =>
    intro vs offset T hlen hval hsum
    rw [List.sum_cons] at hsum
    have hB : 28 - offset = w + (28 - (offset + w)) := by omega
    cases vs with
    | nil =>
      have hbatch : T * 2 ^ (28 - offset)
          + simple16encoder.packAux (w :: ws) [] (28 - offset)
          = (T * 2 ^ w) * 2 ^ (28 - (offset + w))
            + simple16encoder.packAux ws [] (28 - (offset + w)) := by
        simp only [simple16encoder.packAux]
        rw [hB, pow_add]
        ring
      rw [hbatch, simple16encoder.decodeBatchAux]
      have hhead : ((T * 2 ^ w) * 2 ^ (28 - (offset + w))
            + simple16encoder.packAux ws [] (28 - (offset + w)))
            >>> (28 - (offset + w)) &&& simple16encoder.MASKS w = 0 := by
        simp only [simple16encoder.packAux]
        rw [Nat.add_zero, Nat.shiftRight_eq_div_pow, Nat.mul_comm,
          Nat.mul_div_cancel_left _ (pow_pos (by norm_num) _),
          simple16encoder.MASKS_val, Nat.and_pow_two_sub_one_eq_mod,
          Nat.mul_comm T, Nat.mul_mod_right]
      rw [hhead, ih [] (offset + w) (T * 2 ^ w) (by simp) (by intro i hi; simp at hi)
        (by omega)]
      simp [List.replicate_succ]
    | cons v vs =>
      have hv : v ≤ simple16encoder.MASKS w := by
        have := hval 0 (by simp)
        simpa using this
      have hvlt : v < 2 ^ w := by
        rw [simple16encoder.MASKS_val] at hv
        have h1 : (0:Nat) < 2 ^ w := pow_pos (by norm_num) w
        omega
      have hvalrest : ∀ i, i < vs.length →
          vs.getD i 0 ≤ simple16encoder.MASKS (ws.getD i 0) := by
        intro i hi
        have := hval (i + 1) (by simpa using Nat.succ_lt_succ hi)
        simpa using this
      have hPlt : simple16encoder.packAux ws vs (28 - (offset + w))
          < 2 ^ (28 - (offset + w)) :=
        simple16encoder.packAux_lt ws vs _ hvalrest (by omega)
      have hbatch : T * 2 ^ (28 - offset)
          + simple16encoder.packAux (w :: ws) (v :: vs) (28 - offset)
          = (T * 2 ^ w + v) * 2 ^ (28 - (offset + w))
            + simple16encoder.packAux ws vs (28 - (offset + w)) := by
        simp only [simple16encoder.packAux]
        rw [Nat.shiftLeft_eq,
          show 28 - offset - w = 28 - (offset + w) from by omega,
          hB, pow_add]
        ring
      rw [hbatch, simple16encoder.decodeBatchAux]
      have hhead : ((T * 2 ^ w + v) * 2 ^ (28 - (offset + w))
            + simple16encoder.packAux ws vs (28 - (offset + w)))
            >>> (28 - (offset + w)) &&& simple16encoder.MASKS w = v := by
        rw [Nat.shiftRight_eq_div_pow, Nat.mul_comm,
          Nat.mul_add_div (pow_pos (by norm_num) _), Nat.div_eq_of_lt hPlt,
          Nat.add_zero, simple16encoder.MASKS_val,
          Nat.and_pow_two_sub_one_eq_mod, Nat.mul_comm T,
          Nat.mul_add_mod, Nat.mod_eq_of_lt hvlt]
      rw [hhead, ih vs (offset + w) (T * 2 ^ w + v) (by simpa using hlen)
        hvalrest (by omega)]
      simp

theorem simple16encoder.decodeBatch_encodeBatch (f : Nat)
    (hf : f ∈ simple16encoder.S16_FORMAT_KEYS_REVERSED) (vs : List Nat)
    (hlen : vs.length ≤ (simple16encoder.S16_FORMATS f).length)
    (hval : ∀ i, i < vs.length → vs.getD i 0
      ≤ simple16encoder.MASKS ((simple16encoder.S16_FORMATS f).getD i 0)) :
    simple16encoder.encodeBatch f vs < 2 ^ 32 ∧
    (simple16encoder.encodeBatch f vs >>> 28) &&& simple16encoder.MASKS 5 = f ∧
    simple16encoder.decode_batch (simple16encoder.encodeBatch f vs) f
      = vs ++ List.replicate
          ((simple16encoder.S16_FORMATS f).length - vs.length) 0 := by
  have hP : simple16encoder.packAux (simple16encoder.S16_FORMATS f) vs 28
      < 2 ^ 28 :=
    simple16encoder.packAux_lt _ vs 28 hval (simple16encoder.formats_sum_le f hf)
  have hf15 : f ≤ 15 := simple16encoder.keys_le f hf
  have hsl : simple16encoder.encodeBatch f vs
      = f * 2 ^ 28 + simple16encoder.packAux
          (simple16encoder.S16_FORMATS f) vs 28 := by
    unfold simple16encoder.encodeBatch
    rw [Nat.shiftLeft_eq]
  refine ⟨?_, ?_, ?_⟩
  · rw [hsl]
    have h28 : (2:Nat) ^ 28 = 268435456 := by norm_num
    have h32 : (2:Nat) ^ 32 = 4294967296 := by norm_num
    rw [h28] at hP ⊢
    rw [h32]
    have : f * 268435456 ≤ 15 * 268435456 := Nat.mul_le_mul_right _ hf15
    omega
  · rw [hsl, Nat.shiftRight_eq_div_pow, Nat.mul_comm,
      Nat.mul_add_div (pow_pos (by norm_num) _), Nat.div_eq_of_lt hP,
      Nat.add_zero, simple16encoder.MASKS_val, Nat.and_pow_two_sub_one_eq_mod]
    exact Nat.mod_eq_of_lt (by norm_num; omega)
  · unfold simple16encoder.decode_batch
    rw [hsl, show (28:Nat) = 28 - 0 from rfl]
    exact simple16encoder.decodeBatchAux_spec (simple16encoder.S16_FORMATS f)
      vs 0 f hlen hval (by simpa using simple16encoder.formats_sum_le f hf)

theorem simple16encoder.encodeAux_decode_flatten (ys : List Nat)
    (hsmall : ∀ x ∈ ys, x < 2 ^ 28) :
    ∀ fuel start, ys.length - start ≤ fuel →
      ∃ ws, simple16encoder.encodeAux ys start = some ws ∧
        (∀ w ∈ ws, w < 2 ^ 32) ∧
        ∃ k, (ws.map (fun batch => simple16encoder.decode_batch batch
            ((batch >>> 28) &&& simple16encoder.MASKS 5))).flatten
          = ys.drop start ++ List.replicate k 0 := by
  intro fuel
  induction fuel with
  | zero =>
    intro start hle
    have h : ¬ start < ys.length := by omega
    rw [simple16encoder.encodeAux, dif_neg h]
    refine ⟨[], rfl, by simp, 0, ?_⟩
    rw [List.drop_eq_nil_of_le (by omega)]
    simp
  | succ fl ih =>
    intro start hle
    by_cases hstart : start < ys.length
    · rw [simple16encoder.encodeAux, dif_pos hstart]
      have hx : ys.getD start 0 < 2 ^ 28 := by
        apply hsmall
        exact getD_mem_of_lt ys start hstart
      split
      · rename_i hfind
        have := (simple16encoder.find_none_iff ys start hstart).mp hfind
        omega
      · rename_i f k0 hfind
        obtain ⟨hmem, hk, hcheck⟩ :=
          simple16encoder.findAux_some ys start _ _ _ hfind
        have hkpos := simple16encoder.find_some_pos ys start _ _ hfind
        have hlen_te : ((ys.drop start).take k0).length
            = min k0 (ys.length - start) := by
          rw [List.length_take, List.length_drop]
        have hte_le : ((ys.drop start).take k0).length
            ≤ (simple16encoder.S16_FORMATS f).length := by
          rw [hlen_te, ← hk]
          omega
        have hgetD : ∀ i, i < ((ys.drop start).take k0).length →
            ((ys.drop start).take k0).getD i 0 = ys.getD (start + i) 0 := by
          intro i hi
          have h1 : start + i < ys.length := by
            rw [hlen_te] at hi
            omega
          rw [List.getD_eq_getElem?_getD, List.getElem?_eq_getElem hi,
            List.getD_eq_getElem?_getD, List.getElem?_eq_getElem h1]
          simp only [Option.getD_some]
          rw [List.getElem_take, List.getElem_drop]
        have hval_te : ∀ i, i < ((ys.drop start).take k0).length →
            ((ys.drop start).take k0).getD i 0
              ≤ simple16encoder.MASKS
                ((simple16encoder.S16_FORMATS f).getD i 0) := by
          intro i hi
          rw [hgetD i hi]
          refine hcheck i ?_ ?_
          · rw [hlen_te] at hi
            omega
          · rw [hlen_te] at hi
            omega
        obtain ⟨hb32, hfmt, hdec⟩ :=
          simple16encoder.decodeBatch_encodeBatch f hmem
            ((ys.drop start).take k0) hte_le hval_te
        obtain ⟨ws', hrec, hw32', k', hflat⟩ := ih (start + k0) (by omega)
        rw [hrec]
        refine ⟨_ :: ws', rfl, ?_, ?_⟩
        · intro w hw
          rcases List.mem_cons.mp hw with h | h
          · subst h
            exact hb32
          · exact hw32' w h
        · simp only [List.map_cons, List.flatten_cons, hfmt, hdec, hflat]
          by_cases hfull : start + k0 ≤ ys.length
          · refine ⟨k', ?_⟩
            have hr0 : (simple16encoder.S16_FORMATS f).length
                - ((ys.drop start).take k0).length = 0 := by
              rw [hlen_te, ← hk]
              omega
            rw [hr0]
            have hsplit : (ys.drop start).take k0 ++ ys.drop (start + k0)
                = ys.drop start := by
              have h1 : (ys.drop start).drop k0 = ys.drop (start + k0) := by
                rw [List.drop_drop]
              rw [← h1]
              exact List.take_append_drop _ _
            rw [show List.replicate 0 0 = ([] : List Nat) from rfl,
              List.append_nil, ← List.append_assoc, hsplit]
          · have hdrop : ys.drop (start + k0) = [] :=
              List.drop_eq_nil_of_le (by omega)
            have hte : (ys.drop start).take k0 = ys.drop start :=
              List.take_of_length_le (by rw [List.length_drop]; omega)
            rw [hdrop, hte]
            refine ⟨((simple16encoder.S16_FORMATS f).length
              - (ys.drop start).length) + k', ?_⟩
            rw [List.nil_append, List.append_assoc, ← List.replicate_add]
    · rw [simple16encoder.encodeAux, dif_neg hstart]
      refine ⟨[], rfl, by simp, 0, ?_⟩
      rw [List.drop_eq_nil_of_le (by omega)]
      simp

theorem simple16encoder.rm_append_zeros (l : List Nat) (k : Nat) :
    simple16encoder.rm_trailing_zeros (l ++ List.replicate k 0)
      = simple16encoder.rm_trailing_zeros l := by
  unfold simple16encoder.rm_trailing_zeros
  rw [List.reverse_append, List.reverse_replicate]
  congr 1
  induction k with
  | zero => rfl
  | succ n ihk =>
    rw [List.replicate_succ, List.cons_append,
      List.dropWhile_cons_of_pos (by simp)]
    exact ihk

theorem simple16encoder.rm_append_last (l : List Nat) (x : Nat) (hx : x ≠ 0) :
    simple16encoder.rm_trailing_zeros (l ++ [x]) = l ++ [x] := by
  unfold simple16encoder.rm_trailing_zeros
  rw [List.reverse_append]
  simp only [List.reverse_singleton, List.singleton_append]
  rw [List.dropWhile_cons_of_neg (by simp [hx])]
  simp

theorem pforencoder.findBAux_fst_mem (numbers : List Nat) :
    ∀ (bs : List Nat) (acc : Nat × Nat),
      (pforencoder.findBAux numbers bs acc).1 = acc.1 ∨
      (pforencoder.findBAux numbers bs acc).1 ∈ bs := by
  intro bs
  induction bs with
  | nil => intro acc; left; rfl
  | cons b bs ih =>
    intro acc
    rw [pforencoder.findBAux]
    split
    · rcases ih (b, pforencoder.estimate_encoded_size numbers b) with h | h
      · right
        rw [h]
        exact List.mem_cons_self _ _
      · right
        exact List.mem_cons_of_mem _ h
    · rcases ih acc with h | h
      · left
        exact h
      · right
        exact List.mem_cons_of_mem _ h

theorem pforencoder.find_optimal_b_range (numbers : List Nat) :
    1 ≤ pforencoder.find_optimal_b numbers ∧
      pforencoder.find_optimal_b numbers ≤ 32 := by
  unfold pforencoder.find_optimal_b
  rcases pforencoder.findBAux_fst_mem numbers pforencoder.POSSIBLES_B.tail
    (pforencoder.POSSIBLES_B.headD 0,
      pforencoder.estimate_encoded_size numbers
        (pforencoder.POSSIBLES_B.headD 0)) with h | h
  · rw [h]
    have h1 : (pforencoder.POSSIBLES_B.headD 0,
        pforencoder.estimate_encoded_size numbers
          (pforencoder.POSSIBLES_B.headD 0)).1 = 1 := by
      show pforencoder.POSSIBLES_B.headD 0 = 1
      decide
    rw [h1]
    omega
  · have hmem : (pforencoder.findBAux numbers pforencoder.POSSIBLES_B.tail
        (pforencoder.POSSIBLES_B.headD 0,
          pforencoder.estimate_encoded_size numbers
            (pforencoder.POSSIBLES_B.headD 0))).1 ∈ List.range' 2 31 := h
    rw [List.mem_range'] at hmem
    omega

theorem bitsVal_replicate_zero (W : Nat) :
    ∀ m : Nat, bitsVal W (List.replicate m 0) = 0 := by
  intro m
  induction m with
  | zero => rfl
  | succ n ihm =>
    rw [List.replicate_succ, bitsVal_cons, ihm, List.length_replicate]
    ring

/-- C1 (amended, PForDelta): for a non-empty input whose elements all fit in
28 bits and whose length is below 2^27, PForDelta encode succeeds and decode
with the declared count returns the input. -/
theorem C1_pfor_roundtrip (xs : List Nat) (hne : xs ≠ [])
    (hsmall : ∀ x ∈ xs, x < 2 ^ 28) (hlen : xs.length < 2 ^ 27) :
    ∃ out, pforencoder.encode xs = some out ∧
      pforencoder.decode out xs.length = some xs := by
  obtain ⟨b, hbdef⟩ : ∃ v, pforencoder.find_optimal_b xs = v := ⟨_, rfl⟩
  obtain ⟨hb1, hb2⟩ : 1 ≤ b ∧ b ≤ 32 := hbdef ▸ pforencoder.find_optimal_b_range xs
  simp only [pforencoder.encode, hbdef]
  obtain ⟨es, hesdef⟩ : ∃ v, (xs.length + 32 / b - 1) / (32 / b) = v := ⟨_, rfl⟩
  rw [hesdef]
  have hnpi1 : 1 ≤ 32 / b := (Nat.one_le_div_iff (by omega)).mpr hb2
  have hxs_le : xs.length ≤ (32 / b) * es := by
    have hdm := Nat.div_add_mod (xs.length + 32 / b - 1) (32 / b)
    have hmod : (xs.length + 32 / b - 1) % (32 / b) < 32 / b :=
      Nat.mod_lt _ (by omega)
    rw [hesdef] at hdm
    omega
  have hbnpi : b * (32 / b) ≤ 32 := by
    have := Nat.div_mul_le_self 32 b
    rw [Nat.mul_comm]
    exact this
  have hbound : 0 + b * xs.length ≤ 32 * (List.replicate es 0).length := by
    rw [List.length_replicate, Nat.zero_add]
    calc b * xs.length ≤ b * ((32 / b) * es) := Nat.mul_le_mul_left b hxs_le
      _ = (b * (32 / b)) * es := by ring
      _ ≤ 32 * es := Nat.mul_le_mul_right es hbnpi
  obtain ⟨arr, hloop, hlenarr, harr, hval, hzero⟩ :=
    pforencoder.encodeLoop_spec b hb1 hb2 xs 0 (List.replicate es 0) 0 [] []
      hbound
      (by
        intro w hw
        rw [List.eq_of_mem_replicate hw]
        norm_num)
      (by rw [bitsVal_replicate_zero]; exact Nat.zero_mod _)
  simp only [List.nil_append, Nat.zero_add, bitsVal_replicate_zero,
    List.length_replicate, Nat.sub_zero] at hloop hlenarr harr hval hzero
  simp only [hloop]
  have hEsmall : ∀ x ∈ pforencoder.passIdxs b xs 0 ++ pforencoder.passUps b xs,
      x < 2 ^ 28 := by
    intro x hx
    rcases List.mem_append.mp hx with h | h
    · have := pforencoder.passIdxs_lt b xs 0 x h
      have h27 : (2:Nat) ^ 27 < 2 ^ 28 := by norm_num
      omega
    · obtain ⟨y, hy, hle⟩ := pforencoder.passUps_le b xs x h
      have := hsmall y hy
      omega
  obtain ⟨s16ws, hs16enc, hs16w32, k, hflat⟩ :=
    simple16encoder.encodeAux_decode_flatten
      (pforencoder.passIdxs b xs 0 ++ pforencoder.passUps b xs) hEsmall
      (pforencoder.passIdxs b xs 0 ++ pforencoder.passUps b xs).length 0
      (by omega)
  rw [List.drop_zero] at hflat
  have hs16enc' : simple16encoder.encode
      (pforencoder.passIdxs b xs 0 ++ pforencoder.passUps b xs)
      = some s16ws := hs16enc
  simp only [hs16enc']
  obtain ⟨used, husdef⟩ : ∃ v, (b * xs.length + 31) / 32 = v := ⟨_, rfl⟩
  rw [husdef]
  refine ⟨_, rfl, ?_⟩
  -- names for the parts of the encoding
  obtain ⟨e, hedef⟩ : ∃ v, (pforencoder.passUps b xs).length = v := ⟨_, rfl⟩
  rw [hedef]
  have hcountP : xs.countP (fun x => decide (x > pforencoder.MASKS b)) = e := by
    rw [← pforencoder.passUps_length, hedef]
  have he_le : e ≤ xs.length := by
    rw [← hcountP]
    exact List.countP_le_length _
  have he_lt : e < 2 ^ 27 := by omega
  have hbn_le_used : b * xs.length ≤ 32 * used := by
    have hdm := Nat.div_add_mod (b * xs.length + 31) 32
    have hmod : (b * xs.length + 31) % 32 < 32 := Nat.mod_lt _ (by norm_num)
    rw [husdef] at hdm
    omega
  have hused_le : used ≤ es := by
    have h1 : b * xs.length + 31 < (es + 1) * 32 := by
      rw [List.length_replicate] at hbound
      omega
    have h2 := (Nat.div_lt_iff_lt_mul (show (0:Nat) < 32 by norm_num)).mpr h1
    omega
  have hfrontlen : (arr.take used).length = used := by
    rw [List.length_take, hlenarr]
    omega
  have hfront32 : ∀ w ∈ arr.take used, w < 2 ^ 32 := by
    intro w hw
    exact harr w (List.mem_of_mem_take hw)
  have htot32 : ∀ w ∈ arr.take used ++ s16ws, w < 2 ^ 32 := by
    intro w hw
    rcases List.mem_append.mp hw with h | h
    · exact hfront32 w h
    · exact hs16w32 w h
  -- the value of the truncated slot stream
  have hback_lt : bitsVal 32 (arr.drop used) < 2 ^ (32 * (es - used)) := by
    have h1 : (arr.drop used).length = es - used := by
      rw [List.length_drop, hlenarr]
    rw [← h1]
    exact bitsVal_lt 32 _ (fun w hw => harr w (List.mem_of_mem_drop hw))
  have hdecomp : bitsVal 32 arr
      = bitsVal 32 (arr.take used) * 2 ^ (32 * (es - used))
        + bitsVal 32 (arr.drop used) := by
    conv_lhs => rw [← List.take_append_drop used arr]
    rw [bitsVal_append, List.length_drop, hlenarr]
  have hdvd : bitsVal b (pforencoder.passLows b xs)
      * 2 ^ (32 * es - b * xs.length) % 2 ^ (32 * (es - used)) = 0 := by
    rw [show 32 * es - b * xs.length
        = (32 * es - b * xs.length - 32 * (es - used)) + 32 * (es - used)
      from by omega, pow_add, ← Nat.mul_assoc]
    exact Nat.mul_mod_left _ _
  have hback0 : bitsVal 32 (arr.drop used) = 0 := by
    have hmodeq : bitsVal 32 arr % 2 ^ (32 * (es - used))
        = bitsVal 32 (arr.drop used) := by
      rw [hdecomp, Nat.mul_comm (bitsVal 32 (arr.take used)), Nat.mul_add_mod,
        Nat.mod_eq_of_lt hback_lt]
    rw [← hmodeq, hval, hdvd]
  have hfront_val : bitsVal 32 (arr.take used)
      = bitsVal b (pforencoder.passLows b xs)
        * 2 ^ (32 * (arr.take used).length - b * xs.length) := by
    have h1 : bitsVal 32 (arr.take used) * 2 ^ (32 * (es - used))
        = bitsVal b (pforencoder.passLows b xs)
          * 2 ^ (32 * es - b * xs.length) := by
      rw [← hval, hdecomp, hback0, Nat.add_zero]
    have h2 : bitsVal b (pforencoder.passLows b xs)
        * 2 ^ (32 * es - b * xs.length)
        = (bitsVal b (pforencoder.passLows b xs)
          * 2 ^ (32 * used - b * xs.length)) * 2 ^ (32 * (es - used)) := by
      rw [Nat.mul_assoc, ← pow_add]
      congr 2
      omega
    have h3 := h1.trans h2
    have h4 := Nat.eq_of_mul_eq_mul_right
      (pow_pos (show (0:Nat) < 2 by norm_num) (32 * (es - used))) h3
    rw [h4, hfrontlen]
  -- decode
  rw [List.cons_append]
  simp only [pforencoder.decode, pforencoder.get_header]
  have h27 : 32 - pforencoder.B_HEADER_SIZE = 27 := rfl
  rw [h27]
  have hb' : ((b - 1) <<< 27 + e) >>> 27 + 1 = b := by
    rw [Nat.shiftLeft_eq, Nat.shiftRight_eq_div_pow, Nat.mul_comm,
      Nat.mul_add_div (pow_pos (by norm_num) _), Nat.div_eq_of_lt he_lt,
      Nat.add_zero]
    omega
  have he' : ((b - 1) <<< 27 + e) &&& pforencoder.MASKS 27 = e := by
    rw [pforencoder.MASKS_eq, Nat.and_pow_two_sub_one_eq_mod,
      Nat.shiftLeft_eq, Nat.mul_comm, Nat.mul_add_mod, Nat.mod_eq_of_lt he_lt]
  simp only [hb', he', List.tail_cons]
  have hdecloop : pforencoder.decodeLoop (arr.take used ++ s16ws) b
      xs.length 0 = some (pforencoder.passLows b xs) := by
    have h := pforencoder.decodeLoop_eq (arr.take used ++ s16ws) b hb1 hb2
      htot32 (pforencoder.passLows b xs) 0
      (by
        rw [pforencoder.passLows_length, List.length_append, hfrontlen]
        omega)
      (by
        intro j hj
        rw [pforencoder.passLows_length] at hj
        exact stream_field_of_packed (arr.take used) s16ws
          (pforencoder.passLows b xs) b xs.length j
          (pforencoder.passLows_length b xs) hj
          (pforencoder.passLows_lt b xs)
          (by rw [hfrontlen]; exact hbn_le_used)
          hfront_val hs16w32)
    rwa [pforencoder.passLows_length] at h
  simp only [hdecloop]
  by_cases hc : e > 0
  · rw [if_pos hc]
    have hdrop_eq : (arr.take used ++ s16ws).drop ((xs.length * b + 31) / 32)
        = s16ws := by
      rw [show xs.length * b = b * xs.length from Nat.mul_comm _ _, husdef]
      exact List.drop_left' hfrontlen
    rw [hdrop_eq]
    have hups_ne : pforencoder.passUps b xs ≠ [] := by
      intro hnil
      rw [hnil] at hedef
      simp at hedef
      omega
    have hlast_ne : (pforencoder.passUps b xs).getLast hups_ne ≠ 0 := by
      have hmem := List.getLast_mem hups_ne
      have := pforencoder.passUps_pos b xs _ hmem
      omega
    have hs16dec : simple16encoder.decode s16ws true
        = pforencoder.passIdxs b xs 0 ++ pforencoder.passUps b xs := by
      rw [simple16encoder.decode]
      simp only [if_pos rfl]
      rw [hflat, simple16encoder.rm_append_zeros]
      conv_lhs => rw [← List.dropLast_append_getLast hups_ne]
      rw [← List.append_assoc, simple16encoder.rm_append_last _ _ hlast_ne,
        List.append_assoc, List.dropLast_append_getLast hups_ne]
      simp
    rw [hs16dec]
    have hc_idx : (pforencoder.passIdxs b xs 0).length = e := by
      rw [pforencoder.passIdxs_length, hcountP]
    have h2e : e <<< 1 = 2 * e := by
      rw [Nat.shiftLeft_eq, pow_one]
      omega
    have hEtake : (pforencoder.passIdxs b xs 0
        ++ pforencoder.passUps b xs).take (e <<< 1)
        = pforencoder.passIdxs b xs 0 ++ pforencoder.passUps b xs := by
      apply List.take_of_length_le
      rw [List.length_append, hc_idx, hedef, h2e]
      omega
    rw [hEtake]
    have hmid : (pforencoder.passIdxs b xs 0
        ++ pforencoder.passUps b xs).length >>> 1 = e := by
      rw [List.length_append, hc_idx, hedef, Nat.shiftRight_eq_div_pow,
        pow_one]
      omega
    rw [hmid, List.take_left' hc_idx, List.drop_left' hc_idx]
    have hmerge := pforencoder.merge_spec b xs []
    simp only [List.nil_append, List.length_nil] at hmerge
    exact hmerge
  · rw [if_neg hc]
    have he0 : e = 0 := by omega
    have hnoexc : ∀ x ∈ xs, ¬ x > pforencoder.MASKS b := by
      have h0 : xs.countP (fun x => decide (x > pforencoder.MASKS b)) = 0 := by
        rw [hcountP, he0]
      intro x hx
      have := List.countP_eq_zero.mp h0 x hx
      simpa using this
    rw [pforencoder.passLows_of_no_exc b xs hnoexc]

/-- Witness for C1: the two-element input [5, 2] (elements below 2^28,
length below 2^27) encodes and decodes back to itself. -/
theorem C1_pfor_roundtrip_witness :
    ([5, 2] : List Nat) ≠ [] ∧ (∀ x ∈ ([5, 2] : List Nat), x < 2 ^ 28) ∧
    ([5, 2] : List Nat).length < 2 ^ 27 ∧
    ∃ out, pforencoder.encode [5, 2] = some out ∧
      pforencoder.decode out ([5, 2] : List Nat).length = some [5, 2] :=
  ⟨by decide, by decide, by decide,
    C1_pfor_roundtrip [5, 2] (by decide) (by decide) (by decide)⟩

/-- C1 counterexample: on the valid (sorted, non-negative) input [0, 2^29]
PForDelta encode fails instead of producing a decodable encoding: the
chosen b is 1, the exception 2^29 stores high part 2^28 for the Simple-16
stream, and Simple-16 has no format for a value ≥ 2^28 (find_optimal_format
returns None, encode raises a TypeError unpacking it). -/
theorem C1_counterexample : pforencoder.encode [0, 2 ^ 29] = none := by
  have hb : pforencoder.find_optimal_b [0, 2 ^ 29] = 1 := by decide
  have hbound : 0 + 1 * ([0, 2 ^ 29] : List Nat).length
      ≤ 32 * (List.replicate 1 0).length := by decide
  obtain ⟨arr, hloop, hlenarr, harr, hval, hzero⟩ :=
    pforencoder.encodeLoop_spec 1 (by norm_num) (by norm_num) [0, 2 ^ 29] 0
      (List.replicate 1 0) 0 [] [] hbound (by decide)
      (by decide)
  have hidx : pforencoder.passIdxs 1 [0, 2 ^ 29] 0 = [1] := by decide
  have hups : pforencoder.passUps 1 [0, 2 ^ 29] = [2 ^ 28] := by decide
  rw [hidx, hups] at hloop
  have hs16 : simple16encoder.encode ([1] ++ [2 ^ 28]) = none := by
    rw [simple16encoder.encode]
    exact simple16encoder.encodeAux_none_of_bad [1, 2 ^ 28] 2 0 (by norm_num)
      ⟨1, by norm_num, by norm_num, by decide⟩
  simp only [pforencoder.encode, hb, List.length_cons, List.length_nil,
    Nat.div_one]
  norm_num
  norm_num at hloop hs16
  simp only [hloop, List.singleton_append, hs16]

theorem countP_replicate_eq (p : Nat → Bool) (a : Nat) :
    ∀ k : Nat, List.countP p (List.replicate k a) = if p a then k else 0 := by
  intro k
  induction k with
  | zero => simp
  | succ n ihk =>
    rw [List.replicate_succ, List.countP_cons, ihk]
    by_cases h : p a <;> simp [h]

theorem pforencoder.passUps_shape (b : Nat) :
    ∀ xs : List Nat, ∀ u ∈ pforencoder.passUps b xs, ∃ x ∈ xs, u = x >>> b := by
  intro xs
  induction xs with
  | nil => intro u hu; simp [pforencoder.passUps] at hu
  | cons x t ih =>
    intro u hu
    rw [pforencoder.passUps] at hu
    rcases List.mem_append.mp hu with h | h
    · by_cases hexc : x > pforencoder.MASKS b
      · rw [if_pos hexc] at h
        rcases List.mem_singleton.mp h with rfl
        exact ⟨x, List.mem_cons_self _ _, rfl⟩
      · rw [if_neg hexc] at h
        simp at h
    · obtain ⟨y, hy, hu'⟩ := ih u h
      exact ⟨y, List.mem_cons_of_mem _ hy, hu'⟩

theorem pforencoder.findBAux_min (numbers : List Nat) :
    ∀ (bs : List Nat) (acc : Nat × Nat),
      acc.2 = pforencoder.estimate_encoded_size numbers acc.1 →
      (∀ b ∈ bs, acc.1 < b) →
      bs.Pairwise (· < ·) →
      ∃ r, pforencoder.findBAux numbers bs acc = r ∧
        r.2 = pforencoder.estimate_encoded_size numbers r.1 ∧
        r.2 ≤ acc.2 ∧
        (∀ b ∈ bs, r.2 ≤ pforencoder.estimate_encoded_size numbers b) ∧
        (r.1 = acc.1 ∨ (r.1 ∈ bs ∧ r.2 < acc.2)) ∧
        (∀ bp, bp = acc.1 ∨ bp ∈ bs → bp < r.1 →
          r.2 < pforencoder.estimate_encoded_size numbers bp) := by
  intro bs
  induction bs with
  | nil =>
    intro acc hacc _ _
    refine ⟨acc, rfl, hacc, le_refl _, by simp, Or.inl rfl, ?_⟩
    intro bp hbp hlt
    rcases hbp with rfl | h
    · omega
    · simp at h
  | cons b bs ih =>
    intro acc hacc hless hpair
    have hab : acc.1 < b := hless b (List.mem_cons_self _ _)
    have hless' : ∀ c ∈ bs, b < c :=
      fun c hc => (List.pairwise_cons.mp hpair).1 c hc
    have hpair' : bs.Pairwise (· < ·) := (List.pairwise_cons.mp hpair).2
    simp only [pforencoder.findBAux]
    by_cases himp : pforencoder.estimate_encoded_size numbers b < acc.2
    · rw [if_pos himp]
      obtain ⟨r, hr, h1, h2, h3, h4, h5⟩ :=
        ih (b, pforencoder.estimate_encoded_size numbers b) rfl hless' hpair'
      have h2' : r.2 ≤ pforencoder.estimate_encoded_size numbers b := h2
      have h4' : r.1 = b ∨ (r.1 ∈ bs ∧
          r.2 < pforencoder.estimate_encoded_size numbers b) := h4
      refine ⟨r, hr, h1, by omega, ?_, ?_, ?_⟩
      · intro c hc
        rcases List.mem_cons.mp hc with rfl | hm
        · exact h2'
        · exact h3 c hm
      · rcases h4' with heq | ⟨hm, hlt2⟩
        · exact Or.inr ⟨by rw [heq]; exact List.mem_cons_self _ _, by omega⟩
        · exact Or.inr ⟨List.mem_cons_of_mem _ hm, by omega⟩
      · intro bp hbp hlt
        rcases hbp with rfl | hbp2
        · rw [← hacc]
          omega
        · rcases List.mem_cons.mp hbp2 with rfl | hm
          · exact h5 _ (Or.inl rfl) hlt
          · exact h5 _ (Or.inr hm) hlt
    · rw [if_neg himp]
      obtain ⟨r, hr, h1, h2, h3, h4, h5⟩ :=
        ih acc hacc (fun c hc => hless c (List.mem_cons_of_mem _ hc)) hpair'
      refine ⟨r, hr, h1, h2, ?_, ?_, ?_⟩
      · intro c hc
        rcases List.mem_cons.mp hc with rfl | hm
        · omega
        · exact h3 c hm
      · rcases h4 with heq | ⟨hm, hlt2⟩
        · exact Or.inl heq
        · exact Or.inr ⟨List.mem_cons_of_mem _ hm, hlt2⟩
      · intro bp hbp hlt
        rcases hbp with rfl | hbp2
        · exact h5 _ (Or.inl rfl) hlt
        · rcases List.mem_cons.mp hbp2 with rfl | hm
          · rcases h4 with heq | ⟨hm2, hlt2⟩
            · rw [heq] at hlt
              omega
            · omega
          · exact h5 _ (Or.inr hm) hlt

theorem pforencoder.find_optimal_b_min (numbers : List Nat) :
    pforencoder.find_optimal_b numbers ∈ pforencoder.POSSIBLES_B ∧
    (∀ b ∈ pforencoder.POSSIBLES_B,
      pforencoder.estimate_encoded_size numbers
          (pforencoder.find_optimal_b numbers)
        ≤ pforencoder.estimate_encoded_size numbers b) ∧
    (∀ b ∈ pforencoder.POSSIBLES_B, b < pforencoder.find_optimal_b numbers →
      pforencoder.estimate_encoded_size numbers
          (pforencoder.find_optimal_b numbers)
        < pforencoder.estimate_encoded_size numbers b) := by
  have hPB : pforencoder.POSSIBLES_B = 1 :: List.range' 2 31 := by decide
  have htail : pforencoder.POSSIBLES_B.tail = List.range' 2 31 := by decide
  have hhead : pforencoder.POSSIBLES_B.headD 0 = 1 := by decide
  unfold pforencoder.find_optimal_b
  rw [htail, hhead]
  obtain ⟨r, hr, h1, h2, h3, h4, h5⟩ := pforencoder.findBAux_min numbers
    (List.range' 2 31) (1, pforencoder.estimate_encoded_size numbers 1) rfl
    (by
      intro b hb
      rw [List.mem_range'] at hb
      omega)
    (by decide)
  rw [hr]
  have h2' : r.2 ≤ pforencoder.estimate_encoded_size numbers 1 := h2
  have h4' : r.1 = 1 ∨ (r.1 ∈ List.range' 2 31 ∧
      r.2 < pforencoder.estimate_encoded_size numbers 1) := h4
  refine ⟨?_, ?_, ?_⟩
  · rw [hPB]
    rcases h4' with heq | ⟨hm, -⟩
    · rw [heq]
      exact List.mem_cons_self _ _
    · exact List.mem_cons_of_mem _ hm
  · intro b hb
    rw [hPB] at hb
    rw [← h1]
    rcases List.mem_cons.mp hb with rfl | hm
    · exact h2'
    · exact h3 b hm
  · intro b hb hlt
    rw [hPB] at hb
    rw [← h1]
    rcases List.mem_cons.mp hb with rfl | hm
    · exact h5 _ (Or.inl rfl) hlt
    · exact h5 _ (Or.inr hm) hlt

theorem pforencoder.encode_header (xs : List Nat)
    (hn : xs.length < 2 ^ 28)
    (hups : ∀ u ∈ pforencoder.passUps (pforencoder.find_optimal_b xs) xs,
      u < 2 ^ 28) :
    ∃ rest, pforencoder.encode xs
      = some (((pforencoder.find_optimal_b xs - 1) <<< 27
          + xs.countP (fun x => decide (x > pforencoder.MASKS
            (pforencoder.find_optimal_b xs)))) :: rest) := by
  obtain ⟨b, hbdef⟩ : ∃ v, pforencoder.find_optimal_b xs = v := ⟨_, rfl⟩
  obtain ⟨hb1, hb2⟩ : 1 ≤ b ∧ b ≤ 32 := hbdef ▸ pforencoder.find_optimal_b_range xs
  rw [hbdef] at hups ⊢
  simp only [pforencoder.encode, hbdef]
  obtain ⟨es, hesdef⟩ : ∃ v, (xs.length + 32 / b - 1) / (32 / b) = v := ⟨_, rfl⟩
  rw [hesdef]
  have hnpi1 : 1 ≤ 32 / b := (Nat.one_le_div_iff (by omega)).mpr hb2
  have hxs_le : xs.length ≤ (32 / b) * es := by
    have hdm := Nat.div_add_mod (xs.length + 32 / b - 1) (32 / b)
    have hmod : (xs.length + 32 / b - 1) % (32 / b) < 32 / b :=
      Nat.mod_lt _ (by omega)
    rw [hesdef] at hdm
    omega
  have hbnpi : b * (32 / b) ≤ 32 := by
    have := Nat.div_mul_le_self 32 b
    rw [Nat.mul_comm]
    exact this
  have hbound : 0 + b * xs.length ≤ 32 * (List.replicate es 0).length := by
    rw [List.length_replicate, Nat.zero_add]
    calc b * xs.length ≤ b * ((32 / b) * es) := Nat.mul_le_mul_left b hxs_le
      _ = (b * (32 / b)) * es := by ring
      _ ≤ 32 * es := Nat.mul_le_mul_right es hbnpi
  obtain ⟨arr, hloop, hlenarr, harr, hval, hzero⟩ :=
    pforencoder.encodeLoop_spec b hb1 hb2 xs 0 (List.replicate es 0) 0 [] []
      hbound
      (by
        intro w hw
        rw [List.eq_of_mem_replicate hw]
        norm_num)
      (by rw [bitsVal_replicate_zero]; exact Nat.zero_mod _)
  simp only [List.nil_append, Nat.zero_add] at hloop
  simp only [hloop]
  have hEsmall : ∀ x ∈ pforencoder.passIdxs b xs 0 ++ pforencoder.passUps b xs,
      x < 2 ^ 28 := by
    intro x hx
    rcases List.mem_append.mp hx with h | h
    · have := pforencoder.passIdxs_lt b xs 0 x h
      omega
    · exact hups x h
  obtain ⟨s16ws, hs16enc⟩ :=
    simple16encoder.encodeAux_some_of_small
      (pforencoder.passIdxs b xs 0 ++ pforencoder.passUps b xs) hEsmall
      (pforencoder.passIdxs b xs 0 ++ pforencoder.passUps b xs).length 0
      (by omega)
  have hs16enc' : simple16encoder.encode
      (pforencoder.passIdxs b xs 0 ++ pforencoder.passUps b xs)
      = some s16ws := hs16enc
  simp only [hs16enc']
  have h27 : (32 - pforencoder.B_HEADER_SIZE : Nat) = 27 := rfl
  rw [h27, pforencoder.passUps_length]
  exact ⟨_, rfl⟩

/-- C5 (amended): for a non-empty input whose elements are < 2^28 and whose
length is < 2^27 (so the exception count fits in the 27 header bits and the
exception stream is encodable), the first word of the PForDelta encoding is
((b-1) << 27) | exception_count where b = __find_optimal_b minimizes the
estimated size over 1..32 (strictly better than every smaller b, i.e. the
smallest minimizer), and __get_header recovers exactly (b, exception_count).
Without the length bound the header is corrupted (see the counterexample). -/
theorem C5_pfor_header (xs : List Nat) (hne : xs ≠ [])
    (hsmall : ∀ x ∈ xs, x < 2 ^ 28) (hlen : xs.length < 2 ^ 27) :
    (∀ b ∈ pforencoder.POSSIBLES_B,
      pforencoder.estimate_encoded_size xs (pforencoder.find_optimal_b xs)
        ≤ pforencoder.estimate_encoded_size xs b ∧
      (b < pforencoder.find_optimal_b xs →
        pforencoder.estimate_encoded_size xs (pforencoder.find_optimal_b xs)
          < pforencoder.estimate_encoded_size xs b)) ∧
    ∃ out, pforencoder.encode xs = some out ∧
      out.headD 0 = ((pforencoder.find_optimal_b xs - 1) <<< 27) |||
        xs.countP (fun x => decide (x > pforencoder.MASKS
          (pforencoder.find_optimal_b xs))) ∧
      pforencoder.get_header out
        = some (pforencoder.find_optimal_b xs,
            xs.countP (fun x => decide (x > pforencoder.MASKS
              (pforencoder.find_optimal_b xs)))) := by
  obtain ⟨hmem, hle, hlt⟩ := pforencoder.find_optimal_b_min xs
  refine ⟨fun b hb => ⟨hle b hb, hlt b hb⟩, ?_⟩
  obtain ⟨b, hbdef⟩ : ∃ v, pforencoder.find_optimal_b xs = v := ⟨_, rfl⟩
  obtain ⟨hb1, hb2⟩ : 1 ≤ b ∧ b ≤ 32 := hbdef ▸ pforencoder.find_optimal_b_range xs
  rw [hbdef]
  have h2728 : (2:Nat) ^ 27 < 2 ^ 28 := by norm_num
  have hups : ∀ u ∈ pforencoder.passUps (pforencoder.find_optimal_b xs) xs,
      u < 2 ^ 28 := by
    rw [hbdef]
    intro u hu
    obtain ⟨x, hx, hle'⟩ := pforencoder.passUps_le b xs u hu
    have := hsmall x hx
    omega
  obtain ⟨rest, henc⟩ := pforencoder.encode_header xs (by omega) hups
  rw [hbdef] at henc
  refine ⟨_, henc, ?_, ?_⟩
  · rw [List.headD_cons, Nat.shiftLeft_eq, Nat.mul_comm]
    refine Nat.mul_add_lt_is_or ?_ _
    have hcle := List.countP_le_length
      (fun x => decide (x > pforencoder.MASKS b)) (l := xs)
    omega
  · have he_lt : xs.countP (fun x => decide (x > pforencoder.MASKS b))
        < 2 ^ 27 := by
      have hcle := List.countP_le_length
        (fun x => decide (x > pforencoder.MASKS b)) (l := xs)
      omega
    rw [pforencoder.get_header]
    have h27 : (32 - pforencoder.B_HEADER_SIZE : Nat) = 27 := rfl
    rw [h27]
    have hb' : ((b - 1) <<< 27
        + xs.countP (fun x => decide (x > pforencoder.MASKS b))) >>> 27 + 1
        = b := by
      rw [Nat.shiftLeft_eq, Nat.shiftRight_eq_div_pow, Nat.mul_comm,
        Nat.mul_add_div (pow_pos (by norm_num) _), Nat.div_eq_of_lt he_lt,
        Nat.add_zero]
      omega
    have he' : ((b - 1) <<< 27
        + xs.countP (fun x => decide (x > pforencoder.MASKS b)))
        &&& pforencoder.MASKS 27
        = xs.countP (fun x => decide (x > pforencoder.MASKS b)) := by
      rw [show pforencoder.MASKS 27 = 2 ^ 27 - 1 from pforencoder.MASKS_eq 27,
        Nat.and_pow_two_sub_one_eq_mod, Nat.shiftLeft_eq, Nat.mul_comm,
        Nat.mul_add_mod, Nat.mod_eq_of_lt he_lt]
    rw [hb', he']

/-- Witness for C5: the one-element input [3]. -/
theorem C5_pfor_header_witness :
    (([3] : List Nat) ≠ [] ∧ (∀ x ∈ ([3] : List Nat), x < 2 ^ 28) ∧
      ([3] : List Nat).length < 2 ^ 27) ∧
    ((∀ b ∈ pforencoder.POSSIBLES_B,
      pforencoder.estimate_encoded_size [3] (pforencoder.find_optimal_b [3])
        ≤ pforencoder.estimate_encoded_size [3] b ∧
      (b < pforencoder.find_optimal_b [3] →
        pforencoder.estimate_encoded_size [3] (pforencoder.find_optimal_b [3])
          < pforencoder.estimate_encoded_size [3] b)) ∧
    ∃ out, pforencoder.encode [3] = some out ∧
      out.headD 0 = ((pforencoder.find_optimal_b [3] - 1) <<< 27) |||
        List.countP (fun x => decide (x > pforencoder.MASKS
          (pforencoder.find_optimal_b [3]))) [3] ∧
      pforencoder.get_header out
        = some (pforencoder.find_optimal_b [3],
            List.countP (fun x => decide (x > pforencoder.MASKS
              (pforencoder.find_optimal_b [3]))) [3])) :=
  ⟨⟨by decide, by decide, by decide⟩,
    C5_pfor_header [3] (by decide) (by decide) (by decide)⟩

/-- C5 counterexample: on the (sorted, 32-bit) input of 2^25 ones followed by
2^27 copies of 2^28 the optimal b is 1 and the exception count is 2^27, so
the header word (b-1)<<27 + count = 2^27 overflows the count field:
__get_header reads back (2, 0) instead of (1, 2^27). -/
theorem C5_counterexample :
    pforencoder.find_optimal_b
        (List.replicate (2 ^ 25) 1 ++ List.replicate (2 ^ 27) (2 ^ 28)) = 1 ∧
    (List.replicate (2 ^ 25) 1
        ++ List.replicate (2 ^ 27) (2 ^ 28)).countP
        (fun x => decide (x > pforencoder.MASKS 1)) = 2 ^ 27 ∧
    ∃ out, pforencoder.encode
        (List.replicate (2 ^ 25) 1 ++ List.replicate (2 ^ 27) (2 ^ 28))
        = some out ∧
      pforencoder.get_header out = some (2, 0) ∧
      ¬ ((2 : Nat) = 1 ∧ (0 : Nat) = 2 ^ 27) := by
  have hlen5 : (List.replicate (2 ^ 25) 1
      ++ List.replicate (2 ^ 27) (2 ^ 28) : List Nat).length = 167772160 := by
    rw [List.length_append, List.length_replicate, List.length_replicate]
    norm_num
  have hcount : ∀ b : Nat, 1 ≤ b →
      (List.replicate (2 ^ 25) 1
        ++ List.replicate (2 ^ 27) (2 ^ 28)).countP
        (fun x => decide (x > pforencoder.MASKS b))
      = if 2 ^ 28 > pforencoder.MASKS b then 2 ^ 27 else 0 := by
    intro b hb
    rw [List.countP_append, countP_replicate_eq, countP_replicate_eq]
    have h2b : 2 ≤ 2 ^ b := by
      calc (2:Nat) = 2 ^ 1 := rfl
        _ ≤ 2 ^ b := Nat.pow_le_pow_right (by norm_num) hb
    have h1 : ¬ ((1:Nat) > pforencoder.MASKS b) := by
      rw [pforencoder.MASKS_eq]
      omega
    rw [if_neg (by simpa using h1), Nat.zero_add]
    by_cases h2 : (2:Nat) ^ 28 > pforencoder.MASKS b
    · rw [if_pos (by simpa using h2), if_pos h2]
    · rw [if_neg (by simpa using h2), if_neg h2]
  have hmask : ∀ b : Nat, 1 ≤ b →
      ((2:Nat) ^ 28 > pforencoder.MASKS b ↔ b ≤ 28) := by
    intro b hb
    rw [pforencoder.MASKS_eq]
    have h28 : (2:Nat) ^ 28 = 268435456 := by norm_num
    constructor
    · intro h
      by_contra hgt
      push_neg at hgt
      have h29le : (2:Nat) ^ 29 ≤ 2 ^ b := Nat.pow_le_pow_right (by norm_num) hgt
      have h29 : (2:Nat) ^ 29 = 536870912 := by norm_num
      omega
    · intro h
      have hble : (2:Nat) ^ b ≤ 2 ^ 28 := Nat.pow_le_pow_right (by norm_num) h
      have hpos : 0 < (2:Nat) ^ b := pow_pos (by norm_num) _
      omega
  have hest : ∀ b : Nat, 1 ≤ b →
      pforencoder.estimate_encoded_size
        (List.replicate (2 ^ 25) 1 ++ List.replicate (2 ^ 27) (2 ^ 28)) b
      = 32 + 167772160 * b
        + (if 2 ^ 28 > pforencoder.MASKS b then 2 ^ 27 else 0) * 32 := by
    intro b hb
    unfold pforencoder.estimate_encoded_size
    rw [hcount b hb, hlen5]
    rfl
  have hm1 : (2:Nat) ^ 28 > pforencoder.MASKS 1 := by
    rw [pforencoder.MASKS_eq]
    norm_num
  have hstrict : ∀ b : Nat, 2 ≤ b → b ≤ 32 →
      pforencoder.estimate_encoded_size
        (List.replicate (2 ^ 25) 1 ++ List.replicate (2 ^ 27) (2 ^ 28)) 1
      < pforencoder.estimate_encoded_size
        (List.replicate (2 ^ 25) 1 ++ List.replicate (2 ^ 27) (2 ^ 28)) b := by
    intro b h2b h32b
    rw [hest 1 (by norm_num), hest b (by omega), if_pos hm1]
    have h27n : (2:Nat) ^ 27 = 134217728 := by norm_num
    by_cases hb28 : b ≤ 28
    · rw [if_pos ((hmask b (by omega)).mpr hb28)]
      omega
    · rw [if_neg (by rw [hmask b (by omega)]; omega)]
      omega
  have hb5 : pforencoder.find_optimal_b
      (List.replicate (2 ^ 25) 1 ++ List.replicate (2 ^ 27) (2 ^ 28)) = 1 := by
    obtain ⟨hmem, hle, -⟩ := pforencoder.find_optimal_b_min
      (List.replicate (2 ^ 25) 1 ++ List.replicate (2 ^ 27) (2 ^ 28))
    obtain ⟨hr1, hr32⟩ := pforencoder.find_optimal_b_range
      (List.replicate (2 ^ 25) 1 ++ List.replicate (2 ^ 27) (2 ^ 28))
    by_contra hne1
    have hge2 : 2 ≤ pforencoder.find_optimal_b
        (List.replicate (2 ^ 25) 1 ++ List.replicate (2 ^ 27) (2 ^ 28)) := by
      omega
    have hs := hstrict _ hge2 hr32
    have hl := hle 1 (by decide)
    omega
  have hcount1 : (List.replicate (2 ^ 25) 1
      ++ List.replicate (2 ^ 27) (2 ^ 28)).countP
      (fun x => decide (x > pforencoder.MASKS 1)) = 2 ^ 27 := by
    rw [hcount 1 (by norm_num), if_pos hm1]
  refine ⟨hb5, hcount1, ?_⟩
  have hups5 : ∀ u ∈ pforencoder.passUps (pforencoder.find_optimal_b
      (List.replicate (2 ^ 25) 1 ++ List.replicate (2 ^ 27) (2 ^ 28)))
      (List.replicate (2 ^ 25) 1 ++ List.replicate (2 ^ 27) (2 ^ 28)),
      u < 2 ^ 28 := by
    rw [hb5]
    intro u hu
    obtain ⟨x, hx, hux⟩ := pforencoder.passUps_shape 1 _ u hu
    rcases List.mem_append.mp hx with h | h
    · rw [List.eq_of_mem_replicate h] at hux
      rw [hux]
      decide
    · rw [List.eq_of_mem_replicate h] at hux
      rw [hux, Nat.shiftRight_eq_div_pow]
      norm_num
  obtain ⟨rest, henc⟩ := pforencoder.encode_header
    (List.replicate (2 ^ 25) 1 ++ List.replicate (2 ^ 27) (2 ^ 28))
    (by rw [hlen5]; norm_num) hups5
  rw [hb5, hcount1] at henc
  have hgh : pforencoder.get_header
      (((1 - 1) <<< 27 + 2 ^ 27) :: rest) = some (2, 0) := by
    rw [pforencoder.get_header]
    have hsimp : ((1 - 1 : Nat) <<< 27 + 2 ^ 27) = 2 ^ 27 := by
      norm_num
    rw [hsimp, show (32 - pforencoder.B_HEADER_SIZE : Nat) = 27 from rfl,
      show (2:Nat) ^ 27 >>> 27 = 1 from by
        rw [Nat.shiftRight_eq_div_pow]
        exact Nat.div_self (pow_pos (by norm_num) _),
      show (2:Nat) ^ 27 &&& pforencoder.MASKS 27 = 0 from by
        rw [pforencoder.MASKS_eq, Nat.and_pow_two_sub_one_eq_mod]
        exact Nat.mod_self _]
  exact ⟨_, henc, hgh, by decide⟩

/-! ## bitbytearray/__init__.py — BitByteArray

The object state is the pair (stream, bit_pointer).  `none` models the two
runtime errors the Python methods can raise: IndexError (`stream[-1]` on an
empty stream) and ValueError (assigning a value > 255 to a bytearray cell in
`stream[-1] += to_last_byte`).  The `validate_padding` calls are omitted from
the control flow because they return normally on every integer (see C7). -/

/-- BitByteArray.__recompute_bit_pointer. -/
def BitByteArray.recompute_bit_pointer (bp : Nat) (padding : Nat) : Nat :=
  if padding = 0 then bp else (bp + (8 - padding)) &&& 7

/-- BitByteArray.__has_to_write_carried: `offset - padding > 0` (on Python
ints; as naturals the truncated subtraction gives the same truth value). -/
def BitByteArray.has_to_write_carried (byte_padding bytearray_offset : Nat) :
    Bool :=
  bytearray_offset - byte_padding > 0

/-- BitByteArray.append(element, padding). -/
def BitByteArray.append (s : List Nat × Nat) (element : Nat) (padding : Nat) :
    Option (List Nat × Nat) :=
  let offset := s.2
  if offset = 0 then
    some (s.1 ++ bitbyteutils.to_byte element,
      BitByteArray.recompute_bit_pointer offset padding)
  else
    if s.1.length = 0 then none
    else
      let to_last_byte := element >>> offset
      let newlast := s.1.getD (s.1.length - 1) 0 + to_last_byte
      if newlast > 255 then none
      else
        let stream1 := s.1.set (s.1.length - 1) newlast
        let carried := bitbyteutils.to_left element (8 - offset)
        let stream2 := if BitByteArray.has_to_write_carried padding offset
          then stream1 ++ bitbyteutils.to_byte carried
          else stream1
        some (stream2, BitByteArray.recompute_bit_pointer offset padding)

/-- The loop of BitByteArray.extend: the given padding applies only to the
last element, every other element is appended with padding 0. -/
def BitByteArray.extendAux (padding : Nat) :
    List Nat × Nat → List Nat → Option (List Nat × Nat)
  | s, [] => some s
  | s, e :: rest =>
    let padding_to_append := if rest = [] then padding else 0
    match BitByteArray.append s e padding_to_append with
    | none => none
    | some s' => BitByteArray.extendAux padding s' rest

/-- BitByteArray.extend(elements, padding). -/
def BitByteArray.extend (s : List Nat × Nat) (elements : List Nat)
    (padding : Nat) : Option (List Nat × Nat) :=
  BitByteArray.extendAux padding s elements

/-- BitByteArray.padding(): 8 - bit_pointer, with 8 mapped to 0. -/
def BitByteArray.paddingOf (s : List Nat × Nat) : Nat :=
  if 8 - s.2 = 8 then 0 else 8 - s.2

/-! ## eliasfanoencoder.py — encode pipeline -/

/-- The bit-vector write masks BV_MASKS (a KeyError is impossible: the index
is `number & 7` < 8, so the table is total on its domain). -/
def eliasfanoencoder.BV_MASKS (i : Nat) : Nat :=
  match i with
  | 0 => 128
  | 1 => 64
  | 2 => 32
  | 3 => 16
  | 4 => 8
  | 5 => 4
  | 6 => 2
  | 7 => 1
  | _ => 0

/-- eliasfanoencoder.MASKS: masks dictionary (1 << x) - 1. -/
def eliasfanoencoder.MASKS (x : Nat) : Nat := (1 <<< x) - 1

/-- The set-bit loop of bv_encode; `none` models the IndexError of writing
past the allocated array. -/
def eliasfanoencoder.bvLoop : List Nat → List Nat → Option (List Nat)
  | [], enc => some enc
  | n :: rest, enc =>
    if n >>> 3 < enc.length then
      eliasfanoencoder.bvLoop rest
        (enc.set (n >>> 3)
          (enc.getD (n >>> 3) 0 ||| eliasfanoencoder.BV_MASKS (n &&& 7)))
    else none

/-- eliasfanoencoder.bv_encode; `none` models the IndexError of
`numbers[-1]` on an empty list (and of out-of-range bit writes). -/
def eliasfanoencoder.bv_encode (numbers : List Nat) :
    Option (List Nat × Nat) :=
  if numbers.length = 0 then none
  else
    let max_number := numbers.getD (numbers.length - 1) 0
    let encoded := List.replicate ((max_number + 1 + 7) / 8) 0
    match eliasfanoencoder.bvLoop numbers encoded with
    | none => none
    | some encoded =>
      let padding0 := 8 - ((max_number + 1) &&& 7)
      let padding := padding0 * (if padding0 < 8 then 1 else 0)
      some (encoded, padding)

/-- The per-gap loop of __encode_upper: unary-encode each gap (optimize
False) and extend the bit-byte array.  A negative gap (impossible for the
sorted inputs of the encoder's contract) is `none`: the Python code would
compute a negative byte count and crash on `encoded[-1]`. -/
def eliasfanoencoder.encodeUpperLoop :
    List Int → List Nat × Nat → Option (List Nat × Nat)
  | [], s => some s
  | g :: rest, s =>
    if g < 0 then none
    else
      match unaryencoder.encode g.toNat false with
      | none => none
      | some (ue, up) =>
        match BitByteArray.extend s ue up with
        | none => none
        | some s' => eliasfanoencoder.encodeUpperLoop rest s'

/-- eliasfanoencoder.__encode_upper. -/
def eliasfanoencoder.encode_upper (upper_numbers : List Int) :
    Option (List Nat × Nat) :=
  match gapsencoder.encode upper_numbers with
  | none => none
  | some (upper_gaps, _) =>
    eliasfanoencoder.encodeUpperLoop upper_gaps ([], 0)

/-- The per-number loop of __encode_lower: shift by the byte padding of l,
render as ceil(l/8) big-endian bytes, extend. -/
def eliasfanoencoder.encodeLowerLoop (l padding : Nat) :
    List Nat → List Nat × Nat → Option (List Nat × Nat)
  | [], s => some s
  | n :: rest, s =>
    match BitByteArray.extend s
        (bitbyteutils.to_bytes ((l + 7) / 8) (n <<< padding)) padding with
    | none => none
    | some s' => eliasfanoencoder.encodeLowerLoop l padding rest s'

/-- eliasfanoencoder.__encode_lower (the `math.ceil(l/8.0)` byte count is the
natural ceiling division). -/
def eliasfanoencoder.encode_lower (lower_numbers : List Nat) (l : Nat) :
    Option (List Nat × Nat) :=
  let padding0 := 8 - l % 8
  let padding := if padding0 = 8 then 0 else padding0
  eliasfanoencoder.encodeLowerLoop l padding lower_numbers ([], 0)

/-- eliasfanoencoder.__merge_encodes. -/
def eliasfanoencoder.merge_encodes (l : Nat) (lower_encode upper_encode : List Nat × Nat) :
    Option (List Nat × Nat) :=
  match BitByteArray.extend lower_encode upper_encode.1
      (BitByteArray.paddingOf upper_encode) with
  | none => none
  | some merged =>
    some (bitbyteutils.to_byte l ++ merged.1, BitByteArray.paddingOf merged)

/-- eliasfanoencoder.encode.  Notes on the embedding: `sorted(numbers)` is
`List.mergeSort`; the float `l = int(ceil(math.log(max/m, 2)))` is embedded
as the exact real computation `Nat.clog 2 ⌈max/m⌉` (for max/m ≥ 1,
⌈log2 x⌉ = clog2 ⌈x⌉); the byte-level pipeline is meaningful only for a
non-negative preprocessed stream — on out-of-contract inputs (duplicates
make `fano_1st_number` negative) the Python code crashes downstream, `none`.
The singleton branch returns `(vb_encode, 0)` before any preprocessing. -/
def eliasfanoencoder.encode (numbers : List Nat) : Option (List Nat × Nat) :=
  if numbers.length = 1 then
    some (vbencoder.encode (numbers.getD 0 0), 0)
  else
    match eliasfanoencoder.delta_encode_since_min
        ((numbers.mergeSort (fun a b => decide (a ≤ b))).map Int.ofNat) with
    | none => none
    | some [] => none
    | some (first :: rest) =>
      if first < 0 ∨ rest.any (fun x => decide (x < 0)) then none
      else
        let first_number := first.toNat
        let nats := rest.map Int.toNat
        if nats.length = 0 then none
        else
          let max_number := nats.getD (nats.length - 1) 0
          let list_size := nats.length
          if list_size > max_number >>> 2 then
            match eliasfanoencoder.bv_encode nats with
            | none => none
            | some (bvencode, padding) =>
              some ((vbencoder.encode first_number ++ [255]) ++ bvencode,
                padding)
          else
            let l := Nat.clog 2 ((max_number + list_size - 1) / list_size)
            let mask := eliasfanoencoder.MASKS l
            let lower_numbers := nats.map (fun number => number &&& mask)
            let upper_numbers := nats.map (fun number =>
              (number - (number &&& mask)) >>> l)
            match eliasfanoencoder.encode_upper
                (upper_numbers.map Int.ofNat) with
            | none => none
            | some upper_encode =>
              match eliasfanoencoder.encode_lower lower_numbers l with
              | none => none
              | some lower_encode =>
                match eliasfanoencoder.merge_encodes l lower_encode
                    upper_encode with
                | none => none
                | some merged =>
                  some (vbencoder.encode first_number ++ merged.1, merged.2)

/-- The header-byte read of eliasfanoencoder.decode for nums ≥ 2 (the
decoder then takes the bit-vector branch exactly when this byte is 255):
`first_number, offset = vbenc.decode_number(encoded); l = encoded[offset >> 3]`.
`none` models the IndexError of reading past the end of the encoding. -/
def eliasfanoencoder.decode_header_l (encoded : List Nat) : Option Nat :=
  let r := vbencoder.decode_number encoded 0
  if h : r.2 >>> 3 < encoded.length then some (encoded.get ⟨r.2 >>> 3, h⟩)
  else none

theorem get_eq_getD (l : List Nat) (i : Nat) (h : i < l.length) :
    l.get ⟨i, h⟩ = l.getD i 0 := by
  rw [List.getD_eq_getElem?_getD, List.getElem?_eq_getElem h]
  rfl

theorem vbencoder.vbAux_facts (n : Nat) :
    (∀ d ∈ vbencoder.vbAux n, d ≤ 127) ∧ vbencoder.vbAux n ≠ [] ∧
    (vbencoder.vbAux n).foldl (fun a d => a * 128 + d) 0 = n := by
  induction n using Nat.strong_induction_on with
  | _ n ih =>
    rw [vbencoder.vbAux]
    by_cases h : n < 128
    · rw [dif_pos h]
      have hand : n &&& 127 = n := by
        rw [show (127:Nat) = 2 ^ 7 - 1 from rfl, Nat.and_pow_two_sub_one_eq_mod]
        exact Nat.mod_eq_of_lt h
      refine ⟨?_, by simp, by simp [hand]⟩
      intro d hd
      rcases List.mem_singleton.mp hd with rfl
      exact Nat.and_le_right
    · rw [dif_neg h]
      have hlt : n >>> 7 < n := by
        rw [Nat.shiftRight_eq_div_pow]
        exact Nat.div_lt_self (by omega) (by norm_num)
      obtain ⟨h1, h2, h3⟩ := ih (n >>> 7) hlt
      refine ⟨?_, by simp, ?_⟩
      · intro d hd
        rcases List.mem_append.mp hd with hd | hd
        · exact h1 d hd
        · rcases List.mem_singleton.mp hd with rfl
          exact Nat.and_le_right
      · rw [List.foldl_append, h3]
        simp only [List.foldl_cons, List.foldl_nil]
        rw [Nat.shiftRight_eq_div_pow,
          show (127:Nat) = 2 ^ 7 - 1 from rfl, Nat.and_pow_two_sub_one_eq_mod,
          show (128:Nat) = 2 ^ 7 from rfl, Nat.mul_comm]
        exact Nat.div_add_mod n (2 ^ 7)

theorem vbencoder.addTerminator_eq :
    ∀ (init : List Nat) (last : Nat),
      vbencoder.addTerminator (init ++ [last]) = init ++ [last + 128] := by
  intro init
  induction init with
  | nil => intro last; rfl
  | cons x xs ih =>
    intro last
    cases xs with
    | nil => rfl
    | cons y ys =>
      show vbencoder.addTerminator (x :: ((y :: ys) ++ [last]))
        = x :: ((y :: ys) ++ [last + 128])
      rw [show vbencoder.addTerminator (x :: ((y :: ys) ++ [last]))
          = x :: vbencoder.addTerminator ((y :: ys) ++ [last]) from rfl,
        ih last]

theorem vbencoder.decodeNumberAux_scan (off : Nat) :
    ∀ (digits front : List Nat) (last : Nat) (rest : List Nat) (acc : Nat),
      (∀ d ∈ digits, d ≤ 127) → last ≤ 127 →
      vbencoder.decodeNumberAux (front ++ digits ++ (last + 128) :: rest) off
          acc front.length
        = (digits.foldl (fun a d => a * 128 + d) acc * 128 + last,
            (front.length + digits.length + 1) * 8) := by
  intro digits
  induction digits with
  | nil =>
    intro front last rest acc _ hlast
    rw [vbencoder.decodeNumberAux]
    have hidx : front.length
        < (front ++ [] ++ (last + 128) :: rest).length := by
      simp
    rw [dif_pos hidx]
    have hget : (front ++ [] ++ (last + 128) :: rest).get ⟨front.length, hidx⟩
        = last + 128 := by
      rw [get_eq_getD]
      simp only [List.append_nil]
      exact list_getD_append_cons _ front rest
    simp only [hget]
    rw [if_pos (by omega)]
    rw [Prod.mk.injEq]
    constructor
    · rw [Nat.shiftLeft_eq]
      simp only [List.foldl_nil]
      norm_num
      omega
    · simp

  | cons d ds ih =>
    intro front last rest acc hd hlast
    rw [vbencoder.decodeNumberAux]
    have hidx : front.length
        < (front ++ (d :: ds) ++ (last + 128) :: rest).length := by
      simp
    rw [dif_pos hidx]
    have hget : (front ++ (d :: ds) ++ (last + 128) :: rest).get
        ⟨front.length, hidx⟩ = d := by
      rw [get_eq_getD]
      have hshape : front ++ (d :: ds) ++ (last + 128) :: rest
          = front ++ d :: (ds ++ (last + 128) :: rest) := by
        simp
      rw [hshape]
      exact list_getD_append_cons _ front _
    simp only [hget]
    have hd0 : d ≤ 127 := hd d (List.mem_cons_self _ _)
    rw [if_neg (by omega)]
    have hshape2 : front ++ (d :: ds) ++ (last + 128) :: rest
        = (front ++ [d]) ++ ds ++ (last + 128) :: rest := by
      simp
    rw [hshape2,
      show front.length + 1 = (front ++ [d]).length from by simp,
      ih (front ++ [d]) last rest ((acc <<< 7) + d)
        (fun e he => hd e (List.mem_cons_of_mem _ he)) hlast]
    rw [Prod.mk.injEq]
    constructor
    · rw [Nat.shiftLeft_eq]
      simp only [List.foldl_cons]
    · simp
      omega

theorem vbencoder.decode_number_encode (x : Nat) (rest : List Nat) :
    vbencoder.decode_number (vbencoder.encode x ++ rest) 0
      = (x, (vbencoder.encode x).length * 8) := by
  obtain ⟨hsmall, hne, hval⟩ := vbencoder.vbAux_facts x
  have henc : vbencoder.encode x
      = (vbencoder.vbAux x).dropLast
        ++ [(vbencoder.vbAux x).getLast hne + 128] := by
    rw [vbencoder.encode]
    conv_lhs => rw [← List.dropLast_append_getLast hne]
    exact vbencoder.addTerminator_eq _ _
  have hlast_le : (vbencoder.vbAux x).getLast hne ≤ 127 :=
    hsmall _ (List.getLast_mem hne)
  have hdrop_le : ∀ d ∈ (vbencoder.vbAux x).dropLast, d ≤ 127 :=
    fun d hd => hsmall d (List.dropLast_subset _ hd)
  have hscan := vbencoder.decodeNumberAux_scan 0
    (vbencoder.vbAux x).dropLast []
    ((vbencoder.vbAux x).getLast hne) rest 0 hdrop_le hlast_le
  simp only [List.nil_append, List.length_nil, Nat.zero_add] at hscan
  rw [henc]
  unfold vbencoder.decode_number
  have hshape : ((vbencoder.vbAux x).dropLast
        ++ [(vbencoder.vbAux x).getLast hne + 128]) ++ rest
      = (vbencoder.vbAux x).dropLast
        ++ ((vbencoder.vbAux x).getLast hne + 128) :: rest := by
    simp
  rw [hshape, show (0:Nat) >>> 3 = 0 from rfl, hscan]
  rw [Prod.mk.injEq]
  constructor
  · have hfold : ((vbencoder.vbAux x).dropLast.foldl
        (fun a d => a * 128 + d) 0) * 128 + (vbencoder.vbAux x).getLast hne
        = (vbencoder.vbAux x).foldl (fun a d => a * 128 + d) 0 := by
      conv_rhs => rw [← List.dropLast_append_getLast hne]
      rw [List.foldl_append]
      simp
    rw [hfold, hval]
  · simp

theorem bitbyteutils.to_byte_eq (e : Nat) (he : e ≤ 255) :
    bitbyteutils.to_byte e = [e] := by
  unfold bitbyteutils.to_byte bitbyteutils.to_bytes
  simp [List.range_succ]
  rw [show (255:Nat) = 2 ^ 8 - 1 from rfl, Nat.and_pow_two_sub_one_eq_mod]
  exact Nat.mod_eq_of_lt (by omega)

theorem bitbyteutils.to_bytes_le (size number : Nat) :
    ∀ b ∈ bitbyteutils.to_bytes size number, b ≤ 255 := by
  intro b hb
  unfold bitbyteutils.to_bytes at hb
  obtain ⟨i, -, hbi⟩ := List.mem_map.mp hb
  rw [← hbi]
  exact Nat.and_le_right

/-- Well-formed BitByteArray state: the bit pointer is below 8, the stream
holds bytes, and when the last byte is partially filled its free low bits
are zero. -/
def BBWF (s : List Nat × Nat) : Prop :=
  s.2 < 8 ∧ (∀ b ∈ s.1, b ≤ 255) ∧
  (s.2 ≠ 0 → s.1 ≠ [] ∧ s.1.getD (s.1.length - 1) 0 % 2 ^ (8 - s.2) = 0)

theorem list_getD_append_singleton (l : List Nat) (e : Nat) :
    (l ++ [e]).getD l.length 0 = e := by
  have := list_getD_append_cons e l []
  simpa using this

theorem and_seven_eq_mod (n : Nat) : n &&& 7 = n % 8 := by
  rw [show (7:Nat) = 2 ^ 3 - 1 from rfl, Nat.and_pow_two_sub_one_eq_mod]


theorem list_getD_set_self (l : List Nat) (i v : Nat) (h : i < l.length) :
    (l.set i v).getD i 0 = v := by
  rw [List.getD_eq_getElem?_getD,
    List.getElem?_eq_getElem (show i < (l.set i v).length from by simpa using h),
    Option.getD_some]
  exact List.getElem_set_self (by simpa using h)

theorem bitbyteutils.to_left_mod_zero (e bp p : Nat) (hbp8 : bp < 8)
    (hple : p ≤ bp) (hpz : e % 2 ^ p = 0) :
    bitbyteutils.to_left e (8 - bp) % 2 ^ (8 - bp + p) = 0 := by
  unfold bitbyteutils.to_left
  rw [Nat.shiftLeft_eq, show (0xFF:Nat) = 2 ^ 8 - 1 from rfl,
    Nat.and_pow_two_sub_one_eq_mod]
  have hm : e * 2 ^ (8 - bp) % 2 ^ 8 = e % 2 ^ bp * 2 ^ (8 - bp) := by
    have h := mul_mod_pow_shift e (8 - bp) bp
    rwa [show bp + (8 - bp) = 8 from by omega] at h
  rw [hm]
  have h1 : (e % 2 ^ bp) % 2 ^ p = 0 := by
    rw [mod_pow_mod_pow e bp p hple]
    exact hpz
  obtain ⟨c, hc⟩ := Nat.dvd_of_mod_eq_zero h1
  rw [hc]
  have h2 : 2 ^ p * c * 2 ^ (8 - bp) = 2 ^ (8 - bp + p) * c := by
    rw [show (2:Nat) ^ (8 - bp + p) = 2 ^ p * 2 ^ (8 - bp) from by
      rw [← pow_add]; congr 1; omega]
    ring
  rw [h2]
  exact Nat.mul_mod_right _ _

theorem BitByteArray.append_wf (s : List Nat × Nat) (element padding : Nat)
    (hwf : BBWF s) (hel : element ≤ 255) (hp : padding < 8)
    (hpz : element % 2 ^ padding = 0) :
    ∃ s', BitByteArray.append s element padding = some s' ∧ BBWF s' := by
  obtain ⟨hbp, hbytes, hlastz⟩ := hwf
  by_cases h0 : s.2 = 0
  · refine ⟨_, by rw [BitByteArray.append, if_pos h0], ?_⟩
    rw [bitbyteutils.to_byte_eq element hel]
    unfold BitByteArray.recompute_bit_pointer
    have hbytes' : ∀ b ∈ s.1 ++ [element], b ≤ 255 := by
      intro b hb
      rcases List.mem_append.mp hb with h | h
      · exact hbytes b h
      · rcases List.mem_singleton.mp h with rfl
        exact hel
    by_cases hpad0 : padding = 0
    · rw [if_pos hpad0]
      exact ⟨hbp, hbytes', fun hne => absurd h0 hne⟩
    · rw [if_neg hpad0, h0, Nat.zero_add, and_seven_eq_mod,
        Nat.mod_eq_of_lt (by omega)]
      refine ⟨by omega, hbytes', fun _ => ⟨by simp, ?_⟩⟩
      have hgl : (s.1 ++ [element]).getD ((s.1 ++ [element]).length - 1) 0
          = element := by
        rw [List.length_append, List.length_singleton,
          show s.1.length + 1 - 1 = s.1.length from by omega]
        exact list_getD_append_singleton s.1 element
      rw [hgl, show 8 - (8 - padding) = padding from by omega]
      exact hpz
  · obtain ⟨hne, hlz⟩ := hlastz h0
    have hlen0 : ¬ s.1.length = 0 := by
      intro h
      exact hne (List.eq_nil_of_length_eq_zero h)
    have hlast_le : s.1.getD (s.1.length - 1) 0 ≤ 255 :=
      hbytes _ (getD_mem_of_lt _ _ (by omega))
    have hA : (2:Nat) ^ (8 - s.2) * 2 ^ s.2 = 256 := by
      rw [← pow_add, show 8 - s.2 + s.2 = 8 from by omega]
      norm_num
    have hApos : (0:Nat) < 2 ^ (8 - s.2) := pow_pos (by norm_num) _
    have hBpos : (0:Nat) < 2 ^ s.2 := pow_pos (by norm_num) _
    have hAle : (2:Nat) ^ (8 - s.2) ≤ 256 := by
      calc (2:Nat) ^ (8 - s.2) ≤ 2 ^ 8 := Nat.pow_le_pow_right (by norm_num) (by omega)
        _ = 256 := by norm_num
    have hto_lt : element >>> s.2 < 2 ^ (8 - s.2) := by
      rw [Nat.shiftRight_eq_div_pow]
      apply Nat.div_lt_of_lt_mul
      rw [Nat.mul_comm, hA]
      omega
    have hlast_bound : s.1.getD (s.1.length - 1) 0 ≤ 256 - 2 ^ (8 - s.2) := by
      obtain ⟨c, hc⟩ := Nat.dvd_of_mod_eq_zero hlz
      have hclt : c < 2 ^ s.2 := by
        by_contra hcge
        push_neg at hcge
        have := Nat.mul_le_mul_left (2 ^ (8 - s.2)) hcge
        omega
      have h1 : 2 ^ (8 - s.2) * c ≤ 2 ^ (8 - s.2) * (2 ^ s.2 - 1) :=
        Nat.mul_le_mul_left _ (by omega)
      have h2 : 2 ^ (8 - s.2) * (2 ^ s.2 - 1) + 2 ^ (8 - s.2) = 256 := by
        calc 2 ^ (8 - s.2) * (2 ^ s.2 - 1) + 2 ^ (8 - s.2)
            = 2 ^ (8 - s.2) * ((2 ^ s.2 - 1) + 1) := by ring
          _ = 2 ^ (8 - s.2) * 2 ^ s.2 := by
              congr 1
              omega
          _ = 256 := hA
      omega
    have hnl_le : s.1.getD (s.1.length - 1) 0 + element >>> s.2 ≤ 255 := by
      omega
    have happ : BitByteArray.append s element padding
        = some ((if BitByteArray.has_to_write_carried padding s.2
            then s.1.set (s.1.length - 1)
                (s.1.getD (s.1.length - 1) 0 + element >>> s.2)
              ++ bitbyteutils.to_byte (bitbyteutils.to_left element (8 - s.2))
            else s.1.set (s.1.length - 1)
              (s.1.getD (s.1.length - 1) 0 + element >>> s.2)),
          BitByteArray.recompute_bit_pointer s.2 padding) := by
      simp only [BitByteArray.append]
      rw [if_neg h0, if_neg hlen0,
        if_neg (show ¬ (s.1.getD (s.1.length - 1) 0 + element >>> s.2 > 255)
          from by omega)]
    refine ⟨_, happ, ?_, ?_, ?_⟩
    · dsimp only
      unfold BitByteArray.recompute_bit_pointer
      by_cases hpad0 : padding = 0
      · rw [if_pos hpad0]
        omega
      · rw [if_neg hpad0, and_seven_eq_mod]
        exact Nat.mod_lt _ (by norm_num)
    · dsimp only
      have hcarried_le : bitbyteutils.to_left element (8 - s.2) ≤ 255 := by
        unfold bitbyteutils.to_left
        exact Nat.and_le_right
      have hbytes1 : ∀ b ∈ s.1.set (s.1.length - 1)
          (s.1.getD (s.1.length - 1) 0 + element >>> s.2), b ≤ 255 := by
        intro b hb
        rcases List.mem_or_eq_of_mem_set hb with h | h
        · exact hbytes b h
        · omega
      intro b hb
      split at hb
      · rcases List.mem_append.mp hb with h | h
        · exact hbytes1 b h
        · rw [bitbyteutils.to_byte_eq _ hcarried_le] at h
          rcases List.mem_singleton.mp h with rfl
          exact hcarried_le
      · exact hbytes1 b hb
    · dsimp only
      intro hbp'
      have hlen_set : (s.1.set (s.1.length - 1)
          (s.1.getD (s.1.length - 1) 0 + element >>> s.2)).length
          = s.1.length := List.length_set _ _ _
      have hcarried_le : bitbyteutils.to_left element (8 - s.2) ≤ 255 := by
        unfold bitbyteutils.to_left
        exact Nat.and_le_right
      unfold BitByteArray.recompute_bit_pointer at hbp' ⊢
      by_cases hpad0 : padding = 0
      · -- full byte added: pointer unchanged, carried byte written
        rw [if_pos hpad0] at hbp' ⊢
        have hcw : BitByteArray.has_to_write_carried padding s.2 = true := by
          unfold BitByteArray.has_to_write_carried
          subst hpad0
          simp
          omega
        rw [hcw]
        simp only [if_true]
        rw [bitbyteutils.to_byte_eq _ hcarried_le]
        refine ⟨by simp, ?_⟩
        rw [show ((s.1.set (s.1.length - 1)
              (s.1.getD (s.1.length - 1) 0 + element >>> s.2))
              ++ [bitbyteutils.to_left element (8 - s.2)]).length - 1
            = (s.1.set (s.1.length - 1)
              (s.1.getD (s.1.length - 1) 0 + element >>> s.2)).length from by
            rw [List.length_append, List.length_singleton]
            omega,
          list_getD_append_singleton]
        have := bitbyteutils.to_left_mod_zero element s.2 0 hbp (by omega)
          (by rw [pow_zero, Nat.mod_one])
        simpa using this
      · rw [if_neg hpad0] at hbp' ⊢
        rw [and_seven_eq_mod] at hbp' ⊢
        by_cases hplt : padding < s.2
        · -- carried written; new pointer s.2 - padding
          have hcw : BitByteArray.has_to_write_carried padding s.2 = true := by
            unfold BitByteArray.has_to_write_carried
            simp
            omega
          rw [hcw]
          simp only [if_true]
          have hmod : (s.2 + (8 - padding)) % 8 = s.2 - padding := by
            omega
          rw [hmod] at hbp' ⊢
          rw [bitbyteutils.to_byte_eq _ hcarried_le]
          refine ⟨by simp, ?_⟩
          rw [show ((s.1.set (s.1.length - 1)
                (s.1.getD (s.1.length - 1) 0 + element >>> s.2))
                ++ [bitbyteutils.to_left element (8 - s.2)]).length - 1
              = (s.1.set (s.1.length - 1)
                (s.1.getD (s.1.length - 1) 0 + element >>> s.2)).length from by
              rw [List.length_append, List.length_singleton]
              omega,
            list_getD_append_singleton]
          have := bitbyteutils.to_left_mod_zero element s.2 padding hbp
            (by omega) hpz
          rw [show 8 - (s.2 - padding) = 8 - s.2 + padding from by omega]
          exact this
        · -- no carried; the incoming low bits land in the last byte
          have hcw : BitByteArray.has_to_write_carried padding s.2 = false := by
            unfold BitByteArray.has_to_write_carried
            simp
            omega
          rw [hcw]
          simp only [if_false, Bool.false_eq_true]
          have hmod : (s.2 + (8 - padding)) % 8 = s.2 + 8 - padding - 8 * ((s.2 + 8 - padding) / 8) := by
            omega
          -- pointer value: padding ≥ s.2, padding ≠ s.2 would give 0
          have hpeq : (s.2 + (8 - padding)) % 8 ≠ 0 := hbp'
          have hpgt : s.2 < padding := by
            by_contra hle
            push_neg at hle
            have : padding = s.2 := by omega
            rw [this] at hpeq
            omega
          have hmod2 : (s.2 + (8 - padding)) % 8 = s.2 + 8 - padding := by
            omega
          rw [hmod2] at hbp' ⊢
          refine ⟨by
            intro hnil
            rw [hnil] at hlen_set
            simp at hlen_set
            omega, ?_⟩
          rw [hlen_set, list_getD_set_self _ _ _ (by omega)]
          have hd1 : s.1.getD (s.1.length - 1) 0
              % 2 ^ (8 - (s.2 + 8 - padding)) = 0 := by
            apply mod_pow_zero_mono _ (8 - s.2)
            · exact hlz
            · omega
          have hd2 : element >>> s.2 % 2 ^ (8 - (s.2 + 8 - padding)) = 0 := by
            obtain ⟨c, hc⟩ := Nat.dvd_of_mod_eq_zero hpz
            have hexp : 8 - (s.2 + 8 - padding) = padding - s.2 := by omega
            rw [hexp, Nat.shiftRight_eq_div_pow, hc,
              show (2:Nat) ^ padding = 2 ^ s.2 * 2 ^ (padding - s.2) from by
                rw [← pow_add]; congr 1; omega,
              Nat.mul_assoc, Nat.mul_div_cancel_left _ hBpos]
            exact Nat.mul_mod_right _ _
          rw [Nat.add_mod, hd1, hd2]
          simp

theorem BitByteArray.extendAux_wf (padding : Nat) (hp : padding < 8) :
    ∀ (elements : List Nat) (s : List Nat × Nat), BBWF s →
      (∀ e ∈ elements, e ≤ 255) →
      (elements ≠ [] → elements.getD (elements.length - 1) 0 % 2 ^ padding = 0) →
      ∃ s', BitByteArray.extendAux padding s elements = some s' ∧ BBWF s' := by
  intro elements
  induction elements with
  | nil =>
    intro s hwf _ _
    exact ⟨s, rfl, hwf⟩
  | cons e rest ih =>
    intro s hwf hle hlast
    rw [BitByteArray.extendAux]
    by_cases hre : rest = []
    · subst hre
      have hlast' : e % 2 ^ padding = 0 := by
        have := hlast (by simp)
        simpa using this
      obtain ⟨s', hap, hwf'⟩ := BitByteArray.append_wf s e padding hwf
        (hle e (List.mem_cons_self _ _)) hp hlast'
      rw [if_pos rfl]
      simp only [hap]
      exact ⟨s', rfl, hwf'⟩
    · rw [if_neg hre]
      obtain ⟨s1, hap, hwf1⟩ := BitByteArray.append_wf s e 0 hwf
        (hle e (List.mem_cons_self _ _)) (by norm_num)
        (by rw [pow_zero, Nat.mod_one])
      simp only [hap]
      refine ih s1 hwf1 (fun x hx => hle x (List.mem_cons_of_mem _ hx)) ?_
      intro _
      have hlen1 : 1 ≤ rest.length := by
        cases rest with
        | nil => exact absurd rfl hre
        | cons a b => simp
      have := hlast (by simp)
      rw [show (e :: rest).length - 1 = (rest.length - 1) + 1 from by
          simp only [List.length_cons]; omega,
        List.getD_cons_succ] at this
      exact this

theorem BitByteArray.paddingOf_lt (s : List Nat × Nat) (h : s.2 < 8) :
    BitByteArray.paddingOf s < 8 := by
  unfold BitByteArray.paddingOf
  split <;> omega

theorem BitByteArray.extend_from_wf (s t : List Nat × Nat)
    (hs : BBWF s) (ht : BBWF t) :
    ∃ m, BitByteArray.extend s t.1 (BitByteArray.paddingOf t) = some m ∧
      BBWF m := by
  obtain ⟨htbp, htbytes, htlast⟩ := ht
  refine BitByteArray.extendAux_wf _ (BitByteArray.paddingOf_lt t htbp) t.1 s
    hs htbytes ?_
  intro hne
  unfold BitByteArray.paddingOf
  by_cases h0 : t.2 = 0
  · rw [h0]
    simp [Nat.mod_one]
  · rw [if_neg (by omega)]
    exact (htlast h0).2

theorem unaryencoder.encode_false_bytes (n : Nat) :
    ∃ e p, unaryencoder.encode n false = some (e, p) ∧ p < 8 ∧
      (∀ b ∈ e, b ≤ 255) ∧
      (e ≠ [] → e.getD (e.length - 1) 0 % 2 ^ p = 0) := by
  have h8 : ¬ (8 - n % 8 - 1 = 8) := by omega
  simp only [unaryencoder.encode, h8, if_false, ite_false, Bool.false_eq_true]
  refine ⟨_, _, rfl, by omega, ?_, ?_⟩
  · intro b hb
    rcases List.mem_or_eq_of_mem_set hb with h | h
    · rw [List.eq_of_mem_replicate h]
    · rw [h]
      exact Nat.and_le_right
  · intro _
    have hbr : 1 ≤ (n + 1 + 7) / 8 := by omega
    rw [List.length_set, List.length_replicate,
      list_getD_set_self _ _ _ (by rw [List.length_replicate]; omega)]
    have h := mul_mod_pow_shift 255 (8 - n % 8 - 1 + 1) (8 - (8 - n % 8 - 1 + 1))
    rw [show 8 - (8 - n % 8 - 1 + 1) + (8 - n % 8 - 1 + 1) = 8 from by omega]
      at h
    norm_num at h
    have hmask :=
      Nat.and_pow_two_sub_one_eq_mod (255 * 2 ^ (8 - n % 8 - 1 + 1)) 8
    norm_num at hmask
    rw [Nat.shiftLeft_eq, hmask, h,
      show (2:Nat) ^ (8 - n % 8 - 1 + 1) = 2 * 2 ^ (8 - n % 8 - 1) from by
        rw [pow_succ]
        ring,
      ← Nat.mul_assoc]
    exact Nat.mul_mod_left _ _

theorem eliasfanoencoder.encodeUpperLoop_wf :
    ∀ (gaps : List Int) (s : List Nat × Nat), BBWF s →
      (∀ g ∈ gaps, 0 ≤ g) →
      ∃ s', eliasfanoencoder.encodeUpperLoop gaps s = some s' ∧ BBWF s' := by
  intro gaps
  induction gaps with
  | nil => intro s hwf _; exact ⟨s, rfl, hwf⟩
  | cons g rest ih =>
    intro s hwf hge
    rw [eliasfanoencoder.encodeUpperLoop]
    rw [if_neg (by
      have := hge g (List.mem_cons_self _ _)
      omega)]
    obtain ⟨e, p, henc, hp, hbytes, hlastz⟩ :=
      unaryencoder.encode_false_bytes g.toNat
    obtain ⟨s1, hext, hwf1⟩ := BitByteArray.extendAux_wf p hp e s hwf hbytes
      (fun hne => hlastz hne)
    have hext' : BitByteArray.extend s e p = some s1 := hext
    simp only [henc, hext']
    exact ih s1 hwf1 (fun x hx => hge x (List.mem_cons_of_mem _ hx))

theorem gapsencoder.gapsAux_nonneg :
    ∀ (l : List Int) (a : Int), List.Chain (· ≤ ·) a l →
      ∀ g ∈ gapsencoder.gapsAux a l, 0 ≤ g := by
  intro l
  induction l with
  | nil => intro a _ g hg; simp [gapsencoder.gapsAux] at hg
  | cons x xs ih =>
    intro a hch g hg
    rw [List.chain_cons] at hch
    rw [gapsencoder.gapsAux] at hg
    rcases List.mem_cons.mp hg with h | h
    · subst h
      omega
    · exact ih x hch.2 g h

theorem eliasfanoencoder.encode_upper_wf (uppers : List Int)
    (hne : uppers ≠ []) (hsorted : uppers.Sorted (· ≤ ·))
    (hnonneg : ∀ u ∈ uppers, 0 ≤ u) :
    ∃ s', eliasfanoencoder.encode_upper uppers = some s' ∧ BBWF s' := by
  obtain ⟨u0, rest, rfl⟩ : ∃ a l, uppers = a :: l := by
    cases uppers with
    | nil => exact absurd rfl hne
    | cons a l => exact ⟨a, l, rfl⟩
  rw [eliasfanoencoder.encode_upper]
  simp only [gapsencoder.encode]
  refine eliasfanoencoder.encodeUpperLoop_wf _ ([], 0)
    ⟨by norm_num, by simp, by simp⟩ ?_
  intro g hg
  rcases List.mem_cons.mp hg with h | h
  · rw [h]
    exact hnonneg u0 (List.mem_cons_self _ _)
  · refine gapsencoder.gapsAux_nonneg rest u0 ?_ g h
    rw [List.chain_iff_pairwise]
    exact hsorted

theorem bitbyteutils.to_bytes_length (size number : Nat) :
    (bitbyteutils.to_bytes size number).length = size := by
  unfold bitbyteutils.to_bytes
  simp

theorem bitbyteutils.to_bytes_last (size number : Nat) (hs : 1 ≤ size) :
    (bitbyteutils.to_bytes size number).getD (size - 1) 0
      = number &&& 255 := by
  unfold bitbyteutils.to_bytes
  have hlen : ((List.range size).reverse.map
      (fun i => (number >>> (i <<< 3)) &&& 255)).length = size := by
    simp
  have hidx : size - 1 < size := by omega
  rw [List.getD_eq_getElem?_getD,
    List.getElem?_eq_getElem (by rw [hlen]; omega), Option.getD_some,
    List.getElem_map, List.getElem_reverse]
  simp only [List.length_range, Nat.sub_self]
  rw [List.getElem_range]
  simp

theorem eliasfanoencoder.encodeLowerLoop_wf (l padding : Nat) (hl : 1 ≤ l)
    (hpad : padding < 8) :
    ∀ (ns : List Nat) (s : List Nat × Nat), BBWF s →
      ∃ s', eliasfanoencoder.encodeLowerLoop l padding ns s = some s' ∧
        BBWF s' := by
  intro ns
  induction ns with
  | nil => intro s hwf; exact ⟨s, rfl, hwf⟩
  | cons n rest ih =>
    intro s hwf
    rw [eliasfanoencoder.encodeLowerLoop]
    have hlast : bitbyteutils.to_bytes ((l + 7) / 8) (n <<< padding) ≠ [] →
        (bitbyteutils.to_bytes ((l + 7) / 8) (n <<< padding)).getD
          ((bitbyteutils.to_bytes ((l + 7) / 8) (n <<< padding)).length - 1) 0
          % 2 ^ padding = 0 := by
      intro _
      rw [bitbyteutils.to_bytes_length,
        bitbyteutils.to_bytes_last _ _ (by omega)]
      by_cases hpad0 : padding = 0
      · subst hpad0
        rw [pow_zero, Nat.mod_one]
      · have h := bitbyteutils.to_left_mod_zero n (8 - padding) 0
          (by omega) (by omega) (by rw [pow_zero, Nat.mod_one])
        unfold bitbyteutils.to_left at h
        rw [show 8 - (8 - padding) = padding from by omega, Nat.add_zero] at h
        exact h
    obtain ⟨s1, hext, hwf1⟩ := BitByteArray.extendAux_wf padding hpad
      (bitbyteutils.to_bytes ((l + 7) / 8) (n <<< padding)) s hwf
      (bitbyteutils.to_bytes_le _ _) hlast
    have hext' : BitByteArray.extend s
        (bitbyteutils.to_bytes ((l + 7) / 8) (n <<< padding)) padding
        = some s1 := hext
    simp only [hext']
    exact ih s1 hwf1

theorem eliasfanoencoder.encode_lower_wf (lowers : List Nat) (l : Nat)
    (hl : 1 ≤ l) :
    ∃ s', eliasfanoencoder.encode_lower lowers l = some s' ∧ BBWF s' := by
  unfold eliasfanoencoder.encode_lower
  refine eliasfanoencoder.encodeLowerLoop_wf l _ hl ?_ lowers ([], 0)
    ⟨by norm_num, by simp, by simp⟩
  split <;> omega

theorem eliasfanoencoder.bvLoop_some :
    ∀ (ns enc : List Nat), (∀ x ∈ ns, x >>> 3 < enc.length) →
      ∃ out, eliasfanoencoder.bvLoop ns enc = some out := by
  intro ns
  induction ns with
  | nil => intro enc _; exact ⟨enc, rfl⟩
  | cons n rest ih =>
    intro enc hin
    rw [eliasfanoencoder.bvLoop,
      if_pos (hin n (List.mem_cons_self _ _))]
    refine ih _ ?_
    intro x hx
    rw [List.length_set]
    exact hin x (List.mem_cons_of_mem _ hx)

theorem sorted_le_getD_last (l : List Nat) (hs : l.Sorted (· ≤ ·)) :
    ∀ x ∈ l, x ≤ l.getD (l.length - 1) 0 := by
  induction l with
  | nil => intro x hx; simp at hx
  | cons a t ih =>
    intro x hx
    rw [List.sorted_cons] at hs
    cases t with
    | nil =>
      rcases List.mem_singleton.mp hx with rfl
      simp
    | cons b u =>
      have htail : ((b :: u).getD ((b :: u).length - 1) 0)
          = ((a :: b :: u).getD ((a :: b :: u).length - 1) 0) := by
        simp only [List.length_cons, Nat.add_sub_cancel]
        rw [List.getD_cons_succ]
      rcases List.mem_cons.mp hx with rfl | hm
      · have hb := hs.1 b (List.mem_cons_self _ _)
        have := ih hs.2 b (List.mem_cons_self _ _)
        omega
      · have := ih hs.2 x hm
        omega

theorem eliasfanoencoder.stream_facts (xs : List Nat) (h2 : 2 ≤ xs.length)
    (hsort : xs.Sorted (· < ·)) :
    ∃ first rest, eliasfanoencoder.delta_encode_since_min (xs.map Int.ofNat)
        = some (first :: rest) ∧
      (¬ (first < 0 ∨ rest.any (fun x => decide (x < 0)))) ∧
      rest ≠ [] ∧
      (rest.map Int.toNat).Sorted (· ≤ ·) ∧
      (rest.map Int.toNat).length = xs.length ∧
      (∀ v ∈ rest.map Int.toNat, ∃ x ∈ xs, v ≤ x) := by
  obtain ⟨x0, x1, t, rfl⟩ : ∃ a b u, xs = a :: b :: u := by
    cases xs with
    | nil => simp at h2
    | cons a l =>
      cases l with
      | nil => simp at h2
      | cons b u => exact ⟨a, b, u, rfl⟩
  rw [List.sorted_cons] at hsort
  obtain ⟨hs1, hsort2⟩ := hsort
  rw [List.sorted_cons] at hsort2
  obtain ⟨hs2, hsort3⟩ := hsort2
  have hx01 : x0 < x1 := hs1 x1 (List.mem_cons_self _ _)
  have hofc : List.map Int.ofNat t = List.map (fun n : Nat => (↑n : Int)) t :=
    List.map_congr_left (fun a _ => Int.ofNat_eq_coe)
  simp only [List.map_cons, Int.ofNat_eq_coe]
  rw [hofc]
  have hmapt : ∀ z ∈ t.map (fun n : Nat => (↑n : Int)), ∃ y ∈ t, z = ↑y := by
    intro z hz
    obtain ⟨y, hy, rfl⟩ := List.mem_map.mp hz
    exact ⟨y, hy, rfl⟩
  by_cases hx0 : x0 = 0
  · subst hx0
    refine ⟨0, (0 : Int) :: ↑x1 :: t.map (fun n : Nat => (↑n : Int)),
      ?_, ?_, by simp, ?_, ?_, ?_⟩
    · simp [eliasfanoencoder.delta_encode_since_min]
    · intro h
      rcases h with h | h
      · omega
      · rw [List.any_eq_true] at h
        obtain ⟨z, hz, hzlt⟩ := h
        simp only [decide_eq_true_eq] at hzlt
        rcases List.mem_cons.mp hz with rfl | hz2
        · omega
        · rcases List.mem_cons.mp hz2 with rfl | hz3
          · omega
          · obtain ⟨y, -, rfl⟩ := hmapt z hz3
            omega
    · have hmap : ((0 : Int) :: ↑x1 :: t.map (fun n : Nat => (↑n : Int))).map
          Int.toNat = 0 :: x1 :: t := by
        simp only [List.map_cons, List.map_map]
        have h : ∀ a ∈ t, (Int.toNat ∘ fun n : Nat => (↑n : Int)) a = id a :=
          fun a _ => rfl
        rw [List.map_congr_left h, List.map_id]
        simp
      rw [hmap]
      rw [List.sorted_cons]
      refine ⟨?_, ?_⟩
      · intro b hb
        rcases List.mem_cons.mp hb with rfl | hb2
        · omega
        · have := hs2 b hb2
          omega
      · rw [List.sorted_cons]
        exact ⟨fun b hb => Nat.le_of_lt (hs2 b hb),
          hsort3.imp (fun h => Nat.le_of_lt h)⟩
    · simp
    · intro v hv
      simp only [List.map_cons, List.map_map, List.mem_cons, List.mem_map,
        Function.comp, Int.toNat_natCast, Int.toNat_zero] at hv
      rcases hv with rfl | heq | ⟨y, hy, heq⟩
      · exact ⟨0, List.mem_cons_self _ _, Nat.le_refl _⟩
      · exact ⟨x1, List.mem_cons_of_mem _ (List.mem_cons_self _ _),
          by omega⟩
      · exact ⟨y, List.mem_cons_of_mem _ (List.mem_cons_of_mem _ hy),
          by omega⟩
  · have hx0i : ¬ ((↑x0 : Int) = 0) := by
      simpa using hx0
    refine ⟨(↑x0 : Int) - min ((↑x1 : Int) - (↑x0 : Int) - 1) ((↑x0 : Int) - 1),
      min ((↑x1 : Int) - (↑x0 : Int) - 1) ((↑x0 : Int) - 1)
        :: ((↑x1 : Int) - (↑x0 : Int))
        :: (t.map (fun n : Nat => (↑n : Int))).map (fun x => x - (↑x0 : Int)),
      ?_, ?_, by simp, ?_, ?_, ?_⟩
    · simp only [eliasfanoencoder.delta_encode_since_min, List.map_cons]
      rw [if_neg hx0i]
    · have hnn : ∀ z ∈ (min ((↑x1 : Int) - (↑x0 : Int) - 1) ((↑x0 : Int) - 1)
          :: ((↑x1 : Int) - (↑x0 : Int))
          :: (t.map (fun n : Nat => (↑n : Int))).map
            (fun x => x - (↑x0 : Int))), 0 ≤ z := by
        intro z hz
        rcases List.mem_cons.mp hz with rfl | hz2
        · have h1 : (1:Int) ≤ (↑x1 : Int) - ↑x0 := by
            have : (↑x0 : Int) < ↑x1 := by exact_mod_cast hx01
            omega
          have h2 : (1:Int) ≤ (↑x0 : Int) := by
            have : (0:Int) ≤ ↑x0 := Int.natCast_nonneg x0
            omega
          omega
        · rcases List.mem_cons.mp hz2 with rfl | hz3
          · have : (↑x0 : Int) < ↑x1 := by exact_mod_cast hx01
            omega
          · obtain ⟨w, hw, rfl⟩ := List.mem_map.mp hz3
            obtain ⟨y, hy, rfl⟩ := hmapt w hw
            have hlt1 : x0 < y := hs1 y (List.mem_cons_of_mem _ hy)
            have hlt2 : (↑x0 : Int) < ↑y := by exact_mod_cast hlt1
            omega
      intro h
      rcases h with h | h
      · have h1 : (1:Int) ≤ (↑x1 : Int) - ↑x0 := by
          have : (↑x0 : Int) < ↑x1 := by exact_mod_cast hx01
          omega
        have h2 : (1:Int) ≤ (↑x0 : Int) := by
          have : (0:Int) ≤ ↑x0 := Int.natCast_nonneg x0
          omega
        omega
      · rw [List.any_eq_true] at h
        obtain ⟨z, hz, hzlt⟩ := h
        simp only [decide_eq_true_eq] at hzlt
        have := hnn z hz
        omega
    · have hIntSorted : (min ((↑x1 : Int) - (↑x0 : Int) - 1) ((↑x0 : Int) - 1)
          :: ((↑x1 : Int) - (↑x0 : Int))
          :: (t.map (fun n : Nat => (↑n : Int))).map
            (fun x => x - (↑x0 : Int))).Pairwise (· ≤ ·) := by
        have htp : (t.map (fun n : Nat => (↑n : Int))).Pairwise (· < ·) :=
          hsort3.map _ (fun a b h => by exact_mod_cast h)
        have htp2 : ((t.map (fun n : Nat => (↑n : Int))).map
            (fun x => x - (↑x0 : Int))).Pairwise (· ≤ ·) :=
          htp.map _ (fun a b h => by omega)
        have hall : ∀ z ∈ (t.map (fun n : Nat => (↑n : Int))).map
            (fun x => x - (↑x0 : Int)), (↑x1 : Int) - ↑x0 ≤ z := by
          intro z hz
          obtain ⟨w, hw, rfl⟩ := List.mem_map.mp hz
          obtain ⟨y, hy, rfl⟩ := hmapt w hw
          have hlt1 : x1 < y := hs2 y hy
          have hlt2 : (↑x1 : Int) < ↑y := by exact_mod_cast hlt1
          omega
        rw [List.pairwise_cons]
        refine ⟨?_, ?_⟩
        · intro z hz
          rcases List.mem_cons.mp hz with rfl | hz2
          · omega
          · have := hall z hz2
            omega
        · rw [List.pairwise_cons]
          exact ⟨hall, htp2⟩
      exact hIntSorted.map _ (fun a b h => Int.toNat_le_toNat h)
    · simp
    · intro v hv
      obtain ⟨z, hz, rfl⟩ := List.mem_map.mp hv
      rcases List.mem_cons.mp hz with rfl | hz2
      · refine ⟨x0, List.mem_cons_self _ _, ?_⟩
        have hmin : min ((↑x1 : Int) - (↑x0 : Int) - 1) ((↑x0 : Int) - 1)
            ≤ (↑x0 : Int) := by omega
        have h := Int.toNat_le_toNat hmin
        simpa using h
      · rcases List.mem_cons.mp hz2 with rfl | hz3
        · refine ⟨x1, List.mem_cons_of_mem _ (List.mem_cons_self _ _), ?_⟩
          have hle : (↑x1 : Int) - (↑x0 : Int) ≤ (↑x1 : Int) := by
            have : (0:Int) ≤ ↑x0 := Int.natCast_nonneg x0
            omega
          have h := Int.toNat_le_toNat hle
          simpa using h
        · obtain ⟨w, hw, rfl⟩ := List.mem_map.mp hz3
          obtain ⟨y, hy, rfl⟩ := hmapt w hw
          refine ⟨y, List.mem_cons_of_mem _ (List.mem_cons_of_mem _ hy), ?_⟩
          have hle : (↑y : Int) - (↑x0 : Int) ≤ (↑y : Int) := by
            have : (0:Int) ≤ ↑x0 := Int.natCast_nonneg x0
            omega
          have h := Int.toNat_le_toNat hle
          simpa using h

theorem eliasfanoencoder.upper_eq_div (x l : Nat) :
    (x - (x &&& eliasfanoencoder.MASKS l)) >>> l = x / 2 ^ l := by
  have hmk : eliasfanoencoder.MASKS l = 2 ^ l - 1 := by
    unfold eliasfanoencoder.MASKS
    rw [Nat.shiftLeft_eq, one_mul]
  have hp : 0 < 2 ^ l := Nat.pow_pos (by norm_num)
  rw [hmk, Nat.and_pow_two_sub_one_eq_mod, Nat.shiftRight_eq_div_pow]
  have hsub : x - x % 2 ^ l = 2 ^ l * (x / 2 ^ l) :=
    Nat.sub_eq_of_eq_add (Nat.div_add_mod x (2 ^ l)).symm
  rw [hsub, Nat.mul_div_cancel_left _ hp]

theorem clog_ceil_le_32 (M m : Nat) (hm : 1 ≤ m) (hMb : M ≤ 2 ^ 32) :
    Nat.clog 2 ((M + m - 1) / m) ≤ 32 := by
  have hMle : M ≤ m * M := Nat.le_mul_of_pos_left M (by omega)
  have h4 : M + m - 1 ≤ m * M + (m - 1) := by omega
  have key : (m * M + (m - 1)) / m = M + (m - 1) / m :=
    Nat.mul_add_div (by omega) M (m - 1)
  have h3 : (m - 1) / m = 0 := Nat.div_eq_of_lt (by omega)
  have h1 : (M + m - 1) / m ≤ M := by
    have h5 : (M + m - 1) / m ≤ (m * M + (m - 1)) / m :=
      Nat.div_le_div_right h4
    rw [key, h3] at h5
    omega
  exact (Nat.le_pow_iff_clog_le (by norm_num)).mp (le_trans h1 hMb)

/-- C4: for every strictly increasing input of length ≥ 2 with 32-bit
elements, the Elias-Fano encoder emits, immediately after the VB-encoded
first number of the preprocessed stream, a single header byte that equals
255 exactly when the preprocessed list is dense (its length exceeds its
maximum element shifted right by 2) and otherwise equals the computed
lower-bits width l; l is at most 32, so it can never collide with the 255
flag, and the decoder's header read (`encoded[offset >> 3]` after
`decode_number`) returns exactly that byte, so it branches to the
characteristic-bit-vector path exactly when the byte is 255. -/
theorem C4_ef_density_header (xs : List Nat) (h2 : 2 ≤ xs.length)
    (hsort : xs.Sorted (· < ·)) (hbound : ∀ x ∈ xs, x < 2 ^ 32) :
    ∃ first rest,
      eliasfanoencoder.delta_encode_since_min (xs.map Int.ofNat)
        = some (first :: rest) ∧
      Nat.clog 2 (((rest.map Int.toNat).getD ((rest.map Int.toNat).length - 1) 0
          + (rest.map Int.toNat).length - 1) / (rest.map Int.toNat).length)
        ≤ 32 ∧
      ∃ enc padding, eliasfanoencoder.encode xs = some (enc, padding) ∧
        enc.getD (vbencoder.encode first.toNat).length 0
          = (if (rest.map Int.toNat).length
                > (rest.map Int.toNat).getD ((rest.map Int.toNat).length - 1) 0 >>> 2
             then 255
             else Nat.clog 2 (((rest.map Int.toNat).getD
                 ((rest.map Int.toNat).length - 1) 0
               + (rest.map Int.toNat).length - 1) / (rest.map Int.toNat).length)) ∧
        eliasfanoencoder.decode_header_l enc
          = some (enc.getD (vbencoder.encode first.toNat).length 0) ∧
        (eliasfanoencoder.decode_header_l enc = some 255 ↔
          (rest.map Int.toNat).length
            > (rest.map Int.toNat).getD ((rest.map Int.toNat).length - 1) 0 >>> 2) := by
  have hms : xs.mergeSort (fun a b => decide (a ≤ b)) = xs :=
    List.mergeSort_of_sorted
      (hsort.imp (fun h => decide_eq_true (Nat.le_of_lt h)))
  obtain ⟨first, rest, hdelta, hguard, hrne, hsnats, hlnats, hmemb⟩ :=
    eliasfanoencoder.stream_facts xs h2 hsort
  refine ⟨first, rest, hdelta, ?_⟩
  obtain ⟨m, hm⟩ : ∃ v, (rest.map Int.toNat).length = v := ⟨_, rfl⟩
  obtain ⟨M, hM⟩ : ∃ v, (rest.map Int.toNat).getD (m - 1) 0 = v := ⟨_, rfl⟩
  rw [hm, hM]
  obtain ⟨L, hL⟩ : ∃ v, Nat.clog 2 ((M + m - 1) / m) = v := ⟨_, rfl⟩
  rw [hL]
  have hm2 : 2 ≤ m := by rw [hm] at hlnats; omega
  have hlen1 : ¬ xs.length = 1 := by omega
  have hne0 : ¬ (rest.map Int.toNat).length = 0 := by rw [hm]; omega
  have hltm : m - 1 < (rest.map Int.toNat).length := by rw [hm]; omega
  have hMmem : M ∈ rest.map Int.toNat := by
    rw [← hM, List.getD_eq_getElem?_getD, List.getElem?_eq_getElem hltm,
      Option.getD_some]
    exact List.getElem_mem hltm
  have hMb : M < 2 ^ 32 := by
    obtain ⟨x, hx, hMx⟩ := hmemb M hMmem
    exact lt_of_le_of_lt hMx (hbound x hx)
  have hL32 : L ≤ 32 := by
    rw [← hL]
    exact clog_ceil_le_32 M m (by omega) (le_of_lt hMb)
  refine ⟨hL32, ?_⟩
  by_cases hdense : m > M >>> 2
  · have hcond : ∀ x ∈ rest.map Int.toNat,
        x >>> 3 < (List.replicate ((M + 1 + 7) / 8) 0).length := by
      intro x hx
      have hxM := sorted_le_getD_last (rest.map Int.toNat) hsnats x hx
      rw [hm, hM] at hxM
      have h3 : x >>> 3 = x / 8 := by
        rw [Nat.shiftRight_eq_div_pow]
      rw [List.length_replicate, h3]
      omega
    obtain ⟨bvout, hbvloop⟩ := eliasfanoencoder.bvLoop_some
      (rest.map Int.toNat) (List.replicate ((M + 1 + 7) / 8) 0) hcond
    have hbv : eliasfanoencoder.bv_encode (rest.map Int.toNat)
        = some (bvout, (8 - ((M + 1) &&& 7))
            * (if (8 - ((M + 1) &&& 7)) < 8 then 1 else 0)) := by
      simp only [eliasfanoencoder.bv_encode]
      rw [if_neg hne0, hm, hM, hbvloop]
    have henc : eliasfanoencoder.encode xs
        = some (vbencoder.encode first.toNat ++ 255 :: bvout,
            (8 - ((M + 1) &&& 7))
              * (if (8 - ((M + 1) &&& 7)) < 8 then 1 else 0)) := by
      simp only [eliasfanoencoder.encode, hms, hdelta]
      rw [if_neg hlen1, if_neg hguard, if_neg hne0, hm, hM, if_pos hdense]
      simp only [hbv]
      rw [List.append_assoc, List.singleton_append]
    have hbyte : (vbencoder.encode first.toNat ++ 255 :: bvout).getD
        (vbencoder.encode first.toNat).length 0 = 255 :=
      list_getD_append_cons 255 (vbencoder.encode first.toNat) bvout
    have hr := vbencoder.decode_number_encode first.toNat (255 :: bvout)
    have hshift : ((vbencoder.encode first.toNat).length * 8) >>> 3
        = (vbencoder.encode first.toNat).length := by
      rw [Nat.shiftRight_eq_div_pow]
      have h8 : (2:Nat) ^ 3 = 8 := rfl
      rw [h8]
      omega
    have hdech : eliasfanoencoder.decode_header_l
        (vbencoder.encode first.toNat ++ 255 :: bvout) = some 255 := by
      simp only [eliasfanoencoder.decode_header_l]
      rw [hr]
      dsimp only
      rw [hshift]
      have hlt : (vbencoder.encode first.toNat).length
          < (vbencoder.encode first.toNat ++ 255 :: bvout).length := by
        simp
      rw [dif_pos hlt]
      rw [get_eq_getD, hbyte]
    refine ⟨vbencoder.encode first.toNat ++ 255 :: bvout, _, henc, ?_, ?_, ?_⟩
    · rw [if_pos hdense]
      exact hbyte
    · rw [hbyte, hdech]
    · exact iff_of_true hdech hdense
  · have hq : M >>> 2 = M / 4 := by
      rw [Nat.shiftRight_eq_div_pow]
    have h4m : 4 * m ≤ M := by
      rw [hq] at hdense
      omega
    have hL1 : 1 ≤ L := by
      rw [← hL]
      refine Nat.clog_pos (by norm_num) ?_
      exact (Nat.le_div_iff_mul_le (by omega)).mpr (by omega)
    have hnatsne : rest.map Int.toNat ≠ [] := by
      intro hnil
      rw [hnil] at hm
      simp at hm
      omega
    have hupne : (((rest.map Int.toNat).map (fun number =>
        (number - (number &&& eliasfanoencoder.MASKS L)) >>> L)).map
        Int.ofNat) ≠ [] := by
      simp only [ne_eq, List.map_eq_nil_iff]
      exact hrne
    have hdivsorted : ((rest.map Int.toNat).map (fun number =>
        (number - (number &&& eliasfanoencoder.MASKS L)) >>> L)).Sorted
        (· ≤ ·) := by
      refine List.Pairwise.map _ (fun a b h => ?_) hsnats
      rw [eliasfanoencoder.upper_eq_div, eliasfanoencoder.upper_eq_div]
      exact Nat.div_le_div_right h
    have hupsorted : ((((rest.map Int.toNat).map (fun number =>
        (number - (number &&& eliasfanoencoder.MASKS L)) >>> L)).map
        Int.ofNat)).Sorted (· ≤ ·) :=
      hdivsorted.map _ (fun a b h => Int.ofNat_le.mpr h)
    have hupnn : ∀ u ∈ (((rest.map Int.toNat).map (fun number =>
        (number - (number &&& eliasfanoencoder.MASKS L)) >>> L)).map
        Int.ofNat), 0 ≤ u := by
      intro u hu
      obtain ⟨y, -, rfl⟩ := List.mem_map.mp hu
      exact Int.ofNat_nonneg y
    obtain ⟨upperS, hup, hupwf⟩ := eliasfanoencoder.encode_upper_wf _
      hupne hupsorted hupnn
    obtain ⟨lowerS, hlo, hlowf⟩ := eliasfanoencoder.encode_lower_wf
      ((rest.map Int.toNat).map (fun number =>
        number &&& eliasfanoencoder.MASKS L)) L hL1
    obtain ⟨mg, hext, hmgwf⟩ := BitByteArray.extend_from_wf lowerS upperS
      hlowf hupwf
    have hbyteL : bitbyteutils.to_byte L = [L] :=
      bitbyteutils.to_byte_eq L (by omega)
    have hmg2 : eliasfanoencoder.merge_encodes L lowerS upperS
        = some (L :: mg.1, BitByteArray.paddingOf mg) := by
      simp only [eliasfanoencoder.merge_encodes]
      simp only [hext]
      rw [hbyteL, List.singleton_append]
    have henc2 : eliasfanoencoder.encode xs
        = some (vbencoder.encode first.toNat ++ L :: mg.1,
            BitByteArray.paddingOf mg) := by
      simp only [eliasfanoencoder.encode, hms, hdelta]
      rw [if_neg hlen1, if_neg hguard, if_neg hne0, hm, hM, if_neg hdense, hL]
      simp only [hup, hlo, hmg2]
    have hbyte2 : (vbencoder.encode first.toNat ++ L :: mg.1).getD
        (vbencoder.encode first.toNat).length 0 = L :=
      list_getD_append_cons L (vbencoder.encode first.toNat) mg.1
    have hr2 := vbencoder.decode_number_encode first.toNat (L :: mg.1)
    have hshift2 : ((vbencoder.encode first.toNat).length * 8) >>> 3
        = (vbencoder.encode first.toNat).length := by
      rw [Nat.shiftRight_eq_div_pow]
      have h8 : (2:Nat) ^ 3 = 8 := rfl
      rw [h8]
      omega
    have hdech2 : eliasfanoencoder.decode_header_l
        (vbencoder.encode first.toNat ++ L :: mg.1) = some L := by
      simp only [eliasfanoencoder.decode_header_l]
      rw [hr2]
      dsimp only
      rw [hshift2]
      have hlt2 : (vbencoder.encode first.toNat).length
          < (vbencoder.encode first.toNat ++ L :: mg.1).length := by
        simp
      rw [dif_pos hlt2]
      rw [get_eq_getD, hbyte2]
    refine ⟨vbencoder.encode first.toNat ++ L :: mg.1, _, henc2, ?_, ?_, ?_⟩
    · rw [if_neg hdense]
      exact hbyte2
    · rw [hbyte2, hdech2]
    · constructor
      · intro habs
        rw [hdech2] at habs
        have h255 := Option.some.inj habs
        exact absurd h255 (by omega)
      · intro hd
        exact absurd hd hdense

/-- Witness: the density-header theorem applied to the concrete strictly
increasing input [0, 100] (sparse: 2 ≤ 100 >> 2, so the header byte is the
computed l). -/
theorem C4_ef_density_header_witness :
    2 ≤ ([0, 100] : List Nat).length ∧
    ([0, 100] : List Nat).Sorted (· < ·) ∧
    (∀ x ∈ ([0, 100] : List Nat), x < 2 ^ 32) ∧
    (∃ first rest,
      eliasfanoencoder.delta_encode_since_min
          (([0, 100] : List Nat).map Int.ofNat)
        = some (first :: rest) ∧
      Nat.clog 2 (((rest.map Int.toNat).getD ((rest.map Int.toNat).length - 1) 0
          + (rest.map Int.toNat).length - 1) / (rest.map Int.toNat).length)
        ≤ 32 ∧
      ∃ enc padding, eliasfanoencoder.encode [0, 100] = some (enc, padding) ∧
        enc.getD (vbencoder.encode first.toNat).length 0
          = (if (rest.map Int.toNat).length
                > (rest.map Int.toNat).getD ((rest.map Int.toNat).length - 1) 0 >>> 2
             then 255
             else Nat.clog 2 (((rest.map Int.toNat).getD
                 ((rest.map Int.toNat).length - 1) 0
               + (rest.map Int.toNat).length - 1) / (rest.map Int.toNat).length)) ∧
        eliasfanoencoder.decode_header_l enc
          = some (enc.getD (vbencoder.encode first.toNat).length 0) ∧
        (eliasfanoencoder.decode_header_l enc = some 255 ↔
          (rest.map Int.toNat).length
            > (rest.map Int.toNat).getD ((rest.map Int.toNat).length - 1) 0 >>> 2)) :=
  ⟨by decide, by decide, by decide,
    C4_ef_density_header [0, 100] (by decide) (by decide) (by decide)⟩
